import Mathlib

/-!
# ronomon/quorum: the quorum decision engine of `binding.c`

A shallow embedding of the decision core of `src/binding.c` (`quorum_equal`,
`quorum_node`, `quorum_nodes`, `quorum_visit`, `quorum_slow`, `quorum_fast`,
`quorum_iterate`) followed by theorems about it.

Conventions of the embedding.

* A 16-byte identifier is a record of its sixteen bytes; a 32-byte version
  vector is the pair of identifiers stored at `vector` and `vector + QUORUM_ID`.
* The node arena `uint8_t* nodes` is a map from the byte offset at which a
  36-byte node starts to the six fields stored there (flags, index, count,
  carried count, ID, dependency). The arena handed to the code is arbitrary:
  it models uninitialised or reused memory.
* `uint8_t` stores are taken modulo 256 where the source can wrap.
* `vectors` is the list of the sources' vectors at the current position
  (`vectors[index] + vectorOffset` for `index < vectorsLength`).
* The sources, the quorum buffer and the target buffer are maps from a byte
  offset to the byte stored there; `quorum_iterate` keeps the offsets by which
  it has advanced its `quorum` and `target` pointers.
* A call that does not return yields `Except.error`: a failed `assert`, a
  read through a pointer that is not valid (a `NULL` exemplar, a source index
  outside the sources), or the exhaustion of the fuel that bounds a loop or
  the recursion in the model.
-/

namespace Ronomon

/-! ## Constants -/

def QUORUM_SOURCES_MIN : Nat := 1
def QUORUM_SOURCES_MAX : Nat := 255
def QUORUM_ID : Nat := 16
def QUORUM_NODE : Int := 36
def QUORUM_NODES : Int := QUORUM_NODE * 2 * 255
def QUORUM_VECTOR : Nat := 32
def QUORUM_DEPENDENT : Nat := 1
def QUORUM_TEMPORARY : Nat := 2
def QUORUM_PERMANENT : Nat := 4
def UINT8_MAX : Nat := 255

/-! ## Data model -/

/-- Sixteen bytes of an identifier, `a[0]` to `a[15]`. -/
structure Ident where
  b0 : Nat
  b1 : Nat
  b2 : Nat
  b3 : Nat
  b4 : Nat
  b5 : Nat
  b6 : Nat
  b7 : Nat
  b8 : Nat
  b9 : Nat
  b10 : Nat
  b11 : Nat
  b12 : Nat
  b13 : Nat
  b14 : Nat
  b15 : Nat
deriving DecidableEq, Repr

/-- The identifier with all sixteen bytes equal to `b` (`memset(a, b, 16)`). -/
def Ident.fill (b : Nat) : Ident :=
  ⟨b, b, b, b, b, b, b, b, b, b, b, b, b, b, b, b⟩

/-- A 32-byte version vector: the ID at `vector`, the dependency at
`vector + QUORUM_ID`. -/
structure Vec where
  own_id : Ident
  predecessor_id : Ident
deriving DecidableEq, Repr

/-- One 36-byte node of the arena: byte 0 flags, byte 1 source index, byte 2
count, byte 3 count carried from the dependency, bytes 4..19 the ID, bytes
20..35 the dependency. -/
structure Node where
  flags : Nat
  index : Nat
  count : Nat
  carried : Nat
  id : Ident
  dependency : Ident
deriving DecidableEq, Repr

/-- The four quorum bytes of one record position. -/
structure Quorum where
  leader : Nat
  length : Nat
  repair : Nat
  forked : Nat
deriving DecidableEq, Repr

/-- Reasons for which a call does not return. -/
inductive Stop where
  | assertion
  | null
  | fuel
deriving DecidableEq, Repr

/-- The node arena, keyed by the byte offset of a node. -/
abbrev Arena := Int → Node

/-- What `quorum_visit` leaves behind: its return value, the arena, the quorum
bytes and the value it stored through `count` (meaningful when `error = 0`). -/
structure Visited where
  error : Int
  nodes : Arena
  quorum : Quorum
  count : Nat

/-- What `quorum_slow` and `quorum_fast` leave behind: the return value, the
arena and the quorum bytes. -/
structure Outcome where
  error : Int
  nodes : Arena
  quorum : Quorum

/-! ## The code -/

/-- Source: `quorum_equal`, sixteen unrolled byte comparisons. -/
def quorum_equal (a b : Ident) : Int :=
  if a.b0 ≠ b.b0 then 0
  else if a.b1 ≠ b.b1 then 0
  else if a.b2 ≠ b.b2 then 0
  else if a.b3 ≠ b.b3 then 0
  else if a.b4 ≠ b.b4 then 0
  else if a.b5 ≠ b.b5 then 0
  else if a.b6 ≠ b.b6 then 0
  else if a.b7 ≠ b.b7 then 0
  else if a.b8 ≠ b.b8 then 0
  else if a.b9 ≠ b.b9 then 0
  else if a.b10 ≠ b.b10 then 0
  else if a.b11 ≠ b.b11 then 0
  else if a.b12 ≠ b.b12 then 0
  else if a.b13 ≠ b.b13 then 0
  else if a.b14 ≠ b.b14 then 0
  else if a.b15 ≠ b.b15 then 0
  else 1

/-- The `while` loop of `quorum_node` followed by its miss exit. The fuel
bounds the number of iterations. -/
def quorum_node_loop : Nat → Arena → Int → Int → Ident → Except Stop Int
  | 0, _, _, _, _ => .error .fuel
  | fuel + 1, nodes, nodesLength, nodesOffset, vector =>
    if nodesOffset < nodesLength then
      if quorum_equal (nodes nodesOffset).id vector ≠ 0 then .ok nodesOffset
      else quorum_node_loop fuel nodes nodesLength (nodesOffset + QUORUM_NODE) vector
    else if nodesLength < QUORUM_NODES then .ok (-(nodesLength + 1))
    else .error .assertion

/-- Source: `quorum_node`: the offset of the node holding `vector`, or
`-(nodesLength + 1)` on a miss (after the free-space assertion). -/
def quorum_node (nodes : Arena) (nodesLength : Int) (vector : Ident) : Except Stop Int :=
  quorum_node_loop (nodesLength.toNat + 1) nodes nodesLength 0 vector

/-- Lines 121-129 of `quorum_nodes`: the node of an ID that is present is
counted once more and, if it was not dependent, made dependent on the
predecessor of the vector. -/
def quorum_nodes_count (node : Node) (vector : Vec) : Node :=
  let node := { node with count := (node.count + 1) % 256 }
  if node.flags &&& QUORUM_DEPENDENT = 0 then
    { node with flags := node.flags ||| QUORUM_DEPENDENT,
                dependency := vector.predecessor_id }
  else node

/-- Lines 111-130 of `quorum_nodes`: account for the ID of one vector. -/
def quorum_nodes_id (nodes : Arena) (nodesLength : Int) (index : Nat) (vector : Vec) :
    Except Stop (Arena × Int) :=
  match quorum_node nodes nodesLength vector.own_id with
  | .error e => .error e
  | .ok nodesOffset =>
    if nodesOffset < 0 then
      let nodesOffset := -(nodesOffset + 1)
      .ok (Function.update nodes nodesOffset
            { flags := QUORUM_DEPENDENT, index := index % 256, count := 1, carried := 0,
              id := vector.own_id, dependency := vector.predecessor_id },
           nodesLength + QUORUM_NODE)
    else
      .ok (Function.update nodes nodesOffset (quorum_nodes_count (nodes nodesOffset) vector),
           nodesLength)

/-- Lines 131-140 of `quorum_nodes`: reserve a node for the dependency of one
vector. Only the 16 ID bytes are copied: the dependency bytes of the slot keep
what the arena held. -/
def quorum_nodes_dependency (nodes : Arena) (nodesLength : Int) (vector : Vec) :
    Except Stop (Arena × Int) :=
  match quorum_node nodes nodesLength vector.predecessor_id with
  | .error e => .error e
  | .ok nodesOffset =>
    if nodesOffset < 0 then
      let nodesOffset := -(nodesOffset + 1)
      .ok (Function.update nodes nodesOffset
            { nodes nodesOffset with flags := 0, index := 0, count := 0, carried := 0,
                                     id := vector.predecessor_id },
           nodesLength + QUORUM_NODE)
    else .ok (nodes, nodesLength)

/-- The `for` loop of `quorum_nodes` from `index` on, over the vectors not yet
scanned. -/
def quorum_nodes_loop : List Vec → Nat → Arena → Int → Except Stop (Arena × Int)
  | [], _, nodes, nodesLength => .ok (nodes, nodesLength)
  | vector :: rest, index, nodes, nodesLength =>
    match quorum_nodes_id nodes nodesLength index vector with
    | .error e => .error e
    | .ok (nodes, nodesLength) =>
      match quorum_nodes_dependency nodes nodesLength vector with
      | .error e => .error e
      | .ok (nodes, nodesLength) => quorum_nodes_loop rest (index + 1) nodes nodesLength

/-- Source: `quorum_nodes`: build the node table, return its length in bytes. -/
def quorum_nodes (vectors : List Vec) (nodes : Arena) : Except Stop (Arena × Int) :=
  if vectors.length < QUORUM_SOURCES_MIN then .error .assertion
  else if vectors.length > QUORUM_SOURCES_MAX then .error .assertion
  else quorum_nodes_loop vectors 0 nodes 0

/-- Lines 172-182 of `quorum_visit`: mark the node permanent, update the best
decision seen so far and hand back the node's count. -/
def quorum_visit_finish (nodes : Arena) (nodesOffset : Int) (quorum : Quorum) : Visited :=
  let node := nodes nodesOffset
  let node := { node with flags := node.flags ||| QUORUM_PERMANENT }
  let nodes := Function.update nodes nodesOffset node
  let quorum :=
    if quorum.length < node.count then
      { leader := node.index, length := node.count, repair := node.carried, forked := 0 }
    else if quorum.length = node.count then
      { quorum with forked := 1 }
    else quorum
  { error := 0, nodes := nodes, quorum := quorum, count := node.count }

/-- Source: `quorum_visit`. The fuel bounds the depth of the recursion. The
callee stores through `count` (the caller's carried byte) only where it
returns 0, so the caller's store of the returned count is that write. -/
def quorum_visit : Nat → Arena → Int → Int → Quorum → Nat → Except Stop Visited
  | 0, _, _, _, _, _ => .error .fuel
  | fuel + 1, nodes, nodesOffset, nodesLength, quorum, count =>
    if nodesOffset < 0 then .error .assertion
    else if ¬ (nodesLength > 0) then .error .assertion
    else if (nodes nodesOffset).flags &&& QUORUM_PERMANENT ≠ 0 then
      .ok { error := 0, nodes := nodes, quorum := quorum, count := (nodes nodesOffset).count }
    else if (nodes nodesOffset).flags &&& QUORUM_TEMPORARY ≠ 0 then
      .ok { error := 1, nodes := nodes, quorum := quorum, count := count }
    else
      let node := nodes nodesOffset
      let nodes := Function.update nodes nodesOffset
        { node with flags := node.flags ||| QUORUM_TEMPORARY }
      if (nodes nodesOffset).flags &&& QUORUM_DEPENDENT ≠ 0 then
        match quorum_node nodes nodesLength (nodes nodesOffset).dependency with
        | .error e => .error e
        | .ok dependencyOffset =>
          match quorum_visit fuel nodes dependencyOffset nodesLength quorum
              (nodes nodesOffset).carried with
          | .error e => .error e
          | .ok visited =>
            if visited.error ≠ 0 then
              .ok { error := visited.error, nodes := visited.nodes, quorum := visited.quorum,
                    count := count }
            else
              let node := visited.nodes nodesOffset
              let node := { node with carried := visited.count }
              if ¬ (node.count + node.carried ≤ UINT8_MAX) then .error .assertion
              else
                let node := { node with count := (node.count + node.carried) % 256 }
                .ok (quorum_visit_finish (Function.update visited.nodes nodesOffset node)
                      nodesOffset visited.quorum)
      else .ok (quorum_visit_finish nodes nodesOffset quorum)

/-- The `while` loop of `quorum_slow` from `nodesOffset` on. The fuel bounds
the number of iterations; each call of `quorum_visit` gets one unit of fuel
per node of the table, plus one. -/
def quorum_slow_loop : Nat → Arena → Int → Int → Quorum → Except Stop Outcome
  | 0, _, _, _, _ => .error .fuel
  | fuel + 1, nodes, nodesOffset, nodesLength, quorum =>
    if nodesOffset < nodesLength then
      if (nodes nodesOffset).flags &&& (QUORUM_TEMPORARY ||| QUORUM_PERMANENT) = 0 then
        match quorum_visit ((nodesLength / QUORUM_NODE).toNat + 1) nodes nodesOffset
            nodesLength quorum 0 with
        | .error e => .error e
        | .ok visited =>
          if visited.error ≠ 0 then
            .ok { error := visited.error, nodes := visited.nodes, quorum := visited.quorum }
          else
            quorum_slow_loop fuel visited.nodes (nodesOffset + QUORUM_NODE) nodesLength
              visited.quorum
      else quorum_slow_loop fuel nodes (nodesOffset + QUORUM_NODE) nodesLength quorum
    else .ok { error := 0, nodes := nodes, quorum := quorum }

/-- Source: `quorum_slow`. The quorum bytes are zeroed, the table is built,
every unmarked node is visited in table order, and a fork zeroes the first
three bytes. -/
def quorum_slow (vectors : List Vec) (nodes : Arena) (_quorum : Quorum) : Except Stop Outcome :=
  if vectors.length < QUORUM_SOURCES_MIN then .error .assertion
  else if vectors.length > QUORUM_SOURCES_MAX then .error .assertion
  else
    let quorum : Quorum := { leader := 0, length := 0, repair := 0, forked := 0 }
    match quorum_nodes vectors nodes with
    | .error e => .error e
    | .ok (nodes, nodesLength) =>
      match quorum_slow_loop (nodesLength.toNat + 1) nodes 0 nodesLength quorum with
      | .error e => .error e
      | .ok out =>
        if out.error ≠ 0 then .ok out
        else if out.quorum.forked = 1 then
          .ok { out with quorum := { out.quorum with leader := 0, length := 0, repair := 0 } }
        else if out.quorum.forked = 0 then .ok out
        else .error .assertion

/-- The local variables of `quorum_fast`: the two exemplars (`NULL` until
adopted), their first indices and their counts. -/
structure Chains where
  a : Option Vec
  b : Option Vec
  aIndex : Nat
  bIndex : Nat
  aLength : Nat
  bLength : Nat
deriving DecidableEq, Repr

/-- How the scan of `quorum_fast` ends: with a `return` from inside the loop
(the cyclic-reference error or the result of `quorum_slow`), or by running off
the end of the sources with the chains it counted. -/
inductive Scan where
  | returned (out : Outcome)
  | scanned (chains : Chains)

/-- The `for` loop of `quorum_fast` from `index` on, over the vectors not yet
scanned; `vectors` is the whole list, which `quorum_slow` rescans. -/
def quorum_fast_loop (vectors : List Vec) (nodes : Arena) (quorum : Quorum) :
    List Vec → Nat → Chains → Except Stop Scan
  | [], _, chains => .ok (.scanned chains)
  | vector :: rest, index, chains =>
    if quorum_equal vector.own_id vector.predecessor_id ≠ 0 then
      .ok (.returned { error := 1, nodes := nodes, quorum := quorum })
    else if chains.aLength = 0 then
      quorum_fast_loop vectors nodes quorum rest (index + 1)
        { chains with a := some vector, aIndex := index, aLength := chains.aLength + 1 }
    else
      match chains.a with
      | none => .error .null
      | some a =>
        if quorum_equal vector.own_id a.own_id ≠ 0 then
          quorum_fast_loop vectors nodes quorum rest (index + 1)
            { chains with aLength := chains.aLength + 1 }
        else if quorum_equal vector.own_id a.predecessor_id ≠ 0 ∨
            quorum_equal a.own_id vector.predecessor_id ≠ 0 then
          match quorum_slow vectors nodes quorum with
          | .error e => .error e
          | .ok out => .ok (.returned out)
        else if chains.bLength = 0 then
          quorum_fast_loop vectors nodes quorum rest (index + 1)
            { chains with b := some vector, bIndex := index, bLength := chains.bLength + 1 }
        else
          match chains.b with
          | none => .error .null
          | some b =>
            if quorum_equal vector.own_id b.own_id ≠ 0 then
              quorum_fast_loop vectors nodes quorum rest (index + 1)
                { chains with bLength := chains.bLength + 1 }
            else
              match quorum_slow vectors nodes quorum with
              | .error e => .error e
              | .ok out => .ok (.returned out)

/-- Lines 271-294 of `quorum_fast`: the assertions after the scan and the
decision from the two counts. -/
def quorum_fast_decide (vectorsLength : Nat) (nodes : Arena) (chains : Chains) :
    Except Stop Outcome :=
  if ¬ (chains.aIndex ≤ UINT8_MAX) then .error .assertion
  else if ¬ (chains.bIndex ≤ UINT8_MAX) then .error .assertion
  else if ¬ (chains.aIndex < vectorsLength) then .error .assertion
  else if ¬ (chains.bIndex < vectorsLength) then .error .assertion
  else if ¬ (chains.aLength ≤ UINT8_MAX) then .error .assertion
  else if ¬ (chains.bLength ≤ UINT8_MAX) then .error .assertion
  else if ¬ (chains.aLength + chains.bLength = vectorsLength) then .error .assertion
  else if chains.aLength = chains.bLength then
    .ok { error := 0, nodes := nodes,
          quorum := { leader := 0, length := 0, repair := 0, forked := 1 } }
  else if chains.aLength > chains.bLength then
    .ok { error := 0, nodes := nodes,
          quorum := { leader := chains.aIndex % 256, length := chains.aLength % 256,
                      repair := 0, forked := 0 } }
  else
    .ok { error := 0, nodes := nodes,
          quorum := { leader := chains.bIndex % 256, length := chains.bLength % 256,
                      repair := 0, forked := 0 } }

/-- Source: `quorum_fast`: the decision for one record position, from the
sources' vectors, an arena and the quorum bytes to write. -/
def quorum_fast (vectors : List Vec) (nodes : Arena) (quorum : Quorum) : Except Stop Outcome :=
  if vectors.length < QUORUM_SOURCES_MIN then .error .assertion
  else if vectors.length > QUORUM_SOURCES_MAX then .error .assertion
  else
    match quorum_fast_loop vectors nodes quorum vectors 0
        { a := none, b := none, aIndex := 0, bIndex := 0, aLength := 0, bLength := 0 } with
    | .error e => .error e
    | .ok (.returned out) => .ok out
    | .ok (.scanned chains) => quorum_fast_decide vectors.length nodes chains

/-! ## Observations and specification vocabulary -/

/-- The value returned by a call, when it returns. -/
def Outcome.code (r : Except Stop Outcome) : Option Int :=
  match r with
  | .error _ => none
  | .ok out => some out.error

/-- The four quorum bytes a call leaves behind, when it returns. -/
def Outcome.bytes (r : Except Stop Outcome) : Option Quorum :=
  match r with
  | .error _ => none
  | .ok out => some out.quorum

/-- A `return quorum_slow(...)` from inside the scan of `quorum_fast`. -/
def Scan.delegated (r : Except Stop Outcome) : Except Stop Scan :=
  match r with
  | .error e => .error e
  | .ok out => .ok (.returned out)

/-- The state of `quorum_fast` after it has adopted the first vector `a0`. -/
def Chains.first (a0 : Vec) : Chains :=
  { a := some a0, b := none, aIndex := 0, bIndex := 0, aLength := 1, bLength := 0 }

/-- Loop invariant of the scan of `quorum_fast` once the vectors `pre`, the
first of which is `a0`, have been scanned without a `return`. -/
structure FastInv (a0 : Vec) (pre : List Vec) (c : Chains) : Prop where
  head : pre.head? = some a0
  a_eq : c.a = some a0
  aIndex : c.aIndex = 0
  aLength : c.aLength = pre.countP (fun v => v.own_id = a0.own_id)
  noself : ∀ v ∈ pre, v.own_id ≠ v.predecessor_id
  unrelated : ∀ v ∈ pre, v.own_id ≠ a0.own_id →
    v.own_id ≠ a0.predecessor_id ∧ a0.own_id ≠ v.predecessor_id
  bLength : c.bLength = pre.countP (fun v => v.own_id ≠ a0.own_id)
  b_none : c.bLength = 0 → c.b = none ∧ c.bIndex = 0
  b_some : c.bLength ≠ 0 → ∃ b0, c.b = some b0 ∧ b0.own_id ≠ a0.own_id ∧
    pre[c.bIndex]? = some b0 ∧
    (∀ j u, j < c.bIndex → pre[j]? = some u → u.own_id = a0.own_id) ∧
    ∀ v ∈ pre, v.own_id ≠ a0.own_id → v.own_id = b0.own_id

/-- Why the scan of `quorum_fast` over `vectors`, whose first vector is `a0`,
hands over to `quorum_slow`: a vector of another version is linked with `a0`,
or two versions other than that of `a0` occur. -/
def Delegates (a0 : Vec) (vectors : List Vec) : Prop :=
  (∃ v ∈ vectors, v.own_id ≠ a0.own_id ∧
    (v.own_id = a0.predecessor_id ∨ a0.own_id = v.predecessor_id)) ∨
  (∃ u ∈ vectors, ∃ v ∈ vectors, u.own_id ≠ a0.own_id ∧ v.own_id ≠ a0.own_id ∧
    u.own_id ≠ v.own_id)

/-- Source index `i` is the lowest one whose vector has `x` as its own ID. -/
def LowestIndex (vectors : List Vec) (x : Ident) (i : Nat) : Prop :=
  (∃ v, vectors[i]? = some v ∧ v.own_id = x) ∧
  ∀ j u, j < i → vectors[j]? = some u → u.own_id ≠ x

/-- Number of sources whose vector has `x` as its own ID. -/
def holders (vectors : List Vec) (x : Ident) : Nat :=
  vectors.countP (fun v => v.own_id = x)

/-- Byte offset of the node numbered `i` in the arena. -/
def offset (i : Nat) : Int := QUORUM_NODE * i

/-- The node numbered `i` of the arena. -/
def entry (nodes : Arena) (i : Nat) : Node := nodes (offset i)

/-- The predecessor the table records for `x`: the predecessor ID of the
lowest-indexed source whose own ID is `x`. -/
def predOf (vectors : List Vec) (x : Ident) : Option Ident :=
  (vectors.find? (fun v => v.own_id = x)).map (fun v => v.predecessor_id)

/-- Some vector of the list has `x` as its own ID or as its predecessor ID. -/
def Seen (vectors : List Vec) (x : Ident) : Prop :=
  ∃ v ∈ vectors, v.own_id = x ∨ v.predecessor_id = x

/-- The source index `quorum_nodes` stores for `x`, scanning from source
`index`: the index of the source that first presents `x`, if it presents it as
its own ID, and 0 if `x` first occurs as a predecessor ID (or not at all). -/
def firstSeen : List Vec → Nat → Ident → Nat
  | [], _, _ => 0
  | v :: rest, index, x =>
    if v.own_id = x then index
    else if v.predecessor_id = x then 0
    else firstSeen rest (index + 1) x

/-- Some node among the first `n` holds the ID `x`. -/
def Covers (nodes : Arena) (n : Nat) (x : Ident) : Prop :=
  ∃ i, i < n ∧ (entry nodes i).id = x

/-- What the first `n` nodes hold once `quorum_nodes` has accounted for the
vectors `vectors`: distinct IDs that occur in the vectors, and for each ID its
number of holders, the dependent flag, the stored source index and the
predecessor of its first holder. -/
structure Fields (vectors : List Vec) (nodes : Arena) (n : Nat) : Prop where
  distinct : ∀ j k, j < n → k < n → (entry nodes j).id = (entry nodes k).id → j = k
  seen : ∀ i, i < n → Seen vectors (entry nodes i).id
  flags : ∀ i, i < n →
    (entry nodes i).flags = if holders vectors (entry nodes i).id = 0 then 0 else 1
  index : ∀ i, i < n → (entry nodes i).index = firstSeen vectors 0 (entry nodes i).id
  count : ∀ i, i < n → (entry nodes i).count = holders vectors (entry nodes i).id
  carried : ∀ i, i < n → (entry nodes i).carried = 0
  dependency : ∀ i, i < n → holders vectors (entry nodes i).id ≠ 0 →
    predOf vectors (entry nodes i).id = some (entry nodes i).dependency

/-- The table of `n` nodes after the loop of `quorum_nodes` has scanned the
vectors `vectors`. -/
structure Built (vectors : List Vec) (nodes : Arena) (n : Nat) : Prop where
  fields : Fields vectors nodes n
  covers : ∀ v ∈ vectors, Covers nodes n v.own_id ∧ Covers nodes n v.predecessor_id
  size : n ≤ 2 * vectors.length

/-- The table between the two lookups of one iteration of `quorum_nodes`: the
ID of `v` is accounted for, its dependency is not yet reserved. -/
structure Half (pre : List Vec) (v : Vec) (nodes : Arena) (n : Nat) : Prop where
  fields : Fields (pre ++ [v]) nodes n
  covers : ∀ u ∈ pre, Covers nodes n u.own_id ∧ Covers nodes n u.predecessor_id
  covers_id : Covers nodes n v.own_id
  size : n ≤ 2 * pre.length + 1

/-- The endorsement count of an ID: `Endorse vectors x k` says that `E(x) = k`,
where `E(x)` is 0 when no source holds `x` and otherwise the number of holders
of `x` plus `E` of the predecessor of `x`. -/
inductive Endorse (vectors : List Vec) : Ident → Nat → Prop where
  | unheld (x : Ident) : holders vectors x = 0 → Endorse vectors x 0
  | held (x y : Ident) (k : Nat) : predOf vectors x = some y → Endorse vectors y k →
      Endorse vectors x (holders vectors x + k)

/-- The held IDs met from `x` on by following predecessor links, `x` first,
up to the first ID that no source holds. -/
inductive Chain (vectors : List Vec) : Ident → List Ident → Prop where
  | stop (x : Ident) : holders vectors x = 0 → Chain vectors x []
  | next (x y : Ident) (l : List Ident) : predOf vectors x = some y → Chain vectors y l →
      Chain vectors x (x :: l)

/-- One predecessor link of the table: `y` is the predecessor recorded for the
held ID `x`. -/
def Link (vectors : List Vec) (x y : Ident) : Prop :=
  predOf vectors x = some y

/-- Number of nodes among the first `n` that carry neither the temporary nor
the permanent mark. -/
def unmarked (nodes : Arena) : Nat → Nat
  | 0 => 0
  | n + 1 => unmarked nodes n + if (entry nodes n).flags < 2 then 1 else 0

/-- The part of the table that `quorum_visit` never changes: the first `n`
nodes hold distinct IDs, among them every ID of the vectors. -/
structure Table (vectors : List Vec) (nodes : Arena) (n : Nat) : Prop where
  distinct : ∀ j k, j < n → k < n → (entry nodes j).id = (entry nodes k).id → j = k
  covers : ∀ v ∈ vectors, Covers nodes n v.own_id ∧ Covers nodes n v.predecessor_id
  seen : ∀ i, i < n → Seen vectors (entry nodes i).id

/-- What one node holds during the traversal of `quorum_slow`. Its flags are
the dependent bit alone (unmarked, flags below 2), with the temporary mark
(flags 2 or 3) or with both marks (flags 6 or 7). Until the permanent mark is
set the count is the number of holders; from then on it is the endorsement
count, and the carried count is that of the predecessor. -/
structure Good (vectors : List Vec) (e : Node) : Prop where
  index : e.index = firstSeen vectors 0 e.id
  flags : e.flags = (if holders vectors e.id = 0 then 0 else 1) ∨
    e.flags = (if holders vectors e.id = 0 then 0 else 1) + 2 ∨
    e.flags = (if holders vectors e.id = 0 then 0 else 1) + 6
  dependency : holders vectors e.id ≠ 0 → predOf vectors e.id = some e.dependency
  fresh : e.flags < 4 → e.count = holders vectors e.id ∧ e.carried = 0
  done : 4 ≤ e.flags → Endorse vectors e.id e.count ∧
    (holders vectors e.id = 0 → e.carried = 0) ∧
    (holders vectors e.id ≠ 0 →
      Endorse vectors e.dependency e.carried ∧ e.count = holders vectors e.id + e.carried)

/-- The quorum bytes during the traversal, against the nodes that carry the
permanent mark: `length` is their greatest count; with `forked = 0` exactly
one of them attains it, and `leader` and `repair` are its index and carried
count; with `forked = 1` and a positive `length` at least two attain it. -/
structure Best (nodes : Arena) (n : Nat) (q : Quorum) : Prop where
  forked : q.forked = 0 ∨ q.forked = 1
  zero : q.length = 0 → q.leader = 0 ∧ q.repair = 0 ∧
    ∀ j, j < n → 4 ≤ (entry nodes j).flags → (entry nodes j).count = 0
  top : q.length ≠ 0 → ∃ t, t < n ∧ 4 ≤ (entry nodes t).flags ∧
    (entry nodes t).count = q.length ∧
    (∀ j, j < n → 4 ≤ (entry nodes j).flags → (entry nodes j).count ≤ q.length) ∧
    (q.forked = 0 → q.leader = (entry nodes t).index ∧ q.repair = (entry nodes t).carried ∧
      ∀ j, j < n → 4 ≤ (entry nodes j).flags → (entry nodes j).count = q.length → j = t) ∧
    (q.forked = 1 → ∃ t2, t2 < n ∧ t2 ≠ t ∧ 4 ≤ (entry nodes t2).flags ∧
      (entry nodes t2).count = q.length)

/-- The state in which a call of `quorum_visit` on node `i` that returns 0
leaves the table, against the state `nodes` in which it was entered. -/
structure Settled (vectors : List Vec) (n : Nat) (nodes : Arena) (i : Nat) (r : Visited) :
    Prop where
  ids : ∀ j, j < n → (entry r.nodes j).id = (entry nodes j).id
  good : ∀ j, j < n → Good vectors (entry r.nodes j)
  best : Best r.nodes n r.quorum
  done : 4 ≤ (entry r.nodes i).flags
  count : r.count = (entry r.nodes i).count
  frame : ∀ j, j < n → 2 ≤ (entry nodes j).flags → entry r.nodes j = entry nodes j
  marks : ∀ j, j < n → (entry nodes j).flags < 2 →
    (entry r.nodes j).flags < 2 ∨ 4 ≤ (entry r.nodes j).flags

/-- The ID `M` has the greatest endorsement count, `m`, and it is positive. -/
def Winner (vectors : List Vec) (M : Ident) (m : Nat) : Prop :=
  Endorse vectors M m ∧ 0 < m ∧ ∀ x k, Endorse vectors x k → k ≤ m

/-- What `quorum_slow` writes when it returns 0. Every ID has an endorsement
count. With `forked = 0` a single ID `M` attains the greatest count: `length`
is that count, `leader` the source index stored for `M` and `repair` the
endorsement count of the predecessor of `M`. With `forked = 1` two IDs attain
it and the other three bytes are 0. -/
structure Decision (vectors : List Vec) (q : Quorum) : Prop where
  total : ∀ x, ∃ k, Endorse vectors x k
  forked : q.forked = 0 ∨ q.forked = 1
  winner : ∃ M m, Winner vectors M m ∧
    (q.forked = 0 → q.length = m ∧ q.leader = firstSeen vectors 0 M ∧
      (∃ y, Link vectors M y ∧ Endorse vectors y q.repair) ∧
      ∀ x, Endorse vectors x m → x = M) ∧
    (q.forked = 1 → q.leader = 0 ∧ q.length = 0 ∧ q.repair = 0 ∧
      ∃ M2, M2 ≠ M ∧ Endorse vectors M2 m)

/-- The endorsement count computed by following at most `fuel` predecessor
links: 0 for an ID that no source holds, otherwise the number of holders plus
the count of the recorded predecessor. -/
def endorsement (vectors : List Vec) : Nat → Ident → Nat
  | 0, _ => 0
  | fuel + 1, x =>
    match predOf vectors x with
    | none => 0
    | some y => holders vectors x + endorsement vectors fuel y

/-- Sources with equal own IDs have equal predecessor IDs (the assumption
under which the code reads one predecessor per ID). -/
def Consistent (vectors : List Vec) : Prop :=
  ∀ u ∈ vectors, ∀ v ∈ vectors, u.own_id = v.own_id → u.predecessor_id = v.predecessor_id

/-- One predecessor link presented by a source: some vector has own ID `x`
and predecessor ID `y`. -/
def Step (vectors : List Vec) (x y : Ident) : Prop :=
  ∃ v ∈ vectors, v.own_id = x ∧ v.predecessor_id = y

/-- A predecessor cycle among the sources' vectors: vectors `v1, ..., vk`
(here `v :: c`, so `k ≥ 1`) with the predecessor ID of each equal to the own
ID of the next, and the predecessor ID of `vk` equal to the own ID of `v1`. -/
def Cyclic (vectors : List Vec) : Prop :=
  ∃ (v : Vec) (c : List Vec), (∀ u ∈ v :: c, u ∈ vectors) ∧
    List.Chain' (fun a b => a.predecessor_id = b.own_id) (v :: c) ∧
    ((v :: c).getLast (List.cons_ne_nil v c)).predecessor_id = v.own_id

/-- The ID `x` attains the maximum of the endorsement counts. -/
def Maximal (vectors : List Vec) (x : Ident) : Prop :=
  ∃ m, Endorse vectors x m ∧ ∀ z k, Endorse vectors z k → k ≤ m

/-- The four bytes `quorum_fast` writes from the counts of a completed scan,
with the leader byte of the second chain read from the node table's rule
(`firstSeen`) instead of `bIndex`. -/
def Chains.decision (vectors : List Vec) (c : Chains) : Quorum :=
  if c.aLength = c.bLength then { leader := 0, length := 0, repair := 0, forked := 1 }
  else if c.aLength > c.bLength then
    { leader := 0, length := c.aLength, repair := 0, forked := 0 }
  else
    { leader := match c.b with
        | some b0 => firstSeen vectors 0 b0.own_id
        | none => 0,
      length := c.bLength, repair := 0, forked := 0 }

/-- The counts with which the scan of `quorum_fast` ran off the end of the
sources, when it did so: the fast path then decides by itself. -/
def Scan.chains (r : Except Stop Scan) : Option Chains :=
  match r with
  | .ok (.scanned c) => some c
  | _ => none

/-- The state in which `quorum_fast` starts its scan. -/
def Chains.init : Chains :=
  { a := none, b := none, aIndex := 0, bIndex := 0, aLength := 0, bLength := 0 }

/-- The four bytes `quorum_fast` writes from the counts of a completed scan
(lines 278-293). -/
def Chains.bytes (c : Chains) : Quorum :=
  if c.aLength = c.bLength then { leader := 0, length := 0, repair := 0, forked := 1 }
  else if c.aLength > c.bLength then
    { leader := 0, length := c.aLength, repair := 0, forked := 0 }
  else { leader := c.bIndex, length := c.bLength, repair := 0, forked := 0 }

/-! ## Sample inputs -/

/-- An arena of zero bytes. -/
def sampleArena : Arena := fun _ => ⟨0, 0, 0, 0, Ident.fill 0, Ident.fill 0⟩

/-- Quorum bytes left over from an earlier position. -/
def sampleQuorum : Quorum := ⟨9, 9, 9, 9⟩

/-- Three versions in one chain: `AA|00`, `BB|AA`, `CC|BB`. -/
def sampleChain : List Vec :=
  [⟨Ident.fill 0xAA, Ident.fill 0⟩, ⟨Ident.fill 0xBB, Ident.fill 0xAA⟩,
   ⟨Ident.fill 0xCC, Ident.fill 0xBB⟩]

/-- Two unrelated versions with one holder each: `AA|00`, `BB|00`. -/
def sampleTie : List Vec :=
  [⟨Ident.fill 0xAA, Ident.fill 0⟩, ⟨Ident.fill 0xBB, Ident.fill 0⟩]

/-- Two sources in one chain: `AA|00`, `BB|AA`. -/
def samplePair : List Vec :=
  [⟨Ident.fill 0xAA, Ident.fill 0⟩, ⟨Ident.fill 0xBB, Ident.fill 0xAA⟩]

/-- A cycle of three versions: `AA|BB`, `BB|CC`, `CC|AA`. -/
def sampleCycle : List Vec :=
  [⟨Ident.fill 0xAA, Ident.fill 0xBB⟩, ⟨Ident.fill 0xBB, Ident.fill 0xCC⟩,
   ⟨Ident.fill 0xCC, Ident.fill 0xAA⟩]

/-- A self-referencing vector behind a hand-over to the slow path, whose own
ID an earlier source holds with another predecessor: `AA|00`, `BB|AA`,
`AA|AA`. -/
def sampleSelfLate : List Vec :=
  [⟨Ident.fill 0xAA, Ident.fill 0⟩, ⟨Ident.fill 0xBB, Ident.fill 0xAA⟩,
   ⟨Ident.fill 0xAA, Ident.fill 0xAA⟩]

/-- A self-referencing vector behind a hand-over to the slow path, with
consistent sources: `AA|00`, `BB|AA`, `CC|CC`. -/
def sampleSelf : List Vec :=
  [⟨Ident.fill 0xAA, Ident.fill 0⟩, ⟨Ident.fill 0xBB, Ident.fill 0xAA⟩,
   ⟨Ident.fill 0xCC, Ident.fill 0xCC⟩]

/-- Two versions that the fast path counts, the second of which an earlier
vector names as its predecessor: `AA|00`, `AA|BB`, `BB|00`, `BB|00`, `BB|00`. -/
def sampleSplit : List Vec :=
  [⟨Ident.fill 0xAA, Ident.fill 0⟩, ⟨Ident.fill 0xAA, Ident.fill 0xBB⟩,
   ⟨Ident.fill 0xBB, Ident.fill 0⟩, ⟨Ident.fill 0xBB, Ident.fill 0⟩,
   ⟨Ident.fill 0xBB, Ident.fill 0⟩]

/-- A two-way split of consistent sources: `AA|00`, `BB|00`, `BB|00`. -/
def sampleMajority : List Vec :=
  [⟨Ident.fill 0xAA, Ident.fill 0⟩, ⟨Ident.fill 0xBB, Ident.fill 0⟩,
   ⟨Ident.fill 0xBB, Ident.fill 0⟩]

/-! ## Bytes of an identifier -/

/-- Byte `a[i]` of an identifier, for `i` from 0 to 15. -/
def Ident.byte (a : Ident) (i : Nat) : Nat :=
  match i with
  | 0 => a.b0
  | 1 => a.b1
  | 2 => a.b2
  | 3 => a.b3
  | 4 => a.b4
  | 5 => a.b5
  | 6 => a.b6
  | 7 => a.b7
  | 8 => a.b8
  | 9 => a.b9
  | 10 => a.b10
  | 11 => a.b11
  | 12 => a.b12
  | 13 => a.b13
  | 14 => a.b14
  | 15 => a.b15
  | _ => 0

/-- The identifier after the store `a[i] = value`, for `i` from 0 to 15. -/
def Ident.store (a : Ident) (i : Nat) (value : Nat) : Ident :=
  match i with
  | 0 => { a with b0 := value }
  | 1 => { a with b1 := value }
  | 2 => { a with b2 := value }
  | 3 => { a with b3 := value }
  | 4 => { a with b4 := value }
  | 5 => { a with b5 := value }
  | 6 => { a with b6 := value }
  | 7 => { a with b7 := value }
  | 8 => { a with b8 := value }
  | 9 => { a with b9 := value }
  | 10 => { a with b10 := value }
  | 11 => { a with b11 := value }
  | 12 => { a with b12 := value }
  | 13 => { a with b13 := value }
  | 14 => { a with b14 := value }
  | 15 => { a with b15 := value }
  | _ => a

/-- Many holders of one version followed by its successor: 85 sources `AA|00`
and one source `BB|AA`. -/
def sampleLate : List Vec :=
  List.replicate 85 ⟨Ident.fill 0xAA, Ident.fill 0⟩ ++ [⟨Ident.fill 0xBB, Ident.fill 0xAA⟩]

/-- The code returned by the first call of `quorum_visit` that `quorum_slow`
makes on `vectors`, on node 0 of the table just built, when the recursion has
room for `fuel` nested activations. -/
def quorum_visit_first (vectors : List Vec) (nodes : Arena) (fuel : Nat) : Except Stop Int :=
  match quorum_nodes vectors nodes with
  | .error e => .error e
  | .ok (nodes, nodesLength) =>
    match quorum_visit fuel nodes 0 nodesLength
        { leader := 0, length := 0, repair := 0, forked := 0 } 0 with
    | .error e => .error e
    | .ok visited => .ok visited.error

/-! ## The iterator: `quorum_iterate` -/

def QUORUM_LEADER_OFFSET : Int := 0
def QUORUM_LENGTH_OFFSET : Int := 1
def QUORUM_REPAIR_OFFSET : Int := 2
def QUORUM_FORKED_OFFSET : Int := 3
def QUORUM_SIZE : Int := 4

/-- A byte buffer (a source, the quorum buffer, the target buffer), keyed by
byte offset. -/
abbrev Memory := Int → Nat

/-- The 16-byte identifier stored at `offset` of a buffer. -/
def Memory.ident (m : Memory) (offset : Int) : Ident :=
  ⟨m offset, m (offset + 1), m (offset + 2), m (offset + 3), m (offset + 4), m (offset + 5),
   m (offset + 6), m (offset + 7), m (offset + 8), m (offset + 9), m (offset + 10),
   m (offset + 11), m (offset + 12), m (offset + 13), m (offset + 14), m (offset + 15)⟩

/-- The version vector stored at `offset` of a buffer: the ID at `offset`, the
dependency at `offset + QUORUM_ID`. -/
def Memory.vector (m : Memory) (offset : Int) : Vec :=
  ⟨m.ident offset, m.ident (offset + QUORUM_ID)⟩

/-- The vectors `vectors[index] + vectorOffset` that `quorum_fast` reads from
the sources. -/
def vectorsAt (sources : List Memory) (vectorOffset : Int) : List Vec :=
  sources.map (fun source => source.vector vectorOffset)

/-- The four quorum bytes at `offset` of the quorum buffer. -/
def Memory.quorum (m : Memory) (offset : Int) : Quorum :=
  ⟨m (offset + QUORUM_LEADER_OFFSET), m (offset + QUORUM_LENGTH_OFFSET),
   m (offset + QUORUM_REPAIR_OFFSET), m (offset + QUORUM_FORKED_OFFSET)⟩

/-- The quorum buffer after the four bytes at `offset` have been stored. -/
def Memory.setQuorum (m : Memory) (offset : Int) (q : Quorum) : Memory :=
  Function.update (Function.update (Function.update (Function.update m
    (offset + QUORUM_LEADER_OFFSET) q.leader)
    (offset + QUORUM_LENGTH_OFFSET) q.length)
    (offset + QUORUM_REPAIR_OFFSET) q.repair)
    (offset + QUORUM_FORKED_OFFSET) q.forked

/-- The buffer after `memcpy(target + targetOffset, source + sourceOffset, size)`. -/
def memcpy (target : Memory) (targetOffset : Int) (source : Memory) (sourceOffset : Int)
    (size : Int) : Memory :=
  fun p => if targetOffset ≤ p ∧ p < targetOffset + size then
    source (sourceOffset + (p - targetOffset)) else target p

/-- The buffer after `memset(target + targetOffset, value, size)`. -/
def memset (target : Memory) (targetOffset : Int) (value : Nat) (size : Int) : Memory :=
  fun p => if targetOffset ≤ p ∧ p < targetOffset + size then value else target p

/-- What `quorum_iterate` hands back: the value returned and the quorum and
target buffers. -/
structure Iterated where
  error : Int
  quorum : Memory
  target : Memory

/-- The `while` loop of `quorum_iterate`. The pointers `quorum` and `target`
are the buffers with the offsets `quorumOffset` and `targetOffset` the loop
has advanced them by. The arena is passed on from position to position. The
callee's `assert(vectorOffset >= 0)` is checked at the call. A leader byte
that is not an index into `sources` stops the run as a read through an
invalid pointer. The fuel bounds the number of iterations. -/
def quorum_iterate_loop (vectorOffset objectSize sourceSize : Int) (sources : List Memory) :
    Nat → Arena → Int → Int → Int → Memory → Memory → Except Stop Iterated
  | 0, _, _, _, _, _, _ => .error .fuel
  | fuel + 1, nodes, sourceOffset, quorumOffset, targetOffset, quorum, target =>
    if sourceOffset < sourceSize then
      if ¬ (sourceOffset + objectSize ≤ sourceSize) then .error .assertion
      else if ¬ (sourceOffset + vectorOffset + QUORUM_VECTOR ≤ sourceSize) then
        .error .assertion
      else if ¬ (sourceOffset + vectorOffset ≥ 0) then .error .assertion
      else
        match quorum_fast (vectorsAt sources (sourceOffset + vectorOffset)) nodes
            (quorum.quorum quorumOffset) with
        | .error e => .error e
        | .ok out =>
          let quorum := quorum.setQuorum quorumOffset out.quorum
          if out.error ≠ 0 then .ok { error := out.error, quorum := quorum, target := target }
          else if quorum (quorumOffset + QUORUM_LENGTH_OFFSET) > 0 then
            if ¬ (sources.length > 0) then .error .assertion
            else
              match sources[quorum (quorumOffset + QUORUM_LEADER_OFFSET)]? with
              | none => .error .null
              | some source =>
                quorum_iterate_loop vectorOffset objectSize sourceSize sources fuel out.nodes
                  (sourceOffset + objectSize) (quorumOffset + QUORUM_SIZE)
                  (targetOffset + objectSize) quorum
                  (memcpy target targetOffset source sourceOffset objectSize)
          else
            quorum_iterate_loop vectorOffset objectSize sourceSize sources fuel out.nodes
              (sourceOffset + objectSize) (quorumOffset + QUORUM_SIZE)
              (targetOffset + objectSize) quorum (memset target targetOffset 0 objectSize)
    else .ok { error := 0, quorum := quorum, target := target }

/-- Source: `quorum_iterate`. `nodes` is the content of the arena that `malloc`
returned, which is arbitrary; the allocation is taken to succeed. One unit of
fuel per byte of a source, plus one, is more than the loop can use. -/
def quorum_iterate (vectorOffset objectSize sourceSize : Int) (sources : List Memory)
    (nodes : Arena) (quorum target : Memory) : Except Stop Iterated :=
  if ¬ (vectorOffset ≥ 0) then .error .assertion
  else if ¬ (objectSize ≥ 0) then .error .assertion
  else if ¬ (objectSize ≥ vectorOffset + QUORUM_VECTOR) then .error .assertion
  else if ¬ (sourceSize ≥ 0) then .error .assertion
  else if ¬ (sourceSize ≥ objectSize) then .error .assertion
  else if ¬ (sourceSize % objectSize = 0) then .error .assertion
  else if ¬ (sources.length ≥ QUORUM_SOURCES_MIN) then .error .assertion
  else if ¬ (sources.length ≤ QUORUM_SOURCES_MAX) then .error .assertion
  else if ¬ (sources.length ≤ UINT8_MAX) then .error .assertion
  else if ¬ (sources.length ≤ 255) then .error .assertion
  else
    quorum_iterate_loop vectorOffset objectSize sourceSize sources (sourceSize.toNat + 1)
      nodes 0 0 0 quorum target

/-- The value returned by `quorum_iterate`, when it returns. -/
def Iterated.code (r : Except Stop Iterated) : Option Int :=
  match r with
  | .error _ => none
  | .ok iterated => some iterated.error

/-- What a run of `quorum_iterate` has written for the record positions `p`
to `k - 1`, against the buffers `quorum` and `target` it started from and the
buffers of `r` it left: every such position has a decision, the same for
every arena and every previous content of the quorum bytes, its quorum entry
holds that decision, and its target record is the leader's record or zero
bytes; the quorum bytes before entry `p` and after entry `k`, and the target
bytes before record `p` and from record `k` on, are untouched. -/
structure Ran (vectorOffset objectSize : Int) (sources : List Memory) (p k : Nat)
    (quorum target : Memory) (r : Iterated) : Prop where
  decided : ∀ j : Nat, p ≤ j → j < k → ∃ dec : Quorum,
    (∀ (nodes : Arena) (q : Quorum),
      Outcome.code (quorum_fast (vectorsAt sources (objectSize * j + vectorOffset)) nodes q)
        = some 0 ∧
      Outcome.bytes (quorum_fast (vectorsAt sources (objectSize * j + vectorOffset)) nodes q)
        = some dec) ∧
    r.quorum.quorum (QUORUM_SIZE * j) = dec ∧
    (0 < dec.length → ∃ source, sources[dec.leader]? = some source ∧
      ∀ b : Int, 0 ≤ b → b < objectSize →
        r.target (objectSize * j + b) = source (objectSize * j + b)) ∧
    (dec.length = 0 → ∀ b : Int, 0 ≤ b → b < objectSize → r.target (objectSize * j + b) = 0)
  quorumFrame : ∀ x : Int, x < QUORUM_SIZE * p ∨ QUORUM_SIZE * (k + 1) ≤ x →
    r.quorum x = quorum x
  targetFrame : ∀ x : Int, x < objectSize * p ∨ objectSize * k ≤ x → r.target x = target x

/-- Two sources of two 32-byte records with the vector at offset 0: the first
record holds the vector `AA|00` in both sources, the second the
self-referencing vector `BB|BB`. -/
def sampleSources : List Memory :=
  [fun p => if p < 16 then 0xAA else if p < 32 then 0 else 0xBB,
   fun p => if p < 16 then 0xAA else if p < 32 then 0 else 0xBB]

/-- Three sources of two 32-byte records with the vector at offset 0, all
bytes after the vector's first: the records hold `AA|00`, `BB|AA`, `BB|AA`
at the first position and `CC|00` in every source at the second. -/
def sampleRecords : List Memory :=
  [fun p => if p < 16 then 0xAA else if p < 32 then 0 else if p < 48 then 0xCC else 0,
   fun p => if p < 16 then 0xBB else if p < 32 then 0xAA else if p < 48 then 0xCC else 0,
   fun p => if p < 16 then 0xBB else if p < 32 then 0xAA else if p < 48 then 0xCC else 0]

/-- A buffer of bytes 9, standing for memory with arbitrary content. -/
def sampleMemory : Memory := fun _ => 9

/-- Two nodes hold the same bytes as far as the code reads them: all fields
agree, except the dependency bytes of a node without the dependent flag,
which hold what the arena held and are never read. -/
def Similar (e1 e2 : Node) : Prop :=
  e1.flags = e2.flags ∧ e1.index = e2.index ∧ e1.count = e2.count ∧
  e1.carried = e2.carried ∧ e1.id = e2.id ∧
  (e1.flags &&& QUORUM_DEPENDENT ≠ 0 → e1.dependency = e2.dependency)

/-- The first `n` nodes of two arenas are similar. -/
def Agree (nodes1 nodes2 : Arena) (n : Nat) : Prop :=
  ∀ j, j < n → Similar (entry nodes1 j) (entry nodes2 j)

/-- A successor ahead of its predecessor: `BB|AA`, `AA|00`. The ID `AA` is
first met as the predecessor of source 0 and then as the own ID of source 1. -/
def sampleStale : List Vec :=
  [⟨Ident.fill 0xBB, Ident.fill 0xAA⟩, ⟨Ident.fill 0xAA, Ident.fill 0⟩]

/-! # Theorems -/

/-! ## Identifier equality -/

theorem ite_not_zero (p : Prop) [Decidable (¬ p)] (x : Int) :
    (if ¬ p then (0 : Int) else x) ≠ 0 ↔ p ∧ x ≠ 0 := by
  by_cases h : p <;> simp [h]

theorem quorum_equal_ne_zero (a b : Ident) : quorum_equal a b ≠ 0 ↔ a = b := by
  cases a; cases b
  simp only [quorum_equal, ne_eq, ite_not_zero, Ident.mk.injEq]
  simp only [one_ne_zero, not_false_eq_true, and_true]

theorem quorum_equal_eq_one (a b : Ident) : quorum_equal a b = 1 ↔ a = b := by
  constructor
  · intro h
    exact (quorum_equal_ne_zero a b).1 (by rw [h]; decide)
  · rintro rfl
    simp [quorum_equal]

/-! ## The scan of `quorum_fast` -/

theorem FastInv.first (a0 : Vec) (h : a0.own_id ≠ a0.predecessor_id) :
    FastInv a0 [a0] (Chains.first a0) := by
  refine ⟨rfl, rfl, rfl, ?_, ?_, ?_, ?_, ?_, ?_⟩
  · simp [Chains.first]
  · intro v hv
    simp only [List.mem_singleton] at hv
    subst hv
    exact h
  · intro v hv hne
    simp only [List.mem_singleton] at hv
    subst hv
    exact absurd rfl hne
  · simp [Chains.first]
  · intro _
    exact ⟨rfl, rfl⟩
  · intro hb
    exact absurd rfl hb

theorem FastInv.aLength_pos {a0 : Vec} {pre : List Vec} {c : Chains} (h : FastInv a0 pre c) :
    0 < c.aLength := by
  rw [h.aLength]
  apply List.countP_pos_iff.2
  cases pre with
  | nil => exact absurd h.head (by simp)
  | cons x xs =>
    have hx : x = a0 := by
      have := h.head
      simpa using this
    exact ⟨x, List.mem_cons_self _ _, by simp [hx]⟩

theorem FastInv.total {a0 : Vec} {pre : List Vec} {c : Chains} (h : FastInv a0 pre c) :
    c.aLength + c.bLength = pre.length := by
  rw [h.aLength, h.bLength]
  have := List.length_eq_countP_add_countP (fun v : Vec => decide (v.own_id = a0.own_id)) pre
  rw [this]
  congr 1
  apply List.countP_congr
  intro v _
  simp

theorem FastInv.bIndex_lt {a0 : Vec} {pre : List Vec} {c : Chains} (h : FastInv a0 pre c) :
    c.bIndex < pre.length := by
  by_cases hb : c.bLength = 0
  · rw [(h.b_none hb).2]
    have := h.total
    have := h.aLength_pos
    omega
  · obtain ⟨b0, -, -, hget, -⟩ := h.b_some hb
    by_contra hlt
    rw [List.getElem?_eq_none (by omega)] at hget
    exact absurd hget (by simp)

theorem FastInv.step_a {a0 : Vec} {pre : List Vec} {c : Chains} (h : FastInv a0 pre c)
    (v : Vec) (hv : v.own_id = a0.own_id) (hs : v.own_id ≠ v.predecessor_id) :
    FastInv a0 (pre ++ [v]) { c with aLength := c.aLength + 1 } := by
  refine ⟨?_, h.a_eq, h.aIndex, ?_, ?_, ?_, ?_, h.b_none, ?_⟩
  · have := h.head
    cases pre with
    | nil => simp at this
    | cons x xs => simpa using this
  · simp [List.countP_append, h.aLength, hv]
  · intro u hu
    rcases List.mem_append.1 hu with hu | hu
    · exact h.noself u hu
    · simp only [List.mem_singleton] at hu
      subst hu
      exact hs
  · intro u hu hne
    rcases List.mem_append.1 hu with hu | hu
    · exact h.unrelated u hu hne
    · simp only [List.mem_singleton] at hu
      subst hu
      exact absurd hv hne
  · simp [List.countP_append, h.bLength, hv]
  · intro hb
    obtain ⟨b0, hb0, hne, hget, hlow, hall⟩ := h.b_some hb
    refine ⟨b0, hb0, hne, ?_, ?_, ?_⟩
    · have hlt : c.bIndex < pre.length := h.bIndex_lt
      show (pre ++ [v])[c.bIndex]? = some b0
      rw [List.getElem?_append_left hlt]
      exact hget
    · intro j u hj hu
      have hlt : c.bIndex < pre.length := h.bIndex_lt
      have hj2 : j < c.bIndex := hj
      have hu2 : (pre ++ [v])[j]? = some u := hu
      rw [List.getElem?_append_left (by omega)] at hu2
      exact hlow j u hj hu2
    · intro u hu hne2
      rcases List.mem_append.1 hu with hu | hu
      · exact hall u hu hne2
      · simp only [List.mem_singleton] at hu
        subst hu
        exact absurd hv hne2

theorem FastInv.step_b_first {a0 : Vec} {pre : List Vec} {c : Chains} (h : FastInv a0 pre c)
    (v : Vec) (hb : c.bLength = 0) (hv : v.own_id ≠ a0.own_id)
    (hs : v.own_id ≠ v.predecessor_id)
    (hu1 : v.own_id ≠ a0.predecessor_id) (hu2 : a0.own_id ≠ v.predecessor_id) :
    FastInv a0 (pre ++ [v])
      { c with b := some v, bIndex := pre.length, bLength := c.bLength + 1 } := by
  have hcount : pre.countP (fun u => u.own_id ≠ a0.own_id) = 0 := by
    rw [← h.bLength]; exact hb
  have hallA : ∀ u ∈ pre, u.own_id = a0.own_id := by
    intro u hu
    by_contra hne
    have : 0 < pre.countP (fun u => decide (u.own_id ≠ a0.own_id)) :=
      List.countP_pos_iff.2 ⟨u, hu, by simpa using hne⟩
    omega
  refine ⟨?_, h.a_eq, h.aIndex, ?_, ?_, ?_, ?_, ?_, ?_⟩
  · have := h.head
    cases pre with
    | nil => simp at this
    | cons x xs => simpa using this
  · simp [List.countP_append, h.aLength, hv]
  · intro u hu
    rcases List.mem_append.1 hu with hu | hu
    · exact h.noself u hu
    · simp only [List.mem_singleton] at hu
      subst hu
      exact hs
  · intro u hu hne
    rcases List.mem_append.1 hu with hu | hu
    · exact h.unrelated u hu hne
    · simp only [List.mem_singleton] at hu
      subst hu
      exact ⟨hu1, hu2⟩
  · simp [List.countP_append, h.bLength, hv]
  · intro hb2
    simp at hb2
  · intro _
    refine ⟨v, rfl, hv, ?_, ?_, ?_⟩
    · show (pre ++ [v])[pre.length]? = some v
      simp
    · intro j u hj hu
      have hj2 : j < pre.length := hj
      have hu3 : (pre ++ [v])[j]? = some u := hu
      rw [List.getElem?_append_left hj2] at hu3
      exact hallA u (List.getElem?_mem hu3)
    · intro u hu hne2
      rcases List.mem_append.1 hu with hu | hu
      · exact absurd (hallA u hu) hne2
      · simp only [List.mem_singleton] at hu
        subst hu
        rfl

theorem FastInv.step_b {a0 : Vec} {pre : List Vec} {c : Chains} (h : FastInv a0 pre c)
    (v : Vec) (b0 : Vec) (hb : c.bLength ≠ 0) (hb0 : c.b = some b0)
    (hv : v.own_id = b0.own_id) (hne : v.own_id ≠ a0.own_id)
    (hs : v.own_id ≠ v.predecessor_id)
    (hu1 : v.own_id ≠ a0.predecessor_id) (hu2 : a0.own_id ≠ v.predecessor_id) :
    FastInv a0 (pre ++ [v]) { c with bLength := c.bLength + 1 } := by
  refine ⟨?_, h.a_eq, h.aIndex, ?_, ?_, ?_, ?_, ?_, ?_⟩
  · have := h.head
    cases pre with
    | nil => simp at this
    | cons x xs => simpa using this
  · simp [List.countP_append, h.aLength, hne]
  · intro u hu
    rcases List.mem_append.1 hu with hu | hu
    · exact h.noself u hu
    · simp only [List.mem_singleton] at hu
      subst hu
      exact hs
  · intro u hu hne3
    rcases List.mem_append.1 hu with hu | hu
    · exact h.unrelated u hu hne3
    · simp only [List.mem_singleton] at hu
      subst hu
      exact ⟨hu1, hu2⟩
  · simp [List.countP_append, h.bLength, hne]
  · intro hb2
    simp at hb2
  · intro _
    obtain ⟨b1, hb1, hne1, hget, hlow, hall⟩ := h.b_some hb
    have hbb : b1 = b0 := by
      rw [hb0] at hb1
      exact (Option.some.inj hb1).symm
    subst hbb
    refine ⟨b1, hb0, hne1, ?_, ?_, ?_⟩
    · have hlt : c.bIndex < pre.length := h.bIndex_lt
      show (pre ++ [v])[c.bIndex]? = some b1
      rw [List.getElem?_append_left hlt]
      exact hget
    · intro j u hj hu
      have hlt : c.bIndex < pre.length := h.bIndex_lt
      have hj2 : j < c.bIndex := hj
      have hu3 : (pre ++ [v])[j]? = some u := hu
      rw [List.getElem?_append_left (by omega)] at hu3
      exact hlow j u hj hu3
    · intro u hu hne2
      rcases List.mem_append.1 hu with hu | hu
      · exact hall u hu hne2
      · simp only [List.mem_singleton] at hu
        subst hu
        exact hv

/-- The scan of `quorum_fast` from an invariant state ends in one of three
ways: the cyclic-reference error at a self-referencing vector, a hand-over to
`quorum_slow`, or the end of the sources with the invariant over all of them. -/
theorem quorum_fast_loop_cases (vectors : List Vec) (nodes : Arena) (quorum : Quorum)
    (a0 : Vec) : ∀ (rest pre : List Vec) (c : Chains), FastInv a0 pre c →
    (quorum_fast_loop vectors nodes quorum rest pre.length c
        = .ok (.returned { error := 1, nodes := nodes, quorum := quorum }) ∧
      ∃ v ∈ rest, v.own_id = v.predecessor_id) ∨
    (quorum_fast_loop vectors nodes quorum rest pre.length c
        = Scan.delegated (quorum_slow vectors nodes quorum) ∧
      Delegates a0 (pre ++ rest)) ∨
    (∃ c2, quorum_fast_loop vectors nodes quorum rest pre.length c = .ok (.scanned c2) ∧
      FastInv a0 (pre ++ rest) c2) := by
  intro rest
  induction rest with
  | nil =>
    intro pre c h
    right; right
    exact ⟨c, rfl, by simpa using h⟩
  | cons v rest ih =>
    intro pre c h
    have hlen : (pre ++ [v]).length = pre.length + 1 := by simp
    have happ : pre ++ v :: rest = (pre ++ [v]) ++ rest := by simp
    rw [quorum_fast_loop]
    by_cases hs : v.own_id = v.predecessor_id
    · left
      rw [if_pos ((quorum_equal_ne_zero _ _).2 hs)]
      exact ⟨rfl, v, List.mem_cons_self _ _, hs⟩
    · rw [if_neg (fun hc => hs ((quorum_equal_ne_zero _ _).1 hc))]
      have hapos := h.aLength_pos
      rw [if_neg (by omega)]
      have ha := h.a_eq
      obtain ⟨ca, cb, cai, cbi, cal, cbl⟩ := c
      simp only at ha
      subst ha
      simp only
      by_cases h1 : v.own_id = a0.own_id
      · rw [if_pos ((quorum_equal_ne_zero _ _).2 h1)]
        have hi := ih (pre ++ [v]) _ (h.step_a v h1 hs)
        rw [hlen, ← happ] at hi
        rcases hi with ⟨he, u, hu, hself⟩ | hi | hi
        · exact Or.inl ⟨he, u, List.mem_cons_of_mem _ hu, hself⟩
        · exact Or.inr (Or.inl hi)
        · exact Or.inr (Or.inr hi)
      · rw [if_neg (fun hc => h1 ((quorum_equal_ne_zero _ _).1 hc))]
        by_cases h2 : v.own_id = a0.predecessor_id ∨ a0.own_id = v.predecessor_id
        · right; left
          rw [if_pos (by
            rcases h2 with h2 | h2
            · exact Or.inl ((quorum_equal_ne_zero _ _).2 h2)
            · exact Or.inr ((quorum_equal_ne_zero _ _).2 h2))]
          refine ⟨?_, Or.inl ⟨v, by simp, h1, h2⟩⟩
          cases quorum_slow vectors nodes quorum <;> rfl
        · rw [if_neg (by
            rintro (hc | hc)
            · exact h2 (Or.inl ((quorum_equal_ne_zero _ _).1 hc))
            · exact h2 (Or.inr ((quorum_equal_ne_zero _ _).1 hc)))]
          have hu1 : v.own_id ≠ a0.predecessor_id := fun hc => h2 (Or.inl hc)
          have hu2 : a0.own_id ≠ v.predecessor_id := fun hc => h2 (Or.inr hc)
          by_cases hb : cbl = 0
          · rw [if_pos hb]
            have hi := ih (pre ++ [v]) _ (h.step_b_first v hb h1 hs hu1 hu2)
            rw [hlen, ← happ] at hi
            rcases hi with ⟨he, u, hu, hself⟩ | hi | hi
            · exact Or.inl ⟨he, u, List.mem_cons_of_mem _ hu, hself⟩
            · exact Or.inr (Or.inl hi)
            · exact Or.inr (Or.inr hi)
          · rw [if_neg hb]
            obtain ⟨b0, hb0, hne0, hget, -, -⟩ := h.b_some hb
            simp only at hb0
            subst hb0
            simp only
            by_cases h3 : v.own_id = b0.own_id
            · rw [if_pos ((quorum_equal_ne_zero _ _).2 h3)]
              have hi := ih (pre ++ [v]) _ (h.step_b v b0 hb rfl h3 h1 hs hu1 hu2)
              rw [hlen, ← happ] at hi
              rcases hi with ⟨he, u, hu, hself⟩ | hi | hi
              · exact Or.inl ⟨he, u, List.mem_cons_of_mem _ hu, hself⟩
              · exact Or.inr (Or.inl hi)
              · exact Or.inr (Or.inr hi)
            · rw [if_neg (fun hc => h3 ((quorum_equal_ne_zero _ _).1 hc))]
              right; left
              refine ⟨?_, Or.inr ⟨b0, ?_, v, by simp, hne0, h1, fun hc => h3 hc.symm⟩⟩
              · cases quorum_slow vectors nodes quorum <;> rfl
              · exact List.mem_append_left _ (List.getElem?_mem hget)

/-- The three ways in which `quorum_fast` ends on 1..255 sources: the
cyclic-reference error at a self-referencing vector, the result of
`quorum_slow`, or its own decision from the counts of the scan. -/
theorem quorum_fast_cases (a0 : Vec) (rest : List Vec) (nodes : Arena) (quorum : Quorum)
    (hmax : (a0 :: rest).length ≤ 255) :
    (quorum_fast (a0 :: rest) nodes quorum
        = .ok { error := 1, nodes := nodes, quorum := quorum } ∧
      ∃ v ∈ a0 :: rest, v.own_id = v.predecessor_id) ∨
    (quorum_fast (a0 :: rest) nodes quorum = quorum_slow (a0 :: rest) nodes quorum ∧
      Delegates a0 (a0 :: rest)) ∨
    (∃ c, quorum_fast (a0 :: rest) nodes quorum
        = quorum_fast_decide (a0 :: rest).length nodes c ∧
      FastInv a0 (a0 :: rest) c) := by
  have hlo : ¬ ((a0 :: rest).length < QUORUM_SOURCES_MIN) := by
    simp [QUORUM_SOURCES_MIN]
  have hhi : ¬ ((a0 :: rest).length > QUORUM_SOURCES_MAX) := by
    simp only [QUORUM_SOURCES_MAX]; omega
  unfold quorum_fast
  rw [if_neg hlo, if_neg hhi, quorum_fast_loop]
  by_cases hs : a0.own_id = a0.predecessor_id
  · left
    rw [if_pos ((quorum_equal_ne_zero _ _).2 hs)]
    exact ⟨rfl, a0, List.mem_cons_self _ _, hs⟩
  · rw [if_neg (fun hc => hs ((quorum_equal_ne_zero _ _).1 hc))]
    rw [if_pos rfl]
    have hi := quorum_fast_loop_cases (a0 :: rest) nodes quorum a0 rest [a0]
      (Chains.first a0) (FastInv.first a0 hs)
    have e1 : ([a0] : List Vec).length = 0 + 1 := rfl
    have e2 : [a0] ++ rest = a0 :: rest := rfl
    rw [e1, e2] at hi
    have e3 : ({ a := some a0, b := none, aIndex := 0, bIndex := 0, aLength := 0 + 1,
                 bLength := 0 } : Chains) = Chains.first a0 := rfl
    simp only [e3]
    rcases hi with ⟨he, hself⟩ | ⟨he, hd⟩ | ⟨c2, he, hinv⟩
    · left
      rw [he]
      exact ⟨rfl, by
        obtain ⟨u, hu, hself⟩ := hself
        exact ⟨u, List.mem_cons_of_mem _ hu, hself⟩⟩
    · right; left
      rw [he]
      refine ⟨?_, hd⟩
      cases quorum_slow (a0 :: rest) nodes quorum <;> rfl
    · right; right
      rw [he]
      exact ⟨c2, rfl, hinv⟩

/-- The decision `quorum_fast` takes from the counts of a completed scan. -/
theorem quorum_fast_decide_eq {a0 : Vec} {vectors : List Vec} {c : Chains}
    (h : FastInv a0 vectors c) (hmax : vectors.length ≤ 255) (nodes : Arena) :
    quorum_fast_decide vectors.length nodes c = .ok { error := 0, nodes := nodes, quorum :=
      if c.aLength = c.bLength then { leader := 0, length := 0, repair := 0, forked := 1 }
      else if c.aLength > c.bLength then
        { leader := 0, length := c.aLength, repair := 0, forked := 0 }
      else { leader := c.bIndex, length := c.bLength, repair := 0, forked := 0 } } := by
  have htot := h.total
  have hb := h.bIndex_lt
  have ha := h.aIndex
  have hpos := h.aLength_pos
  unfold quorum_fast_decide
  simp only [UINT8_MAX]
  rw [if_neg (by omega), if_neg (by omega), if_neg (by omega), if_neg (by omega),
    if_neg (by omega), if_neg (by omega), if_neg (by omega)]
  by_cases h1 : c.aLength = c.bLength
  · rw [if_pos h1, if_pos h1]
  · rw [if_neg h1, if_neg h1]
    by_cases h2 : c.aLength > c.bLength
    · rw [if_pos h2, if_pos h2, ha, Nat.mod_eq_of_lt (by omega : c.aLength < 256)]
    · rw [if_neg h2, if_neg h2, Nat.mod_eq_of_lt (by omega : c.bIndex < 256),
        Nat.mod_eq_of_lt (by omega : c.bLength < 256)]

/-- C1. When all of 1..255 sources present the same own ID and no vector
references itself, `quorum_fast` returns 0 and writes leader 0, length equal to
the number of sources, repair 0 and forked 0. -/
theorem quorum_fast_unanimous (vectors : List Vec) (nodes : Arena) (quorum : Quorum)
    (hmin : 1 ≤ vectors.length) (hmax : vectors.length ≤ 255)
    (hsame : ∀ u ∈ vectors, ∀ v ∈ vectors, u.own_id = v.own_id)
    (hself : ∀ v ∈ vectors, v.own_id ≠ v.predecessor_id) :
    Outcome.code (quorum_fast vectors nodes quorum) = some 0 ∧
    Outcome.bytes (quorum_fast vectors nodes quorum)
      = some { leader := 0, length := vectors.length, repair := 0, forked := 0 } := by
  cases vectors with
  | nil => simp at hmin
  | cons a0 rest =>
    rcases quorum_fast_cases a0 rest nodes quorum hmax with
      ⟨-, v, hv, hvs⟩ | ⟨-, hd⟩ | ⟨c, he, hinv⟩
    · exact absurd hvs (hself v hv)
    · rcases hd with ⟨v, hv, hne, -⟩ | ⟨u, hu, v, hv, hne, -, -⟩
      · exact absurd (hsame v hv a0 (List.mem_cons_self _ _)) hne
      · exact absurd (hsame u hu a0 (List.mem_cons_self _ _)) hne
    · have ha : c.aLength = (a0 :: rest).length := by
        rw [hinv.aLength]
        apply List.countP_eq_length.2
        intro v hv
        simpa using hsame v hv a0 (List.mem_cons_self _ _)
      have hb : c.bLength = 0 := by
        have := hinv.total
        omega
      rw [he, quorum_fast_decide_eq hinv hmax nodes]
      have hpos := hinv.aLength_pos
      rw [if_neg (by omega), if_pos (by omega), ha]
      exact ⟨rfl, rfl⟩

theorem quorum_fast_unanimous_witness :
    Outcome.code (quorum_fast
        [⟨Ident.fill 0xAA, Ident.fill 0⟩, ⟨Ident.fill 0xAA, Ident.fill 0⟩,
         ⟨Ident.fill 0xAA, Ident.fill 0⟩]
        (fun _ => ⟨0, 0, 0, 0, Ident.fill 0, Ident.fill 0⟩) ⟨9, 9, 9, 9⟩) = some 0 ∧
    Outcome.bytes (quorum_fast
        [⟨Ident.fill 0xAA, Ident.fill 0⟩, ⟨Ident.fill 0xAA, Ident.fill 0⟩,
         ⟨Ident.fill 0xAA, Ident.fill 0⟩]
        (fun _ => ⟨0, 0, 0, 0, Ident.fill 0, Ident.fill 0⟩) ⟨9, 9, 9, 9⟩)
      = some { leader := 0, length := 3, repair := 0, forked := 0 } :=
  quorum_fast_unanimous
    [⟨Ident.fill 0xAA, Ident.fill 0⟩, ⟨Ident.fill 0xAA, Ident.fill 0⟩,
     ⟨Ident.fill 0xAA, Ident.fill 0⟩]
    (fun _ => ⟨0, 0, 0, 0, Ident.fill 0, Ident.fill 0⟩) ⟨9, 9, 9, 9⟩
    (by decide) (by decide) (by decide) (by decide)

/-- The decision of `quorum_fast` on a two-way split in which the first
source holds `A` and the others hold `A` or `B`, with no link into `A` or `B`. -/
theorem quorum_fast_split_first (a0 : Vec) (rest : List Vec) (nodes : Arena)
    (quorum : Quorum) (A B : Ident) (hmax : (a0 :: rest).length ≤ 255)
    (hA : a0.own_id = A) (hAB : A ≠ B)
    (hocc : ∀ v ∈ a0 :: rest, v.own_id = A ∨ v.own_id = B)
    (hself : ∀ v ∈ a0 :: rest, v.own_id ≠ v.predecessor_id)
    (hpred : ∀ v ∈ a0 :: rest, v.predecessor_id ≠ A ∧ v.predecessor_id ≠ B) :
    ∃ q, quorum_fast (a0 :: rest) nodes quorum = .ok { error := 0, nodes := nodes, quorum := q } ∧
      (holders (a0 :: rest) A = holders (a0 :: rest) B →
        q = { leader := 0, length := 0, repair := 0, forked := 1 }) ∧
      (holders (a0 :: rest) A > holders (a0 :: rest) B →
        q.forked = 0 ∧ q.repair = 0 ∧ q.length = holders (a0 :: rest) A ∧
        LowestIndex (a0 :: rest) A q.leader) ∧
      (holders (a0 :: rest) A < holders (a0 :: rest) B →
        q.forked = 0 ∧ q.repair = 0 ∧ q.length = holders (a0 :: rest) B ∧
        LowestIndex (a0 :: rest) B q.leader) := by
  have hmem0 : a0 ∈ a0 :: rest := List.mem_cons_self _ _
  rcases quorum_fast_cases a0 rest nodes quorum hmax with
    ⟨-, v, hv, hvs⟩ | ⟨-, hd⟩ | ⟨c, he, hinv⟩
  · exact absurd hvs (hself v hv)
  · exfalso
    rcases hd with ⟨v, hv, hne, hl | hl⟩ | ⟨u, hu, v, hv, hne1, hne2, hne3⟩
    · rcases hocc v hv with h | h
      · exact hne (by rw [h, hA])
      · exact (hpred a0 hmem0).2 (by rw [← hl, h])
    · exact (hpred v hv).1 (by rw [← hl, hA])
    · rcases hocc u hu with h | h
      · exact hne1 (by rw [h, hA])
      · rcases hocc v hv with h2 | h2
        · exact hne2 (by rw [h2, hA])
        · exact hne3 (by rw [h, h2])
  · have ha : c.aLength = holders (a0 :: rest) A := by
      rw [hinv.aLength, hA]; rfl
    have hb : c.bLength = holders (a0 :: rest) B := by
      rw [hinv.bLength, hA]
      unfold holders
      apply List.countP_congr
      intro v hv
      rcases hocc v hv with h | h
      · simp [h, hAB]
      · simp [h, hAB, Ne.symm hAB]
    rw [he, quorum_fast_decide_eq hinv hmax nodes]
    refine ⟨_, rfl, ?_, ?_, ?_⟩
    · intro heq
      rw [if_pos (by omega)]
    · intro hgt
      rw [if_neg (by omega), if_pos (by omega)]
      refine ⟨rfl, rfl, ha, ⟨a0, by simp, hA⟩, ?_⟩
      intro j u hj
      exact absurd hj (Nat.not_lt_zero _)
    · intro hlt
      rw [if_neg (by omega), if_neg (by omega)]
      have hbne : c.bLength ≠ 0 := by omega
      obtain ⟨b0, -, hb0, hget, hlow, -⟩ := hinv.b_some hbne
      refine ⟨rfl, rfl, hb, ⟨b0, hget, ?_⟩, ?_⟩
      · rcases hocc b0 (List.getElem?_mem hget) with h | h
        · exact absurd (by rw [h, hA]) hb0
        · exact h
      · intro j u hj hu
        have := hlow j u hj hu
        rw [this, hA]
        exact hAB

/-- C2. On 1..255 sources that present exactly two own IDs `A` and `B`, with
no vector referencing itself and no predecessor equal to `A` or `B`,
`quorum_fast` returns 0; it writes forked 1 with leader, length and repair 0
when `A` and `B` have equally many holders, and otherwise forked 0, repair 0,
the larger number of holders as length and the lowest source index of the
majority ID as leader. -/
theorem quorum_fast_two_way_split (vectors : List Vec) (nodes : Arena) (quorum : Quorum)
    (A B : Ident) (hmax : vectors.length ≤ 255) (hAB : A ≠ B)
    (hocc : ∀ v ∈ vectors, v.own_id = A ∨ v.own_id = B)
    (hAocc : ∃ v ∈ vectors, v.own_id = A) (hBocc : ∃ v ∈ vectors, v.own_id = B)
    (hself : ∀ v ∈ vectors, v.own_id ≠ v.predecessor_id)
    (hpred : ∀ v ∈ vectors, v.predecessor_id ≠ A ∧ v.predecessor_id ≠ B) :
    Outcome.code (quorum_fast vectors nodes quorum) = some 0 ∧
    ∃ q, Outcome.bytes (quorum_fast vectors nodes quorum) = some q ∧
      (holders vectors A = holders vectors B →
        q = { leader := 0, length := 0, repair := 0, forked := 1 }) ∧
      (holders vectors A ≠ holders vectors B →
        q.forked = 0 ∧ q.repair = 0 ∧
        q.length = max (holders vectors A) (holders vectors B) ∧
        LowestIndex vectors (if holders vectors A > holders vectors B then A else B)
          q.leader) := by
  cases vectors with
  | nil =>
    obtain ⟨v, hv, -⟩ := hAocc
    simp at hv
  | cons a0 rest =>
    rcases hocc a0 (List.mem_cons_self _ _) with h0 | h0
    · obtain ⟨q, he, h1, h2, h3⟩ := quorum_fast_split_first a0 rest nodes quorum A B hmax h0
        hAB hocc hself hpred
      rw [he]
      refine ⟨rfl, q, rfl, h1, ?_⟩
      intro hne
      rcases Nat.lt_or_gt_of_ne hne with hlt | hgt
      · obtain ⟨f, r, l, low⟩ := h3 hlt
        refine ⟨f, r, ?_, ?_⟩
        · rw [l]; omega
        · rw [if_neg (by omega)]; exact low
      · obtain ⟨f, r, l, low⟩ := h2 hgt
        refine ⟨f, r, ?_, ?_⟩
        · rw [l]; omega
        · rw [if_pos hgt]; exact low
    · obtain ⟨q, he, h1, h2, h3⟩ := quorum_fast_split_first a0 rest nodes quorum B A hmax h0
        (Ne.symm hAB) (fun v hv => (hocc v hv).symm) hself
        (fun v hv => ⟨(hpred v hv).2, (hpred v hv).1⟩)
      rw [he]
      refine ⟨rfl, q, rfl, fun heq => h1 heq.symm, ?_⟩
      intro hne
      rcases Nat.lt_or_gt_of_ne hne with hlt | hgt
      · obtain ⟨f, r, l, low⟩ := h2 hlt
        refine ⟨f, r, ?_, ?_⟩
        · rw [l]; omega
        · rw [if_neg (by omega)]; exact low
      · obtain ⟨f, r, l, low⟩ := h3 hgt
        refine ⟨f, r, ?_, ?_⟩
        · rw [l]; omega
        · rw [if_pos hgt]; exact low

theorem quorum_fast_two_way_split_witness :
    Outcome.code (quorum_fast
        [⟨Ident.fill 0xAA, Ident.fill 0⟩, ⟨Ident.fill 0xBB, Ident.fill 0⟩,
         ⟨Ident.fill 0xBB, Ident.fill 0⟩]
        (fun _ => ⟨0, 0, 0, 0, Ident.fill 0, Ident.fill 0⟩) ⟨9, 9, 9, 9⟩) = some 0 ∧
    ∃ q, Outcome.bytes (quorum_fast
        [⟨Ident.fill 0xAA, Ident.fill 0⟩, ⟨Ident.fill 0xBB, Ident.fill 0⟩,
         ⟨Ident.fill 0xBB, Ident.fill 0⟩]
        (fun _ => ⟨0, 0, 0, 0, Ident.fill 0, Ident.fill 0⟩) ⟨9, 9, 9, 9⟩) = some q ∧
      (holders [⟨Ident.fill 0xAA, Ident.fill 0⟩, ⟨Ident.fill 0xBB, Ident.fill 0⟩,
         ⟨Ident.fill 0xBB, Ident.fill 0⟩] (Ident.fill 0xAA)
        = holders [⟨Ident.fill 0xAA, Ident.fill 0⟩, ⟨Ident.fill 0xBB, Ident.fill 0⟩,
         ⟨Ident.fill 0xBB, Ident.fill 0⟩] (Ident.fill 0xBB) →
        q = { leader := 0, length := 0, repair := 0, forked := 1 }) ∧
      (holders [⟨Ident.fill 0xAA, Ident.fill 0⟩, ⟨Ident.fill 0xBB, Ident.fill 0⟩,
         ⟨Ident.fill 0xBB, Ident.fill 0⟩] (Ident.fill 0xAA)
        ≠ holders [⟨Ident.fill 0xAA, Ident.fill 0⟩, ⟨Ident.fill 0xBB, Ident.fill 0⟩,
         ⟨Ident.fill 0xBB, Ident.fill 0⟩] (Ident.fill 0xBB) →
        q.forked = 0 ∧ q.repair = 0 ∧
        q.length = max
          (holders [⟨Ident.fill 0xAA, Ident.fill 0⟩, ⟨Ident.fill 0xBB, Ident.fill 0⟩,
            ⟨Ident.fill 0xBB, Ident.fill 0⟩] (Ident.fill 0xAA))
          (holders [⟨Ident.fill 0xAA, Ident.fill 0⟩, ⟨Ident.fill 0xBB, Ident.fill 0⟩,
            ⟨Ident.fill 0xBB, Ident.fill 0⟩] (Ident.fill 0xBB)) ∧
        LowestIndex [⟨Ident.fill 0xAA, Ident.fill 0⟩, ⟨Ident.fill 0xBB, Ident.fill 0⟩,
            ⟨Ident.fill 0xBB, Ident.fill 0⟩]
          (if holders [⟨Ident.fill 0xAA, Ident.fill 0⟩, ⟨Ident.fill 0xBB, Ident.fill 0⟩,
              ⟨Ident.fill 0xBB, Ident.fill 0⟩] (Ident.fill 0xAA)
            > holders [⟨Ident.fill 0xAA, Ident.fill 0⟩, ⟨Ident.fill 0xBB, Ident.fill 0⟩,
              ⟨Ident.fill 0xBB, Ident.fill 0⟩] (Ident.fill 0xBB)
           then Ident.fill 0xAA else Ident.fill 0xBB) q.leader) :=
  quorum_fast_two_way_split
    [⟨Ident.fill 0xAA, Ident.fill 0⟩, ⟨Ident.fill 0xBB, Ident.fill 0⟩,
     ⟨Ident.fill 0xBB, Ident.fill 0⟩]
    (fun _ => ⟨0, 0, 0, 0, Ident.fill 0, Ident.fill 0⟩) ⟨9, 9, 9, 9⟩
    (Ident.fill 0xAA) (Ident.fill 0xBB)
    (by decide) (by decide) (by decide) (by decide) (by decide) (by decide) (by decide)

/-! ## The node table: lookup -/

theorem offset_zero : offset 0 = 0 := by
  simp [offset]

theorem offset_succ (i : Nat) : offset (i + 1) = offset i + QUORUM_NODE := by
  simp only [offset, QUORUM_NODE]
  push_cast
  ring

theorem offset_nonneg (i : Nat) : 0 ≤ offset i := by
  simp only [offset, QUORUM_NODE]
  omega

theorem offset_lt {i j : Nat} : offset i < offset j ↔ i < j := by
  simp only [offset, QUORUM_NODE]
  omega

theorem offset_inj {i j : Nat} : offset i = offset j ↔ i = j := by
  simp only [offset, QUORUM_NODE]
  omega

theorem offset_toNat (n : Nat) : n ≤ (offset n).toNat := by
  simp only [offset, QUORUM_NODE]
  omega

/-- The lookup loop started at node `j` returns the offset of the first node
from `j` on that holds `x`. -/
theorem quorum_node_loop_hit (nodes : Arena) (n i : Nat) (x : Ident) (hi : i < n)
    (hid : (entry nodes i).id = x) :
    ∀ (d j fuel : Nat), j + d = i → (∀ k, j ≤ k → k < i → (entry nodes k).id ≠ x) →
      n - j < fuel → quorum_node_loop fuel nodes (offset n) (offset j) x = .ok (offset i) := by
  intro d
  induction d with
  | zero =>
    intro j fuel hj _ hfuel
    have hji : j = i := by omega
    subst hji
    obtain ⟨f, rfl⟩ : ∃ f, fuel = f + 1 := ⟨fuel - 1, by omega⟩
    rw [quorum_node_loop, if_pos (offset_lt.2 hi)]
    have e : nodes (offset j) = entry nodes j := rfl
    rw [e, if_pos ((quorum_equal_ne_zero _ _).2 hid)]
  | succ d ih =>
    intro j fuel hj hlow hfuel
    obtain ⟨f, rfl⟩ : ∃ f, fuel = f + 1 := ⟨fuel - 1, by omega⟩
    rw [quorum_node_loop, if_pos (offset_lt.2 (by omega))]
    have hne : (entry nodes j).id ≠ x := hlow j (Nat.le_refl _) (by omega)
    have e : nodes (offset j) = entry nodes j := rfl
    rw [e, if_neg (fun hc => hne ((quorum_equal_ne_zero _ _).1 hc)), ← offset_succ]
    exact ih (j + 1) f (by omega) (fun k hk1 hk2 => hlow k (by omega) hk2) (by omega)

/-- The lookup loop started at node `j` misses when no node from `j` on holds
`x`; it then asserts that the table has room. -/
theorem quorum_node_loop_miss (nodes : Arena) (n : Nat) (x : Ident) :
    ∀ (d j fuel : Nat), j + d = n → (∀ k, j ≤ k → k < n → (entry nodes k).id ≠ x) →
      n - j < fuel → quorum_node_loop fuel nodes (offset n) (offset j) x
        = if offset n < QUORUM_NODES then .ok (-(offset n + 1)) else .error .assertion := by
  intro d
  induction d with
  | zero =>
    intro j fuel hj _ hfuel
    have hjn : j = n := by omega
    subst hjn
    obtain ⟨f, rfl⟩ : ∃ f, fuel = f + 1 := ⟨fuel - 1, by omega⟩
    rw [quorum_node_loop, if_neg (lt_irrefl _)]
  | succ d ih =>
    intro j fuel hj hlow hfuel
    obtain ⟨f, rfl⟩ : ∃ f, fuel = f + 1 := ⟨fuel - 1, by omega⟩
    rw [quorum_node_loop, if_pos (offset_lt.2 (by omega))]
    have hne : (entry nodes j).id ≠ x := hlow j (Nat.le_refl _) (by omega)
    have e : nodes (offset j) = entry nodes j := rfl
    rw [e, if_neg (fun hc => hne ((quorum_equal_ne_zero _ _).1 hc)), ← offset_succ]
    exact ih (j + 1) f (by omega) (fun k hk1 hk2 => hlow k (by omega) hk2) (by omega)

/-- A lookup of an ID held by node `i` of a table with distinct IDs returns
the offset of node `i`. -/
theorem quorum_node_hit (nodes : Arena) (n i : Nat) (x : Ident) (hi : i < n)
    (hid : (entry nodes i).id = x)
    (hdist : ∀ j k, j < n → k < n → (entry nodes j).id = (entry nodes k).id → j = k) :
    quorum_node nodes (offset n) x = .ok (offset i) := by
  unfold quorum_node
  have h := quorum_node_loop_hit nodes n i x hi hid i 0 ((offset n).toNat + 1) (by omega)
    (fun k _ hk hc => by
      have := hdist k i (by omega) hi (by rw [hc, hid])
      omega)
    (by have := offset_toNat n; omega)
  rw [offset_zero] at h
  exact h

/-- A lookup of an ID that no node holds returns `-(nodesLength + 1)` as long
as the table has room. -/
theorem quorum_node_miss (nodes : Arena) (n : Nat) (x : Ident)
    (hno : ∀ k, k < n → (entry nodes k).id ≠ x) (hroom : n < 510) :
    quorum_node nodes (offset n) x = .ok (-(offset n + 1)) := by
  unfold quorum_node
  have h := quorum_node_loop_miss nodes n x n 0 ((offset n).toNat + 1) (by omega)
    (fun k _ hk => hno k hk) (by have := offset_toNat n; omega)
  rw [offset_zero] at h
  rw [h, if_pos]
  simp only [offset, QUORUM_NODES, QUORUM_NODE]
  omega

/-! ## The node table: what `quorum_nodes` builds -/

theorem entry_update (nodes : Arena) (i j : Nat) (e : Node) :
    entry (Function.update nodes (offset i) e) j = if j = i then e else entry nodes j := by
  unfold entry
  by_cases h : j = i
  · subst h
    simp
  · rw [if_neg h, Function.update_noteq]
    exact fun hc => h (offset_inj.1 hc)

theorem entry_update_same (nodes : Arena) (i : Nat) (e : Node) :
    entry (Function.update nodes (offset i) e) i = e := by
  rw [entry_update, if_pos rfl]

theorem entry_update_ne (nodes : Arena) {i j : Nat} (e : Node) (h : j ≠ i) :
    entry (Function.update nodes (offset i) e) j = entry nodes j := by
  rw [entry_update, if_neg h]

theorem holders_le (vectors : List Vec) (x : Ident) : holders vectors x ≤ vectors.length :=
  List.countP_le_length _

theorem holders_append (pre suf : List Vec) (x : Ident) :
    holders (pre ++ suf) x = holders pre x + holders suf x := by
  simp [holders, List.countP_append]

theorem holders_singleton (v : Vec) (x : Ident) :
    holders [v] x = if v.own_id = x then 1 else 0 := by
  by_cases h : v.own_id = x <;> simp [holders, h]

theorem holders_eq_zero {vectors : List Vec} {x : Ident} :
    holders vectors x = 0 ↔ ∀ v ∈ vectors, v.own_id ≠ x := by
  simp [holders, List.countP_eq_zero]

theorem holders_ne_zero {vectors : List Vec} {x : Ident} :
    holders vectors x ≠ 0 ↔ ∃ v ∈ vectors, v.own_id = x := by
  rw [Ne, holders_eq_zero]
  push_neg
  rfl

theorem predOf_eq_none {vectors : List Vec} {x : Ident} :
    predOf vectors x = none ↔ holders vectors x = 0 := by
  simp [predOf, holders_eq_zero]

theorem predOf_some_holders {vectors : List Vec} {x y : Ident}
    (h : predOf vectors x = some y) : holders vectors x ≠ 0 := by
  intro hc
  rw [predOf_eq_none.2 hc] at h
  exact absurd h (by simp)

theorem predOf_some_mem {vectors : List Vec} {x y : Ident}
    (h : predOf vectors x = some y) :
    ∃ v ∈ vectors, v.own_id = x ∧ v.predecessor_id = y := by
  unfold predOf at h
  cases hf : vectors.find? (fun v => v.own_id = x) with
  | none => rw [hf] at h; simp at h
  | some v =>
    rw [hf] at h
    simp only [Option.map_some', Option.some.injEq] at h
    have h1 := List.find?_some hf
    have h2 := List.mem_of_find?_eq_some hf
    exact ⟨v, h2, by simpa using h1, h⟩

theorem predOf_append_some {pre : List Vec} {x y : Ident} (suf : List Vec)
    (h : predOf pre x = some y) : predOf (pre ++ suf) x = some y := by
  unfold predOf at h ⊢
  rw [List.find?_append]
  cases hf : pre.find? (fun v => v.own_id = x) with
  | none => rw [hf] at h; simp at h
  | some v =>
    rw [hf] at h
    simpa using h

theorem predOf_append_none {pre : List Vec} {x : Ident} (suf : List Vec)
    (h : holders pre x = 0) : predOf (pre ++ suf) x = predOf suf x := by
  have h2 := predOf_eq_none.2 h
  unfold predOf at h2 ⊢
  rw [List.find?_append]
  cases hf : pre.find? (fun v => v.own_id = x) with
  | none => simp
  | some v => rw [hf] at h2; simp at h2

theorem predOf_singleton (v : Vec) : predOf [v] v.own_id = some v.predecessor_id := by
  simp [predOf]

theorem Seen.append_left {pre : List Vec} {x : Ident} (suf : List Vec) (h : Seen pre x) :
    Seen (pre ++ suf) x := by
  obtain ⟨v, hv, hx⟩ := h
  exact ⟨v, List.mem_append_left _ hv, hx⟩

theorem firstSeen_append_seen {pre : List Vec} {x : Ident} (suf : List Vec) :
    ∀ index, Seen pre x → firstSeen (pre ++ suf) index x = firstSeen pre index x := by
  induction pre with
  | nil =>
    intro _ h
    obtain ⟨v, hv, -⟩ := h
    simp at hv
  | cons u pre ih =>
    intro index h
    simp only [List.cons_append, firstSeen]
    by_cases h1 : u.own_id = x
    · rw [if_pos h1, if_pos h1]
    · rw [if_neg h1, if_neg h1]
      by_cases h2 : u.predecessor_id = x
      · rw [if_pos h2, if_pos h2]
      · rw [if_neg h2, if_neg h2]
        apply ih
        obtain ⟨v, hv, hx⟩ := h
        rcases List.mem_cons.1 hv with rfl | hv
        · rcases hx with hx | hx
          · exact absurd hx h1
          · exact absurd hx h2
        · exact ⟨v, hv, hx⟩

theorem firstSeen_append_unseen {pre : List Vec} {x : Ident} (suf : List Vec) :
    ∀ index, ¬ Seen pre x →
      firstSeen (pre ++ suf) index x = firstSeen suf (index + pre.length) x := by
  induction pre with
  | nil =>
    intro index _
    simp
  | cons u pre ih =>
    intro index h
    have h1 : u.own_id ≠ x := fun hc => h ⟨u, List.mem_cons_self _ _, Or.inl hc⟩
    have h2 : u.predecessor_id ≠ x := fun hc => h ⟨u, List.mem_cons_self _ _, Or.inr hc⟩
    rw [List.cons_append, firstSeen, if_neg h1, if_neg h2, ih (index + 1)
      (fun ⟨v, hv, hx⟩ => h ⟨v, List.mem_cons_of_mem _ hv, hx⟩), List.length_cons]
    congr 1
    omega

theorem Built.not_seen {vectors : List Vec} {nodes : Arena} {n : Nat}
    (h : Built vectors nodes n) {x : Ident} (hx : ¬ Covers nodes n x) : ¬ Seen vectors x := by
  rintro ⟨v, hv, hx2 | hx2⟩
  · exact hx (hx2 ▸ (h.covers v hv).1)
  · exact hx (hx2 ▸ (h.covers v hv).2)

theorem not_seen_holders {vectors : List Vec} {x : Ident} (h : ¬ Seen vectors x) :
    holders vectors x = 0 :=
  holders_eq_zero.2 (fun v hv hc => h ⟨v, hv, Or.inl hc⟩)

theorem Built.empty (nodes : Arena) : Built [] nodes 0 := by
  refine ⟨⟨?_, ?_, ?_, ?_, ?_, ?_, ?_⟩, ?_, ?_⟩
  all_goals first
    | (intro i hi; exact absurd hi (Nat.not_lt_zero _))
    | (intro j k hj; exact absurd hj (Nat.not_lt_zero _))
    | (intro v hv; simp at hv)
    | simp

theorem holders_snoc_ne (pre : List Vec) {v : Vec} {x : Ident} (h : v.own_id ≠ x) :
    holders (pre ++ [v]) x = holders pre x := by
  rw [holders_append, holders_singleton, if_neg h, Nat.add_zero]

theorem holders_snoc_eq (pre : List Vec) (v : Vec) :
    holders (pre ++ [v]) v.own_id = holders pre v.own_id + 1 := by
  rw [holders_append, holders_singleton, if_pos rfl]

theorem predOf_snoc_eq (pre : List Vec) (v : Vec) (h : holders pre v.own_id = 0) :
    predOf (pre ++ [v]) v.own_id = some v.predecessor_id := by
  rw [predOf_append_none _ h, predOf_singleton]

theorem predOf_snoc_keep (pre : List Vec) (v : Vec) {x : Ident} (h : holders pre x ≠ 0) :
    predOf (pre ++ [v]) x = predOf pre x := by
  cases hp : predOf pre x with
  | none => exact absurd (predOf_eq_none.1 hp) h
  | some y => exact predOf_append_some _ hp

theorem quorum_nodes_count_id (e : Node) (v : Vec) : (quorum_nodes_count e v).id = e.id := by
  unfold quorum_nodes_count
  simp only
  split_ifs <;> rfl

theorem quorum_nodes_count_index (e : Node) (v : Vec) :
    (quorum_nodes_count e v).index = e.index := by
  unfold quorum_nodes_count
  simp only
  split_ifs <;> rfl

theorem quorum_nodes_count_carried (e : Node) (v : Vec) :
    (quorum_nodes_count e v).carried = e.carried := by
  unfold quorum_nodes_count
  simp only
  split_ifs <;> rfl

theorem quorum_nodes_count_count (e : Node) (v : Vec) :
    (quorum_nodes_count e v).count = (e.count + 1) % 256 := by
  unfold quorum_nodes_count
  simp only
  split_ifs <;> rfl

theorem quorum_nodes_count_placeholder (e : Node) (v : Vec) (h : e.flags = 0) :
    (quorum_nodes_count e v).flags = 1 ∧
    (quorum_nodes_count e v).dependency = v.predecessor_id := by
  unfold quorum_nodes_count
  simp only [h]
  rw [if_pos (by decide)]
  exact ⟨rfl, rfl⟩

theorem quorum_nodes_count_dependent (e : Node) (v : Vec) (h : e.flags = 1) :
    (quorum_nodes_count e v).flags = 1 ∧
    (quorum_nodes_count e v).dependency = e.dependency := by
  unfold quorum_nodes_count
  simp only [h]
  rw [if_neg (by decide)]
  exact ⟨rfl, rfl⟩

/-- Lines 111-130 of `quorum_nodes` on the vector of source `pre.length`: the
lookup of the own ID succeeds or finds room, and the table then accounts for
the own ID of the vector. -/
theorem quorum_nodes_id_spec (pre : List Vec) (v : Vec) (nodes : Arena) (n : Nat)
    (h : Built pre nodes n) (hlen : pre.length < 255) :
    ∃ nodes2 n2, quorum_nodes_id nodes (offset n) pre.length v = .ok (nodes2, offset n2) ∧
      Half pre v nodes2 n2 := by
  have hF := h.fields
  by_cases hc : Covers nodes n v.own_id
  · -- the ID is present: count it, and make the node dependent if it was not
    obtain ⟨i, hi, hid⟩ := hc
    have hseen : Seen pre v.own_id := hid ▸ hF.seen i hi
    have hcnt : (nodes (offset i)).count = holders pre v.own_id := by
      have := hF.count i hi
      rw [hid] at this
      exact this
    have hflg : (nodes (offset i)).flags = if holders pre v.own_id = 0 then 0 else 1 := by
      have := hF.flags i hi
      rw [hid] at this
      exact this
    have hle := holders_le pre v.own_id
    refine ⟨Function.update nodes (offset i) (quorum_nodes_count (nodes (offset i)) v), n,
      ?_, ?_⟩
    · unfold quorum_nodes_id
      rw [quorum_node_hit nodes n i v.own_id hi hid hF.distinct]
      simp only
      rw [if_neg (by have := offset_nonneg i; omega)]
    · have hids : ∀ j, (entry (Function.update nodes (offset i)
          (quorum_nodes_count (nodes (offset i)) v)) j).id
          = (entry nodes j).id := by
        intro j
        rw [entry_update]
        by_cases hj : j = i
        · subst hj
          rw [if_pos rfl, quorum_nodes_count_id]
          rfl
        · rw [if_neg hj]
      have hother : ∀ j, j ≠ i → entry (Function.update nodes (offset i)
          (quorum_nodes_count (nodes (offset i)) v)) j
          = entry nodes j := fun j hj => entry_update_ne _ _ hj
      have hne : ∀ j, j < n → j ≠ i → v.own_id ≠ (entry nodes j).id := by
        intro j hj hji hc
        exact hji (hF.distinct j i hj hi (by rw [← hc, hid]))
      refine ⟨⟨?_, ?_, ?_, ?_, ?_, ?_, ?_⟩, ?_, ?_, ?_⟩
      · intro j k hj hk hjk
        rw [hids, hids] at hjk
        exact hF.distinct j k hj hk hjk
      · intro j hj
        rw [hids]
        exact (hF.seen j hj).append_left _
      · intro j hj
        by_cases hji : j = i
        · subst hji
          rw [hids, hid, holders_snoc_eq, if_neg (by omega), entry_update_same]
          by_cases h0 : holders pre v.own_id = 0
          · exact (quorum_nodes_count_placeholder _ v (by rw [hflg, if_pos h0])).1
          · exact (quorum_nodes_count_dependent _ v (by rw [hflg, if_neg h0])).1
        · rw [hother j hji, holders_snoc_ne pre (hne j hj hji)]
          exact hF.flags j hj
      · intro j hj
        rw [hids, firstSeen_append_seen _ _ (hF.seen j hj), ← hF.index j hj]
        by_cases hji : j = i
        · subst hji
          rw [entry_update_same, quorum_nodes_count_index]
          rfl
        · rw [hother j hji]
      · intro j hj
        by_cases hji : j = i
        · subst hji
          rw [hids, hid, holders_snoc_eq, entry_update_same, quorum_nodes_count_count, hcnt]
          exact Nat.mod_eq_of_lt (by omega)
        · rw [hother j hji, holders_snoc_ne pre (hne j hj hji)]
          exact hF.count j hj
      · intro j hj
        by_cases hji : j = i
        · subst hji
          rw [entry_update_same, quorum_nodes_count_carried]
          exact hF.carried j hj
        · rw [hother j hji]
          exact hF.carried j hj
      · intro j hj hh
        by_cases hji : j = i
        · subst hji
          rw [hids, hid, entry_update_same]
          by_cases h0 : holders pre v.own_id = 0
          · rw [(quorum_nodes_count_placeholder _ v (by rw [hflg, if_pos h0])).2]
            exact predOf_snoc_eq pre v h0
          · rw [(quorum_nodes_count_dependent _ v (by rw [hflg, if_neg h0])).2,
              predOf_snoc_keep pre v h0]
            have := hF.dependency j hj (by rw [hid]; exact h0)
            rw [hid] at this
            exact this
        · rw [hids, holders_snoc_ne pre (hne j hj hji)] at hh
          rw [hother j hji, predOf_snoc_keep pre v hh]
          exact hF.dependency j hj hh
      · intro u hu
        obtain ⟨⟨a, ha, hae⟩, ⟨b, hb, hbe⟩⟩ := h.covers u hu
        exact ⟨⟨a, ha, by rw [hids, hae]⟩, ⟨b, hb, by rw [hids, hbe]⟩⟩
      · exact ⟨i, hi, by rw [hids, hid]⟩
      · have := h.size
        omega
  · -- the ID is absent: insert a dependent node for it
    have hno : ∀ k, k < n → (entry nodes k).id ≠ v.own_id := fun k hk hid => hc ⟨k, hk, hid⟩
    have hunseen : ¬ Seen pre v.own_id := h.not_seen hc
    have hzero : holders pre v.own_id = 0 := not_seen_holders hunseen
    have hsize := h.size
    refine ⟨Function.update nodes (offset n)
      { flags := QUORUM_DEPENDENT, index := pre.length % 256, count := 1, carried := 0,
        id := v.own_id, dependency := v.predecessor_id }, n + 1, ?_, ?_⟩
    · unfold quorum_nodes_id
      rw [quorum_node_miss nodes n v.own_id hno (by omega)]
      simp only
      rw [if_pos (by have := offset_nonneg n; omega)]
      rw [show -(-(offset n + 1) + 1) = offset n by ring, offset_succ]
    · have hold : ∀ j, j < n → entry (Function.update nodes (offset n)
          { flags := QUORUM_DEPENDENT, index := pre.length % 256, count := 1, carried := 0,
            id := v.own_id, dependency := v.predecessor_id }) j = entry nodes j :=
        fun j hj => entry_update_ne _ _ (by omega)
      have hnew : entry (Function.update nodes (offset n)
          { flags := QUORUM_DEPENDENT, index := pre.length % 256, count := 1, carried := 0,
            id := v.own_id, dependency := v.predecessor_id }) n =
          { flags := QUORUM_DEPENDENT, index := pre.length % 256, count := 1, carried := 0,
            id := v.own_id, dependency := v.predecessor_id } := entry_update_same _ _ _
      have hcase : ∀ j, j < n + 1 → j < n ∨ j = n := fun j hj => by omega
      refine ⟨⟨?_, ?_, ?_, ?_, ?_, ?_, ?_⟩, ?_, ?_, ?_⟩
      · intro j k hj hk hjk
        rcases hcase j hj with hj | rfl <;> rcases hcase k hk with hk | rfl
        · rw [hold j hj, hold k hk] at hjk
          exact hF.distinct j k hj hk hjk
        · rw [hold j hj, hnew] at hjk
          exact absurd hjk (hno j hj)
        · rw [hold k hk, hnew] at hjk
          exact absurd hjk.symm (hno k hk)
        · rfl
      · intro j hj
        rcases hcase j hj with hj | rfl
        · rw [hold j hj]
          exact (hF.seen j hj).append_left _
        · rw [hnew]
          exact ⟨v, by simp, Or.inl rfl⟩
      · intro j hj
        rcases hcase j hj with hj | rfl
        · rw [hold j hj, holders_snoc_ne pre (Ne.symm (hno j hj))]
          exact hF.flags j hj
        · rw [hnew]
          simp only
          rw [holders_snoc_eq, if_neg (by omega)]
          rfl
      · intro j hj
        rcases hcase j hj with hj | rfl
        · rw [hold j hj, firstSeen_append_seen _ _ (hF.seen j hj)]
          exact hF.index j hj
        · rw [hnew]
          simp only
          rw [firstSeen_append_unseen _ _ hunseen, firstSeen, if_pos rfl,
            Nat.mod_eq_of_lt (by omega)]
          omega
      · intro j hj
        rcases hcase j hj with hj | rfl
        · rw [hold j hj, holders_snoc_ne pre (Ne.symm (hno j hj))]
          exact hF.count j hj
        · rw [hnew]
          simp only
          rw [holders_snoc_eq, hzero]
      · intro j hj
        rcases hcase j hj with hj | rfl
        · rw [hold j hj]
          exact hF.carried j hj
        · rw [hnew]
      · intro j hj hh
        rcases hcase j hj with hj | rfl
        · rw [hold j hj] at hh ⊢
          rw [holders_snoc_ne pre (Ne.symm (hno j hj))] at hh
          rw [predOf_snoc_keep pre v hh]
          exact hF.dependency j hj hh
        · rw [hnew]
          exact predOf_snoc_eq pre v hzero
      · intro u hu
        obtain ⟨⟨a, ha, hae⟩, ⟨b, hb, hbe⟩⟩ := h.covers u hu
        exact ⟨⟨a, by omega, by rw [hold a ha, hae]⟩, ⟨b, by omega, by rw [hold b hb, hbe]⟩⟩
      · exact ⟨n, by omega, by rw [hnew]⟩
      · omega

/-- Lines 131-140 of `quorum_nodes` on the vector of source `pre.length`: the
lookup of the predecessor ID succeeds or finds room, and the table then
covers the vector. -/
theorem quorum_nodes_dependency_spec (pre : List Vec) (v : Vec) (nodes : Arena) (n : Nat)
    (h : Half pre v nodes n) (hlen : pre.length < 255) :
    ∃ nodes2 n2, quorum_nodes_dependency nodes (offset n) v = .ok (nodes2, offset n2) ∧
      Built (pre ++ [v]) nodes2 n2 := by
  have hF := h.fields
  have hsize := h.size
  have hcov : ∀ u ∈ pre ++ [v], Covers nodes n u.own_id ∧
      (u ∈ pre → Covers nodes n u.predecessor_id) := by
    intro u hu
    rcases List.mem_append.1 hu with hu | hu
    · exact ⟨(h.covers u hu).1, fun _ => (h.covers u hu).2⟩
    · simp only [List.mem_singleton] at hu
      subst hu
      exact ⟨h.covers_id, fun hu => (h.covers u hu).2⟩
  by_cases hc : Covers nodes n v.predecessor_id
  · obtain ⟨i, hi, hid⟩ := hc
    refine ⟨nodes, n, ?_, hF, ?_, ?_⟩
    · unfold quorum_nodes_dependency
      rw [quorum_node_hit nodes n i v.predecessor_id hi hid hF.distinct]
      simp only
      rw [if_neg (by have := offset_nonneg i; omega)]
    · intro u hu
      refine ⟨(hcov u hu).1, ?_⟩
      rcases List.mem_append.1 hu with hu | hu
      · exact (h.covers u hu).2
      · simp only [List.mem_singleton] at hu
        subst hu
        exact ⟨i, hi, hid⟩
    · simp only [List.length_append, List.length_singleton]
      omega
  · have hno : ∀ k, k < n → (entry nodes k).id ≠ v.predecessor_id :=
      fun k hk hid => hc ⟨k, hk, hid⟩
    have hvne : v.own_id ≠ v.predecessor_id := by
      intro heq
      exact hc (heq ▸ h.covers_id)
    have hunseen : ¬ Seen pre v.predecessor_id := by
      rintro ⟨u, hu, hx | hx⟩
      · exact hc (hx ▸ (h.covers u hu).1)
      · exact hc (hx ▸ (h.covers u hu).2)
    have hzero : holders (pre ++ [v]) v.predecessor_id = 0 := by
      rw [holders_snoc_ne pre hvne]
      exact not_seen_holders hunseen
    refine ⟨Function.update nodes (offset n)
      { nodes (offset n) with flags := 0, index := 0, count := 0, carried := 0,
                              id := v.predecessor_id }, n + 1, ?_, ?_⟩
    · unfold quorum_nodes_dependency
      rw [quorum_node_miss nodes n v.predecessor_id hno (by omega)]
      simp only
      rw [if_pos (by have := offset_nonneg n; omega)]
      rw [show -(-(offset n + 1) + 1) = offset n by ring, offset_succ]
    · have hold : ∀ j, j < n → entry (Function.update nodes (offset n)
          { nodes (offset n) with flags := 0, index := 0, count := 0, carried := 0,
                                  id := v.predecessor_id }) j = entry nodes j :=
        fun j hj => entry_update_ne _ _ (by omega)
      have hnew : entry (Function.update nodes (offset n)
          { nodes (offset n) with flags := 0, index := 0, count := 0, carried := 0,
                                  id := v.predecessor_id }) n =
          { nodes (offset n) with flags := 0, index := 0, count := 0, carried := 0,
                                  id := v.predecessor_id } := entry_update_same _ _ _
      have hcase : ∀ j, j < n + 1 → j < n ∨ j = n := fun j hj => by omega
      refine ⟨⟨?_, ?_, ?_, ?_, ?_, ?_, ?_⟩, ?_, ?_⟩
      · intro j k hj hk hjk
        rcases hcase j hj with hj | rfl <;> rcases hcase k hk with hk | rfl
        · rw [hold j hj, hold k hk] at hjk
          exact hF.distinct j k hj hk hjk
        · rw [hold j hj, hnew] at hjk
          exact absurd hjk (hno j hj)
        · rw [hold k hk, hnew] at hjk
          exact absurd hjk.symm (hno k hk)
        · rfl
      · intro j hj
        rcases hcase j hj with hj | rfl
        · rw [hold j hj]
          exact hF.seen j hj
        · rw [hnew]
          exact ⟨v, by simp, Or.inr rfl⟩
      · intro j hj
        rcases hcase j hj with hj | rfl
        · rw [hold j hj]
          exact hF.flags j hj
        · rw [hnew]
          simp only
          rw [hzero, if_pos rfl]
      · intro j hj
        rcases hcase j hj with hj | rfl
        · rw [hold j hj]
          exact hF.index j hj
        · rw [hnew]
          simp only
          rw [firstSeen_append_unseen _ _ hunseen, firstSeen, if_neg hvne, if_pos rfl]
      · intro j hj
        rcases hcase j hj with hj | rfl
        · rw [hold j hj]
          exact hF.count j hj
        · rw [hnew]
          simp only
          rw [hzero]
      · intro j hj
        rcases hcase j hj with hj | rfl
        · rw [hold j hj]
          exact hF.carried j hj
        · rw [hnew]
      · intro j hj hh
        rcases hcase j hj with hj | rfl
        · rw [hold j hj] at hh ⊢
          exact hF.dependency j hj hh
        · rw [hnew] at hh
          exact absurd hzero hh
      · intro u hu
        have lift : ∀ x, Covers nodes n x → Covers (Function.update nodes (offset n)
            { nodes (offset n) with flags := 0, index := 0, count := 0, carried := 0,
                                    id := v.predecessor_id }) (n + 1) x := by
          rintro x ⟨a, ha, hae⟩
          exact ⟨a, by omega, by rw [hold a ha, hae]⟩
        refine ⟨lift _ (hcov u hu).1, ?_⟩
        rcases List.mem_append.1 hu with hu | hu
        · exact lift _ (h.covers u hu).2
        · simp only [List.mem_singleton] at hu
          subst hu
          exact ⟨n, by omega, by rw [hnew]⟩
      · simp only [List.length_append, List.length_singleton]
        omega

/-- The loop of `quorum_nodes` from source `pre.length` on, started on the
table of the sources before it, returns the table of all sources. -/
theorem quorum_nodes_loop_spec : ∀ (rest pre : List Vec) (nodes : Arena) (n : Nat),
    Built pre nodes n → pre.length + rest.length ≤ 255 →
    ∃ nodes2 n2, quorum_nodes_loop rest pre.length nodes (offset n) = .ok (nodes2, offset n2) ∧
      Built (pre ++ rest) nodes2 n2 := by
  intro rest
  induction rest with
  | nil =>
    intro pre nodes n h _
    exact ⟨nodes, n, rfl, by simpa using h⟩
  | cons v rest ih =>
    intro pre nodes n h hlen
    simp only [List.length_cons] at hlen
    obtain ⟨nodes1, n1, e1, h1⟩ := quorum_nodes_id_spec pre v nodes n h (by omega)
    obtain ⟨nodes2, n2, e2, h2⟩ := quorum_nodes_dependency_spec pre v nodes1 n1 h1 (by omega)
    obtain ⟨nodes3, n3, e3, h3⟩ := ih (pre ++ [v]) nodes2 n2 h2 (by simp; omega)
    refine ⟨nodes3, n3, ?_, by simpa using h3⟩
    rw [quorum_nodes_loop, e1]
    simp only
    rw [e2]
    simp only
    rw [List.length_append, List.length_singleton] at e3
    exact e3

/-- On 1..255 sources `quorum_nodes` returns, and its table accounts for all
of them. -/
theorem quorum_nodes_spec (vectors : List Vec) (nodes : Arena)
    (hmin : 1 ≤ vectors.length) (hmax : vectors.length ≤ 255) :
    ∃ nodes2 n2, quorum_nodes vectors nodes = .ok (nodes2, offset n2) ∧
      Built vectors nodes2 n2 := by
  obtain ⟨nodes2, n2, e, h⟩ := quorum_nodes_loop_spec vectors [] nodes 0 (Built.empty nodes)
    (by simpa using hmax)
  refine ⟨nodes2, n2, ?_, by simpa using h⟩
  unfold quorum_nodes
  rw [if_neg (by simp only [QUORUM_SOURCES_MIN]; omega),
    if_neg (by simp only [QUORUM_SOURCES_MAX]; omega)]
  rw [offset_zero] at e
  exact e

/-! ## Endorsement counts -/

theorem Chain.unique_list {vectors : List Vec} {x : Ident} {l1 : List Ident}
    (h1 : Chain vectors x l1) : ∀ {l2 : List Ident}, Chain vectors x l2 → l1 = l2 := by
  induction h1 with
  | stop x hx =>
    intro l2 h2
    cases h2 with
    | stop _ _ => rfl
    | next _ y l hy _ => exact absurd hx (predOf_some_holders hy)
  | next x y l hy _ ih =>
    intro l2 h2
    cases h2 with
    | stop _ hx => exact absurd hx (predOf_some_holders hy)
    | next _ y2 l2 hy2 hl2 =>
      have : y = y2 := by
        rw [hy] at hy2
        exact Option.some.inj hy2
      subst this
      rw [ih hl2]

theorem Chain.suffix {vectors : List Vec} {x : Ident} {l : List Ident}
    (h : Chain vectors x l) : ∀ z ∈ l, ∃ l2, Chain vectors z l2 ∧ l2.length ≤ l.length := by
  induction h with
  | stop x hx =>
    intro z hz
    simp at hz
  | next x y l hy hl ih =>
    intro z hz
    rcases List.mem_cons.1 hz with rfl | hz
    · exact ⟨z :: l, Chain.next z y l hy hl, Nat.le_refl _⟩
    · obtain ⟨l2, h2, hlen⟩ := ih z hz
      exact ⟨l2, h2, by simp only [List.length_cons]; omega⟩

theorem Chain.nodup {vectors : List Vec} {x : Ident} {l : List Ident}
    (h : Chain vectors x l) : l.Nodup := by
  induction h with
  | stop x hx => exact List.nodup_nil
  | next x y l hy hl ih =>
    refine List.nodup_cons.2 ⟨?_, ih⟩
    intro hx
    obtain ⟨l2, h2, hlen⟩ := hl.suffix x hx
    have := h2.unique_list (Chain.next x y l hy hl)
    rw [this] at hlen
    simp only [List.length_cons] at hlen
    omega

theorem countP_mem_cons (vectors : List Vec) (x : Ident) (l : List Ident) (hx : x ∉ l) :
    vectors.countP (fun v => decide (v.own_id ∈ x :: l))
      = holders vectors x + vectors.countP (fun v => decide (v.own_id ∈ l)) := by
  unfold holders
  induction vectors with
  | nil => rfl
  | cons v vs ih =>
    simp only [List.countP_cons, ih]
    by_cases h1 : v.own_id = x
    · have h2 : v.own_id ∉ l := h1 ▸ hx
      simp [h1, hx]
      omega
    · by_cases h2 : v.own_id ∈ l
      · simp [h1, h2]
        omega
      · simp [h1, h2]

/-- An endorsement count is the number of sources holding an ID of the chain. -/
theorem Endorse.chain {vectors : List Vec} {x : Ident} {k : Nat} (h : Endorse vectors x k) :
    ∃ l, Chain vectors x l ∧ k = vectors.countP (fun v => decide (v.own_id ∈ l)) := by
  induction h with
  | unheld x hx => exact ⟨[], Chain.stop x hx, by simp⟩
  | held x y k hy _ ih =>
    obtain ⟨l, hl, hk⟩ := ih
    have hc := Chain.next x y l hy hl
    have hx : x ∉ l := (List.nodup_cons.1 hc.nodup).1
    exact ⟨x :: l, hc, by rw [countP_mem_cons vectors x l hx, hk]⟩

theorem Chain.to_endorse {vectors : List Vec} {x : Ident} {l : List Ident}
    (h : Chain vectors x l) :
    Endorse vectors x (vectors.countP (fun v => decide (v.own_id ∈ l))) := by
  induction h with
  | stop x hx =>
    have : vectors.countP (fun v => decide (v.own_id ∈ ([] : List Ident))) = 0 := by simp
    rw [this]
    exact Endorse.unheld x hx
  | next x y l hy hl ih =>
    have hx : x ∉ l := (List.nodup_cons.1 (Chain.next x y l hy hl).nodup).1
    rw [countP_mem_cons vectors x l hx]
    exact Endorse.held x y _ hy ih

/-- An endorsement count never exceeds the number of sources. -/
theorem Endorse.le {vectors : List Vec} {x : Ident} {k : Nat} (h : Endorse vectors x k) :
    k ≤ vectors.length := by
  obtain ⟨l, -, hk⟩ := h.chain
  rw [hk]
  exact List.countP_le_length _

theorem Endorse.functional {vectors : List Vec} {x : Ident} {k1 : Nat}
    (h1 : Endorse vectors x k1) : ∀ {k2 : Nat}, Endorse vectors x k2 → k1 = k2 := by
  induction h1 with
  | unheld x hx =>
    intro k2 h2
    cases h2 with
    | unheld _ _ => rfl
    | held _ y k hy _ => exact absurd hx (predOf_some_holders hy)
  | held x y k hy _ ih =>
    intro k2 h2
    cases h2 with
    | unheld _ hx => exact absurd hx (predOf_some_holders hy)
    | held _ y2 k2 hy2 hk2 =>
      have : y = y2 := by
        rw [hy] at hy2
        exact Option.some.inj hy2
      subst this
      rw [ih hk2]

theorem Endorse.zero_of_unheld {vectors : List Vec} {x : Ident} {k : Nat}
    (h : Endorse vectors x k) (hx : holders vectors x = 0) : k = 0 :=
  h.functional (Endorse.unheld x hx)

theorem Endorse.pos_of_held {vectors : List Vec} {x : Ident} {k : Nat}
    (h : Endorse vectors x k) (hx : holders vectors x ≠ 0) : 0 < k := by
  cases h with
  | unheld _ h0 => exact absurd h0 hx
  | held _ y k hy _ => omega

theorem Endorse.link {vectors : List Vec} {x y : Ident} {k : Nat}
    (h : Endorse vectors x k) (hl : Link vectors x y) :
    ∃ k2, Endorse vectors y k2 ∧ k = holders vectors x + k2 ∧ k2 < k := by
  cases h with
  | unheld _ h0 => exact absurd h0 (predOf_some_holders hl)
  | held _ y2 k2 hy hk =>
    have : y2 = y := by
      unfold Link at hl
      rw [hy] at hl
      exact Option.some.inj hl
    subst this
    have := predOf_some_holders hy
    exact ⟨k2, hk, rfl, by omega⟩

theorem Endorse.path {vectors : List Vec} {x z : Ident}
    (hp : Relation.TransGen (Link vectors) x z) :
    ∀ {k : Nat}, Endorse vectors x k → ∃ k2, Endorse vectors z k2 ∧ k2 < k := by
  induction hp with
  | single hl =>
    intro k h
    obtain ⟨k2, h2, -, hlt⟩ := h.link hl
    exact ⟨k2, h2, hlt⟩
  | tail _ hl ih =>
    intro k h
    obtain ⟨k1, h1, hlt1⟩ := ih h
    obtain ⟨k2, h2, -, hlt2⟩ := h1.link hl
    exact ⟨k2, h2, by omega⟩

/-- An ID with an endorsement count lies on no cycle of recorded links. -/
theorem Endorse.acyclic {vectors : List Vec} {x : Ident} {k : Nat}
    (h : Endorse vectors x k) : ¬ Relation.TransGen (Link vectors) x x := by
  intro hp
  obtain ⟨k2, h2, hlt⟩ := Endorse.path hp h
  have := h.functional h2
  omega

/-! ## The traversal: flags, marks and the best decision -/

theorem flags_permanent (f : Nat) (h : f < 8) : f &&& QUORUM_PERMANENT ≠ 0 ↔ 4 ≤ f := by
  unfold QUORUM_PERMANENT
  interval_cases f <;> decide

theorem flags_temporary (f : Nat) (h : f < 4) : f &&& QUORUM_TEMPORARY ≠ 0 ↔ 2 ≤ f := by
  unfold QUORUM_TEMPORARY
  interval_cases f <;> decide

theorem flags_marked (f : Nat) (h : f < 8) :
    f &&& (QUORUM_TEMPORARY ||| QUORUM_PERMANENT) = 0 ↔ f < 2 := by
  unfold QUORUM_TEMPORARY QUORUM_PERMANENT
  interval_cases f <;> decide

theorem flags_mark_temporary (f : Nat) (h : f < 2) : f ||| QUORUM_TEMPORARY = f + 2 := by
  unfold QUORUM_TEMPORARY
  interval_cases f <;> decide

theorem flags_dependent (f : Nat) (h : f < 2) : (f + 2) &&& QUORUM_DEPENDENT ≠ 0 ↔ f = 1 := by
  unfold QUORUM_DEPENDENT
  interval_cases f <;> decide

theorem flags_mark_permanent (f : Nat) (h : f < 2) : (f + 2) ||| QUORUM_PERMANENT = f + 6 := by
  unfold QUORUM_PERMANENT
  interval_cases f <;> decide

theorem Good.flags_lt {vectors : List Vec} {e : Node} (h : Good vectors e) : e.flags < 8 := by
  rcases h.flags with hf | hf | hf <;> rw [hf] <;> split_ifs <;> omega

theorem Good.unmarked_flags {vectors : List Vec} {e : Node} (h : Good vectors e)
    (hf : e.flags < 2) : e.flags = if holders vectors e.id = 0 then 0 else 1 := by
  rcases h.flags with h1 | h1 | h1
  · exact h1
  · omega
  · omega

theorem unmarked_le (nodes : Arena) : ∀ n, unmarked nodes n ≤ n := by
  intro n
  induction n with
  | zero => exact Nat.le_refl _
  | succ n ih =>
    rw [unmarked]
    split_ifs <;> omega

theorem unmarked_update_above (nodes : Arena) (e : Node) (i : Nat) :
    ∀ n, n ≤ i → unmarked (Function.update nodes (offset i) e) n = unmarked nodes n := by
  intro n
  induction n with
  | zero => intro _; rfl
  | succ n ih =>
    intro hn
    rw [unmarked, unmarked, ih (by omega), entry_update_ne _ _ (by omega)]

theorem unmarked_update (nodes : Arena) (e : Node) (i : Nat)
    (hi : (entry nodes i).flags < 2) (he : 2 ≤ e.flags) :
    ∀ n, i < n → unmarked (Function.update nodes (offset i) e) n + 1 = unmarked nodes n := by
  intro n
  induction n with
  | zero => intro h; exact absurd h (Nat.not_lt_zero _)
  | succ n ih =>
    intro hn
    rw [unmarked, unmarked]
    by_cases hin : i = n
    · subst hin
      rw [unmarked_update_above nodes e i i (Nat.le_refl _), entry_update_same,
        if_neg (by omega), if_pos hi]
    · rw [entry_update_ne _ _ (fun h => hin h.symm)]
      have := ih (by omega)
      omega

theorem Table.of_ids {vectors : List Vec} {nodes nodes2 : Arena} {n : Nat}
    (h : Table vectors nodes n)
    (hids : ∀ j, j < n → (entry nodes2 j).id = (entry nodes j).id) :
    Table vectors nodes2 n := by
  refine ⟨?_, ?_, ?_⟩
  · intro j k hj hk hjk
    rw [hids j hj, hids k hk] at hjk
    exact h.distinct j k hj hk hjk
  · intro v hv
    obtain ⟨⟨a, ha, hae⟩, ⟨b, hb, hbe⟩⟩ := h.covers v hv
    exact ⟨⟨a, ha, by rw [hids a ha, hae]⟩, ⟨b, hb, by rw [hids b hb, hbe]⟩⟩
  · intro i hi
    rw [hids i hi]
    exact h.seen i hi

/-- The best decision only depends on the nodes that carry the permanent
mark. -/
theorem Best.congr {nodes nodes2 : Arena} {n : Nat} {q : Quorum} (h : Best nodes n q)
    (hsame : ∀ j, j < n → 4 ≤ (entry nodes j).flags → entry nodes2 j = entry nodes j)
    (hnew : ∀ j, j < n → 4 ≤ (entry nodes2 j).flags → 4 ≤ (entry nodes j).flags) :
    Best nodes2 n q := by
  refine ⟨h.forked, ?_, ?_⟩
  · intro h0
    obtain ⟨h1, h2, h3⟩ := h.zero h0
    refine ⟨h1, h2, ?_⟩
    intro j hj hf
    have hd := hnew j hj hf
    rw [hsame j hj hd]
    exact h3 j hj hd
  · intro h0
    obtain ⟨t, ht, htf, htc, hmax, huniq, hfork⟩ := h.top h0
    refine ⟨t, ht, ?_, ?_, ?_, ?_, ?_⟩
    · rw [hsame t ht htf]; exact htf
    · rw [hsame t ht htf]; exact htc
    · intro j hj hf
      have hd := hnew j hj hf
      rw [hsame j hj hd]
      exact hmax j hj hd
    · intro hf0
      obtain ⟨h1, h2, h3⟩ := huniq hf0
      rw [hsame t ht htf]
      refine ⟨h1, h2, ?_⟩
      intro j hj hf hc
      have hd := hnew j hj hf
      rw [hsame j hj hd] at hc
      exact h3 j hj hd hc
    · intro hf1
      obtain ⟨t2, ht2, hne, ht2f, ht2c⟩ := hfork hf1
      refine ⟨t2, ht2, hne, ?_, ?_⟩
      · rw [hsame t2 ht2 ht2f]; exact ht2f
      · rw [hsame t2 ht2 ht2f]; exact ht2c

/-- Lines 172-182 of `quorum_visit` on a node that carries the temporary mark
and whose count is its endorsement count: the node gets the permanent mark and
the best decision is brought up to date. -/
theorem quorum_visit_finish_spec (vectors : List Vec) (nodes : Arena) (n i : Nat) (q : Quorum)
    (hi : i < n)
    (hgood : ∀ j, j < n → j ≠ i → Good vectors (entry nodes j))
    (hbest : Best nodes n q)
    (hflags : (entry nodes i).flags
      = (if holders vectors (entry nodes i).id = 0 then 0 else 1) + 2)
    (hindex : (entry nodes i).index = firstSeen vectors 0 (entry nodes i).id)
    (hdep : holders vectors (entry nodes i).id ≠ 0 →
      predOf vectors (entry nodes i).id = some (entry nodes i).dependency)
    (hend : Endorse vectors (entry nodes i).id (entry nodes i).count)
    (h0 : holders vectors (entry nodes i).id = 0 → (entry nodes i).carried = 0)
    (h1 : holders vectors (entry nodes i).id ≠ 0 →
      Endorse vectors (entry nodes i).dependency (entry nodes i).carried ∧
      (entry nodes i).count = holders vectors (entry nodes i).id + (entry nodes i).carried) :
    (quorum_visit_finish nodes (offset i) q).error = 0 ∧
    (∀ j, (entry (quorum_visit_finish nodes (offset i) q).nodes j).id = (entry nodes j).id) ∧
    (∀ j, j < n → Good vectors (entry (quorum_visit_finish nodes (offset i) q).nodes j)) ∧
    Best (quorum_visit_finish nodes (offset i) q).nodes n
      (quorum_visit_finish nodes (offset i) q).quorum ∧
    4 ≤ (entry (quorum_visit_finish nodes (offset i) q).nodes i).flags ∧
    (quorum_visit_finish nodes (offset i) q).count
      = (entry (quorum_visit_finish nodes (offset i) q).nodes i).count ∧
    (∀ j, j ≠ i → entry (quorum_visit_finish nodes (offset i) q).nodes j = entry nodes j) := by
  have hnodes : (quorum_visit_finish nodes (offset i) q).nodes
      = Function.update nodes (offset i)
          { entry nodes i with flags := (entry nodes i).flags ||| QUORUM_PERMANENT } := rfl
  have hquorum : (quorum_visit_finish nodes (offset i) q).quorum
      = if q.length < (entry nodes i).count then
          { leader := (entry nodes i).index, length := (entry nodes i).count,
            repair := (entry nodes i).carried, forked := 0 }
        else if q.length = (entry nodes i).count then { q with forked := 1 }
        else q := rfl
  have hcount : (quorum_visit_finish nodes (offset i) q).count = (entry nodes i).count := rfl
  have hd2 : (if holders vectors (entry nodes i).id = 0 then 0 else 1) < 2 := by
    split_ifs <;> omega
  have hnewflags : (entry nodes i).flags ||| QUORUM_PERMANENT
      = (if holders vectors (entry nodes i).id = 0 then 0 else 1) + 6 := by
    rw [hflags]
    exact flags_mark_permanent _ hd2
  have hself : entry (quorum_visit_finish nodes (offset i) q).nodes i
      = { entry nodes i with flags := (entry nodes i).flags ||| QUORUM_PERMANENT } := by
    rw [hnodes, entry_update_same]
  have hother : ∀ j, j ≠ i →
      entry (quorum_visit_finish nodes (offset i) q).nodes j = entry nodes j := by
    intro j hj
    rw [hnodes, entry_update_ne _ _ hj]
  have hold : 4 ≤ (entry nodes i).flags → False := by
    rw [hflags]; omega
  have hdone : ∀ j, j < n →
      4 ≤ (entry (quorum_visit_finish nodes (offset i) q).nodes j).flags →
      j = i ∨ (j ≠ i ∧ 4 ≤ (entry nodes j).flags) := by
    intro j hj hf
    by_cases hji : j = i
    · exact Or.inl hji
    · rw [hother j hji] at hf
      exact Or.inr ⟨hji, hf⟩
  have hiflags : 4 ≤ (entry (quorum_visit_finish nodes (offset i) q).nodes i).flags := by
    rw [hself]
    show 4 ≤ (entry nodes i).flags ||| QUORUM_PERMANENT
    rw [hnewflags]
    omega
  have hicount : (entry (quorum_visit_finish nodes (offset i) q).nodes i).count
      = (entry nodes i).count := by
    rw [hself]
  refine ⟨rfl, ?_, ?_, ?_, hiflags, ?_, hother⟩
  · intro j
    by_cases hji : j = i
    · subst hji
      rw [hself]
    · rw [hother j hji]
  · intro j hj
    by_cases hji : j = i
    · subst hji
      rw [hself]
      refine ⟨hindex, Or.inr (Or.inr hnewflags), hdep, ?_, ?_⟩
      · intro hlt
        have : (entry nodes j).flags ||| QUORUM_PERMANENT < 4 := hlt
        rw [hnewflags] at this
        omega
      · intro _
        exact ⟨hend, h0, h1⟩
    · rw [hother j hji]
      exact hgood j hj hji
  · rw [hquorum]
    by_cases hlt : q.length < (entry nodes i).count
    · rw [if_pos hlt]
      refine ⟨Or.inl rfl, ?_, ?_⟩
      · intro hz
        have : (entry nodes i).count = 0 := hz
        omega
      · intro _
        have hbound : ∀ j, j < n → j ≠ i → 4 ≤ (entry nodes j).flags →
            (entry nodes j).count ≤ q.length := by
          intro j hj _ hf
          by_cases hq : q.length = 0
          · have := (hbest.zero hq).2.2 j hj hf
            omega
          · obtain ⟨t, -, -, -, hmax, -⟩ := hbest.top hq
            exact hmax j hj hf
        refine ⟨i, hi, hiflags, hicount, ?_, ?_, ?_⟩
        · intro j hj hf
          rcases hdone j hj hf with rfl | ⟨hji, hf2⟩
          · rw [hicount]
          · rw [hother j hji]
            have := hbound j hj hji hf2
            show (entry nodes j).count ≤ (entry nodes i).count
            omega
        · intro _
          refine ⟨?_, ?_, ?_⟩
          · rw [hself]
          · rw [hself]
          · intro j hj hf hc
            rcases hdone j hj hf with rfl | ⟨hji, hf2⟩
            · rfl
            · rw [hother j hji] at hc
              have := hbound j hj hji hf2
              have hc2 : (entry nodes j).count = (entry nodes i).count := hc
              omega
        · intro hf1
          have hf2 : (0 : Nat) = 1 := hf1
          omega
    · rw [if_neg hlt]
      by_cases heq : q.length = (entry nodes i).count
      · rw [if_pos heq]
        refine ⟨Or.inr rfl, ?_, ?_⟩
        · intro hz
          have hz2 : q.length = 0 := hz
          obtain ⟨z1, z2, z3⟩ := hbest.zero hz2
          refine ⟨z1, z2, ?_⟩
          intro j hj hf
          rcases hdone j hj hf with rfl | ⟨hji, hf2⟩
          · rw [hicount]
            omega
          · rw [hother j hji]
            exact z3 j hj hf2
        · intro hnz
          have hnz2 : q.length ≠ 0 := hnz
          obtain ⟨t, ht, htf, htc, hmax, -, -⟩ := hbest.top hnz2
          have hti : t ≠ i := fun hc => hold (hc ▸ htf)
          refine ⟨t, ht, ?_, ?_, ?_, ?_, ?_⟩
          · rw [hother t hti]; exact htf
          · rw [hother t hti]; exact htc
          · intro j hj hf
            rcases hdone j hj hf with rfl | ⟨hji, hf2⟩
            · rw [hicount]
              show (entry nodes j).count ≤ q.length
              omega
            · rw [hother j hji]
              exact hmax j hj hf2
          · intro hf0
            have hf2 : (1 : Nat) = 0 := hf0
            omega
          · intro _
            exact ⟨i, hi, fun hc => hti hc.symm, hiflags, by rw [hicount]; exact heq.symm⟩
      · rw [if_neg heq]
        have hgt : (entry nodes i).count < q.length := by omega
        refine ⟨hbest.forked, ?_, ?_⟩
        · intro hz
          omega
        · intro hnz
          obtain ⟨t, ht, htf, htc, hmax, huniq, hfork⟩ := hbest.top hnz
          have hti : t ≠ i := fun hc => hold (hc ▸ htf)
          refine ⟨t, ht, ?_, ?_, ?_, ?_, ?_⟩
          · rw [hother t hti]; exact htf
          · rw [hother t hti]; exact htc
          · intro j hj hf
            rcases hdone j hj hf with rfl | ⟨hji, hf2⟩
            · rw [hicount]
              omega
            · rw [hother j hji]
              exact hmax j hj hf2
          · intro hf0
            obtain ⟨u1, u2, u3⟩ := huniq hf0
            rw [hother t hti]
            refine ⟨u1, u2, ?_⟩
            intro j hj hf hc
            rcases hdone j hj hf with rfl | ⟨hji, hf2⟩
            · rw [hicount] at hc
              omega
            · rw [hother j hji] at hc
              exact u3 j hj hf2 hc
          · intro hf1
            obtain ⟨t2, ht2, hne, ht2f, ht2c⟩ := hfork hf1
            have ht2i : t2 ≠ i := fun hc => hold (hc ▸ ht2f)
            exact ⟨t2, ht2, hne, by rw [hother t2 ht2i]; exact ht2f,
              by rw [hother t2 ht2i]; exact ht2c⟩
  · rw [hcount, hicount]

theorem offset_pos {n : Nat} (h : 0 < n) : offset n > 0 := by
  have := offset_lt.2 h
  rw [offset_zero] at this
  exact this

theorem quorum_visit_spec (vectors : List Vec) (n : Nat) (hmax : vectors.length ≤ 255) :
    ∀ (fuel : Nat) (nodes : Arena) (i : Nat) (quorum : Quorum) (count : Nat),
      Table vectors nodes n → (∀ j, j < n → Good vectors (entry nodes j)) → Best nodes n quorum →
      i < n → unmarked nodes n < fuel →
      (∀ j, j < n → 2 ≤ (entry nodes j).flags → (entry nodes j).flags < 4 →
        Relation.TransGen (Link vectors) (entry nodes j).id (entry nodes i).id) →
      ∃ r, quorum_visit fuel nodes (offset i) (offset n) quorum count = .ok r ∧
        ((r.error = 1 ∧ ∃ x, Relation.TransGen (Link vectors) x x) ∨
         (r.error = 0 ∧ Settled vectors n nodes i r)) := by
  intro fuel
  induction fuel with
  | zero =>
    intro nodes i quorum count _ _ _ _ hfuel
    omega
  | succ fuel ih =>
    intro nodes i quorum count htab hgood hbest hi hfuel hstack
    have hgi := hgood i hi
    have hf8 := hgi.flags_lt
    have e0 : nodes (offset i) = entry nodes i := rfl
    rw [quorum_visit]
    rw [if_neg (by have := offset_nonneg i; omega)]
    rw [if_neg (not_not.2 (offset_pos (by omega)))]
    rw [e0]
    by_cases hperm : 4 ≤ (entry nodes i).flags
    · rw [if_pos ((flags_permanent _ hf8).2 hperm)]
      refine ⟨_, rfl, Or.inr ⟨rfl, ?_⟩⟩
      exact ⟨fun _ _ => rfl, hgood, hbest, hperm, rfl, fun _ _ _ => rfl,
        fun j hj hf => Or.inl hf⟩
    · rw [if_neg (fun hc => hperm ((flags_permanent _ hf8).1 hc))]
      have hf4 : (entry nodes i).flags < 4 := by omega
      by_cases htemp : 2 ≤ (entry nodes i).flags
      · rw [if_pos ((flags_temporary _ hf4).2 htemp)]
        exact ⟨_, rfl, Or.inl ⟨rfl, _, hstack i hi htemp hf4⟩⟩
      · rw [if_neg (fun hc => htemp ((flags_temporary _ hf4).1 hc))]
        have hf2 : (entry nodes i).flags < 2 := by omega
        have hdflag := hgi.unmarked_flags hf2
        have hfresh := hgi.fresh hf4
        -- the node gets the temporary mark
        have hmark : (entry nodes i).flags ||| QUORUM_TEMPORARY = (entry nodes i).flags + 2 :=
          flags_mark_temporary _ hf2
        simp only []
        rw [hmark]
        set nodes1 : Arena := Function.update nodes (offset i)
          { entry nodes i with flags := (entry nodes i).flags + 2 } with hnodes1
        have h1i : nodes1 (offset i)
            = { entry nodes i with flags := (entry nodes i).flags + 2 } := by
          rw [hnodes1]
          exact Function.update_same _ _ _
        have h1e : entry nodes1 i
            = { entry nodes i with flags := (entry nodes i).flags + 2 } := h1i
        have h1o : ∀ j, j ≠ i → entry nodes1 j = entry nodes j :=
          fun j hj => entry_update_ne _ _ hj
        have h1ids : ∀ j, (entry nodes1 j).id = (entry nodes j).id := by
          intro j
          by_cases hji : j = i
          · subst hji
            rw [h1e]
          · rw [h1o j hji]
        have htab1 : Table vectors nodes1 n := htab.of_ids (fun j _ => h1ids j)
        have hgood1 : ∀ j, j < n → Good vectors (entry nodes1 j) := by
          intro j hj
          by_cases hji : j = i
          · subst hji
            rw [h1e]
            refine ⟨hgi.index, Or.inr (Or.inl ?_), hgi.dependency, fun _ => hfresh, ?_⟩
            · show (entry nodes j).flags + 2 = _
              rw [hdflag]
            · intro hc
              have hc2 : 4 ≤ (entry nodes j).flags + 2 := hc
              omega
          · rw [h1o j hji]
            exact hgood j hj
        have hbest1 : Best nodes1 n quorum := by
          refine hbest.congr ?_ ?_
          · intro j hj hf
            exact h1o j (fun hc => by rw [hc] at hf; omega)
          · intro j hj hf
            by_cases hji : j = i
            · subst hji
              rw [h1e] at hf
              have hc2 : 4 ≤ (entry nodes j).flags + 2 := hf
              omega
            · rw [h1o j hji] at hf
              exact hf
        rw [h1i]
        simp only []
        by_cases hdep : (entry nodes i).flags = 1
        · -- a dependent node: visit the node of its dependency first
          rw [if_pos ((flags_dependent _ hf2).2 hdep)]
          have hheld : holders vectors (entry nodes i).id ≠ 0 := by
            intro hc
            rw [hdflag, if_pos hc] at hdep
            omega
          have hlink : predOf vectors (entry nodes i).id = some (entry nodes i).dependency :=
            hgi.dependency hheld
          obtain ⟨v, hv, -, hvp⟩ := predOf_some_mem hlink
          obtain ⟨d, hd, hdid⟩ := (htab1.covers v hv).2
          rw [hvp] at hdid
          rw [quorum_node_hit nodes1 n d _ hd hdid htab1.distinct]
          simp only []
          have hfuel1 : unmarked nodes1 n < fuel := by
            have := unmarked_update nodes { entry nodes i with flags := (entry nodes i).flags + 2 }
              i hf2 (by show 2 ≤ (entry nodes i).flags + 2; omega) n hi
            rw [← hnodes1] at this
            omega
          have hstack1 : ∀ j, j < n → 2 ≤ (entry nodes1 j).flags → (entry nodes1 j).flags < 4 →
              Relation.TransGen (Link vectors) (entry nodes1 j).id (entry nodes1 d).id := by
            intro j hj hj2 hj4
            rw [hdid, h1ids]
            by_cases hji : j = i
            · subst hji
              exact Relation.TransGen.single hlink
            · rw [h1o j hji] at hj2 hj4
              exact Relation.TransGen.tail (hstack j hj hj2 hj4) hlink
          obtain ⟨r1, hr1, hcase⟩ := ih nodes1 d quorum (entry nodes i).carried htab1 hgood1
            hbest1 hd hfuel1 hstack1
          rw [hr1]
          simp only []
          rcases hcase with ⟨herr, hcyc⟩ | ⟨herr, hset⟩
          · rw [if_pos (by rw [herr]; decide)]
            exact ⟨_, rfl, Or.inl ⟨herr, hcyc⟩⟩
          · rw [if_neg (not_not.2 herr)]
            have hri : r1.nodes (offset i)
                = { entry nodes i with flags := (entry nodes i).flags + 2 } := by
              have := hset.frame i hi (by rw [h1e]; show 2 ≤ (entry nodes i).flags + 2; omega)
              rw [h1e] at this
              exact this
            rw [hri]
            simp only []
            have hgd := hset.good d hd
            have hdend : Endorse vectors (entry nodes i).dependency r1.count := by
              have := (hgd.done hset.done).1
              rw [hset.ids d hd, hdid, ← hset.count] at this
              exact this
            have hiend : Endorse vectors (entry nodes i).id
                (holders vectors (entry nodes i).id + r1.count) :=
              Endorse.held _ _ _ hlink hdend
            have hle := hiend.le
            rw [hfresh.1]
            rw [if_neg (not_not.2 (by simp only [UINT8_MAX]; omega))]
            rw [Nat.mod_eq_of_lt (by omega)]
            set nodes2 : Arena := Function.update r1.nodes (offset i)
              { flags := (entry nodes i).flags + 2, index := (entry nodes i).index,
                count := holders vectors (entry nodes i).id + r1.count, carried := r1.count,
                id := (entry nodes i).id, dependency := (entry nodes i).dependency } with hnodes2
            have h2e : entry nodes2 i
                = { flags := (entry nodes i).flags + 2, index := (entry nodes i).index,
                    count := holders vectors (entry nodes i).id + r1.count,
                    carried := r1.count, id := (entry nodes i).id,
                    dependency := (entry nodes i).dependency } := entry_update_same _ _ _
            have h2o : ∀ j, j ≠ i → entry nodes2 j = entry r1.nodes j :=
              fun j hj => entry_update_ne _ _ hj
            have hr1i : entry r1.nodes i
                = { entry nodes i with flags := (entry nodes i).flags + 2 } := hri
            have hbest2 : Best nodes2 n r1.quorum := by
              refine hset.best.congr ?_ ?_
              · intro j hj hf
                exact h2o j (fun hc => by
                  rw [hc, hr1i] at hf
                  have hc2 : 4 ≤ (entry nodes i).flags + 2 := hf
                  omega)
              · intro j hj hf
                by_cases hji : j = i
                · subst hji
                  rw [h2e] at hf
                  have hc2 : 4 ≤ (entry nodes j).flags + 2 := hf
                  omega
                · rw [h2o j hji] at hf
                  exact hf
            obtain ⟨f1, f2, f3, f4, f5, f6, f7⟩ := quorum_visit_finish_spec vectors nodes2 n i
              r1.quorum hi
              (fun j hj hji => by rw [h2o j hji]; exact hset.good j hj)
              hbest2
              (by rw [h2e]; show (entry nodes i).flags + 2 = _; rw [hdflag])
              (by rw [h2e]; exact hgi.index)
              (by rw [h2e]; exact hgi.dependency)
              (by rw [h2e]; exact hiend)
              (by rw [h2e]; intro hc; exact absurd hc hheld)
              (by rw [h2e]; intro _; exact ⟨hdend, rfl⟩)
            refine ⟨_, rfl, Or.inr ⟨f1, ?_⟩⟩
            refine ⟨?_, fun j hj => f3 j hj, f4, f5, f6, ?_, ?_⟩
            · intro j hj
              rw [f2 j]
              by_cases hji : j = i
              · subst hji
                rw [h2e]
              · rw [h2o j hji, hset.ids j hj, h1ids]
            · intro j hj hj2
              have hji : j ≠ i := fun hc => by rw [hc] at hj2; omega
              rw [f7 j hji, h2o j hji, hset.frame j hj (by rw [h1o j hji]; exact hj2), h1o j hji]
            · intro j hj hj2
              by_cases hji : j = i
              · subst hji
                exact Or.inr f5
              · rw [f7 j hji, h2o j hji]
                exact hset.marks j hj (by rw [h1o j hji]; exact hj2)
        · -- a node that no source holds: nothing to fold
          rw [if_neg (fun hc => hdep ((flags_dependent _ hf2).1 hc))]
          have hunheld : holders vectors (entry nodes i).id = 0 := by
            by_contra hc
            rw [hdflag, if_neg hc] at hdep
            exact hdep rfl
          obtain ⟨f1, f2, f3, f4, f5, f6, f7⟩ := quorum_visit_finish_spec vectors nodes1 n i
            quorum hi
            (fun j hj _ => hgood1 j hj)
            hbest1
            (by rw [h1e]; show (entry nodes i).flags + 2 = _; rw [hdflag])
            (by rw [h1e]; exact hgi.index)
            (by rw [h1e]; exact hgi.dependency)
            (by
              rw [h1e]
              show Endorse vectors (entry nodes i).id (entry nodes i).count
              rw [hfresh.1, hunheld]
              exact Endorse.unheld _ hunheld)
            (by rw [h1e]; intro _; exact hfresh.2)
            (by rw [h1e]; intro hc; exact absurd hunheld hc)
          refine ⟨_, rfl, Or.inr ⟨f1, ?_⟩⟩
          refine ⟨?_, fun j hj => f3 j hj, f4, f5, f6, ?_, ?_⟩
          · intro j hj
            rw [f2 j, h1ids]
          · intro j hj hj2
            have hji : j ≠ i := fun hc => by rw [hc] at hj2; omega
            rw [f7 j hji, h1o j hji]
          · intro j hj hj2
            by_cases hji : j = i
            · subst hji
              exact Or.inr f5
            · rw [f7 j hji, h1o j hji]
              exact Or.inl hj2

/-! ## The traversal: `quorum_slow` -/

theorem Built.table {vectors : List Vec} {nodes : Arena} {n : Nat} (h : Built vectors nodes n) :
    Table vectors nodes n :=
  ⟨h.fields.distinct, h.covers, h.fields.seen⟩

theorem Built.good {vectors : List Vec} {nodes : Arena} {n : Nat} (h : Built vectors nodes n) :
    ∀ j, j < n → Good vectors (entry nodes j) := by
  intro j hj
  have hflags := h.fields.flags j hj
  have hlt : (entry nodes j).flags < 2 := by
    rw [hflags]; split_ifs <;> omega
  refine ⟨h.fields.index j hj, Or.inl hflags, h.fields.dependency j hj,
    fun _ => ⟨h.fields.count j hj, h.fields.carried j hj⟩, fun hc => ?_⟩
  omega

theorem Built.flags_unmarked {vectors : List Vec} {nodes : Arena} {n : Nat}
    (h : Built vectors nodes n) : ∀ j, j < n → (entry nodes j).flags < 2 := by
  intro j hj
  rw [h.fields.flags j hj]
  split_ifs <;> omega

theorem Built.best {vectors : List Vec} {nodes : Arena} {n : Nat} (h : Built vectors nodes n) :
    Best nodes n { leader := 0, length := 0, repair := 0, forked := 0 } := by
  refine ⟨Or.inl rfl, fun _ => ⟨rfl, rfl, ?_⟩, fun hc => absurd rfl hc⟩
  intro j hj hf
  have := h.flags_unmarked j hj
  omega

theorem offset_div (n : Nat) : (offset n / QUORUM_NODE).toNat = n := by
  simp only [offset, QUORUM_NODE]
  omega

/-- The loop of `quorum_slow` from node `j` on: it either returns the
cyclic-reference error, on a cycle of recorded links, or leaves every node
permanently marked. -/
theorem quorum_slow_loop_spec (vectors : List Vec) (n : Nat) (hmax : vectors.length ≤ 255) :
    ∀ (d j fuel : Nat) (nodes : Arena) (quorum : Quorum), j + d = n → d < fuel →
      Table vectors nodes n → (∀ k, k < n → Good vectors (entry nodes k)) →
      Best nodes n quorum →
      (∀ k, k < n → (entry nodes k).flags < 2 ∨ 4 ≤ (entry nodes k).flags) →
      (∀ k, k < j → 4 ≤ (entry nodes k).flags) →
      ∃ out, quorum_slow_loop fuel nodes (offset j) (offset n) quorum = .ok out ∧
        ((out.error = 1 ∧ ∃ x, Relation.TransGen (Link vectors) x x) ∨
         (out.error = 0 ∧ Table vectors out.nodes n ∧
          (∀ k, k < n → Good vectors (entry out.nodes k)) ∧ Best out.nodes n out.quorum ∧
          ∀ k, k < n → 4 ≤ (entry out.nodes k).flags)) := by
  intro d
  induction d with
  | zero =>
    intro j fuel nodes quorum hj hfuel htab hgood hbest _ hdone
    obtain ⟨f, rfl⟩ : ∃ f, fuel = f + 1 := ⟨fuel - 1, by omega⟩
    have hjn : j = n := by omega
    subst hjn
    rw [quorum_slow_loop, if_neg (lt_irrefl _)]
    exact ⟨_, rfl, Or.inr ⟨rfl, htab, hgood, hbest, hdone⟩⟩
  | succ d ih =>
    intro j fuel nodes quorum hj hfuel htab hgood hbest hmarks hdone
    obtain ⟨f, rfl⟩ : ∃ f, fuel = f + 1 := ⟨fuel - 1, by omega⟩
    have hjn : j < n := by omega
    have e0 : nodes (offset j) = entry nodes j := rfl
    rw [quorum_slow_loop, if_pos (offset_lt.2 hjn), e0, ← offset_succ]
    by_cases hf2 : (entry nodes j).flags < 2
    · rw [if_pos ((flags_marked _ (hgood j hjn).flags_lt).2 hf2), offset_div]
      obtain ⟨r, hr, hcase⟩ := quorum_visit_spec vectors n hmax (n + 1) nodes j quorum 0
        htab hgood hbest hjn (by have := unmarked_le nodes n; omega)
        (fun k hk h2 h4 => by
          rcases hmarks k hk with h | h <;> omega)
      rw [hr]
      simp only []
      rcases hcase with ⟨herr, hcyc⟩ | ⟨herr, hset⟩
      · rw [if_pos (by rw [herr]; decide)]
        exact ⟨_, rfl, Or.inl ⟨herr, hcyc⟩⟩
      · rw [if_neg (not_not.2 herr)]
        refine ih (j + 1) f r.nodes r.quorum (by omega) (by omega)
          (htab.of_ids hset.ids) hset.good hset.best ?_ ?_
        · intro k hk
          rcases hmarks k hk with h | h
          · exact hset.marks k hk h
          · right
            rw [hset.frame k hk (by omega)]
            exact h
        · intro k hk
          by_cases hkj : k = j
          · subst hkj
            exact hset.done
          · have := hdone k (by omega)
            rw [hset.frame k (by omega) (by omega)]
            exact this
    · rw [if_neg (fun hc => hf2 ((flags_marked _ (hgood j hjn).flags_lt).1 hc))]
      refine ih (j + 1) f nodes quorum (by omega) (by omega) htab hgood hbest hmarks ?_
      intro k hk
      by_cases hkj : k = j
      · subst hkj
        rcases hmarks k hjn with h | h
        · exact absurd h hf2
        · exact h
      · exact hdone k (by omega)

/-- In a table whose nodes all carry the permanent mark every ID has an
endorsement count. -/
theorem table_endorse_total {vectors : List Vec} {nodes : Arena} {n : Nat}
    (htab : Table vectors nodes n) (hgood : ∀ k, k < n → Good vectors (entry nodes k))
    (hdone : ∀ k, k < n → 4 ≤ (entry nodes k).flags) (x : Ident) :
    ∃ k, Endorse vectors x k := by
  by_cases hx : holders vectors x = 0
  · exact ⟨0, Endorse.unheld x hx⟩
  · obtain ⟨v, hv, hvx⟩ := holders_ne_zero.1 hx
    obtain ⟨i, hi, hid⟩ := (htab.covers v hv).1
    have := ((hgood i hi).done (hdone i hi)).1
    rw [hid, hvx] at this
    exact ⟨_, this⟩

/-- The count of a permanently marked node bounds the endorsement count of
every ID when it bounds the counts of all nodes. -/
theorem endorse_le_of_table {vectors : List Vec} {nodes : Arena} {n : Nat}
    (htab : Table vectors nodes n) (hgood : ∀ k, k < n → Good vectors (entry nodes k))
    (hdone : ∀ k, k < n → 4 ≤ (entry nodes k).flags) {m : Nat}
    (hmaxc : ∀ j, j < n → (entry nodes j).count ≤ m) {x : Ident} {k : Nat}
    (h : Endorse vectors x k) : k ≤ m := by
  by_cases hx : holders vectors x = 0
  · rw [h.zero_of_unheld hx]
    exact Nat.zero_le _
  · obtain ⟨v, hv, hvx⟩ := holders_ne_zero.1 hx
    obtain ⟨i, hi, hid⟩ := (htab.covers v hv).1
    have := ((hgood i hi).done (hdone i hi)).1
    rw [hid, hvx] at this
    rw [h.functional this]
    exact hmaxc i hi

/-- The node of an ID with a positive endorsement count, in a table whose
nodes all carry the permanent mark. -/
theorem endorse_node {vectors : List Vec} {nodes : Arena} {n : Nat}
    (htab : Table vectors nodes n) (hgood : ∀ k, k < n → Good vectors (entry nodes k))
    (hdone : ∀ k, k < n → 4 ≤ (entry nodes k).flags) {x : Ident} {k : Nat}
    (h : Endorse vectors x k) (hk : k ≠ 0) :
    ∃ i, i < n ∧ (entry nodes i).id = x ∧ (entry nodes i).count = k := by
  have hx : holders vectors x ≠ 0 := fun hc => hk (h.zero_of_unheld hc)
  obtain ⟨v, hv, hvx⟩ := holders_ne_zero.1 hx
  obtain ⟨i, hi, hid⟩ := (htab.covers v hv).1
  have := ((hgood i hi).done (hdone i hi)).1
  rw [hid, hvx] at this
  exact ⟨i, hi, by rw [hid, hvx], this.functional h⟩

/-- The decision read off a table whose nodes all carry the permanent mark,
after the final fold of `quorum_slow`. -/
theorem decision_of_table {vectors : List Vec} {nodes : Arena} {n : Nat} {q : Quorum}
    (hne : vectors ≠ [])
    (htab : Table vectors nodes n) (hgood : ∀ k, k < n → Good vectors (entry nodes k))
    (hbest : Best nodes n q) (hdone : ∀ k, k < n → 4 ≤ (entry nodes k).flags) :
    Decision vectors
      (if q.forked = 1 then { q with leader := 0, length := 0, repair := 0 } else q) := by
  -- the own ID of the first source has a positive count
  obtain ⟨v0, rest, rfl⟩ : ∃ v0 rest, vectors = v0 :: rest := by
    cases vectors with
    | nil => exact absurd rfl hne
    | cons v0 rest => exact ⟨v0, rest, rfl⟩
  have hv0 : holders (v0 :: rest) v0.own_id ≠ 0 :=
    holders_ne_zero.2 ⟨v0, List.mem_cons_self _ _, rfl⟩
  obtain ⟨i0, hi0, hid0⟩ := (htab.covers v0 (List.mem_cons_self _ _)).1
  have hend0 := ((hgood i0 hi0).done (hdone i0 hi0)).1
  rw [hid0] at hend0
  have hpos0 := hend0.pos_of_held hv0
  have hlen : q.length ≠ 0 := by
    intro hz
    have := (hbest.zero hz).2.2 i0 hi0 (hdone i0 hi0)
    omega
  obtain ⟨t, ht, htf, htc, hmaxc, huniq, hfork⟩ := hbest.top hlen
  have hgt := hgood t ht
  have hendt := (hgt.done htf).1
  rw [htc] at hendt
  have hwin : Winner (v0 :: rest) (entry nodes t).id q.length :=
    ⟨hendt, by omega, fun x k h =>
      endorse_le_of_table htab hgood hdone (fun j hj => hmaxc j hj (hdone j hj)) h⟩
  have hheldt : holders (v0 :: rest) (entry nodes t).id ≠ 0 :=
    fun hc => hlen (hendt.zero_of_unheld hc)
  refine ⟨table_endorse_total htab hgood hdone, ?_, (entry nodes t).id, q.length, hwin, ?_, ?_⟩
  · rcases hbest.forked with h | h
    · rw [if_neg (by omega)]
      exact Or.inl h
    · rw [if_pos h]
      exact Or.inr h
  · intro hf0
    have hq0 : q.forked = 0 := by
      by_cases h1 : q.forked = 1
      · rw [if_pos h1] at hf0
        exact hf0
      · rw [if_neg h1] at hf0
        exact hf0
    rw [if_neg (by omega)]
    obtain ⟨u1, u2, u3⟩ := huniq hq0
    refine ⟨rfl, ?_, ?_, ?_⟩
    · rw [u1]
      exact hgt.index
    · refine ⟨(entry nodes t).dependency, hgt.dependency hheldt, ?_⟩
      rw [u2]
      exact ((hgt.done htf).2.2 hheldt).1
    · intro x hx
      obtain ⟨j, hj, hjid, hjc⟩ := endorse_node htab hgood hdone hx hlen
      rw [← hjid, u3 j hj (hdone j hj) hjc]
  · intro hf1
    have hq1 : q.forked = 1 := by
      by_cases h1 : q.forked = 1
      · exact h1
      · rw [if_neg h1] at hf1
        exact hf1
    rw [if_pos hq1]
    obtain ⟨t2, ht2, hne2, ht2f, ht2c⟩ := hfork hq1
    refine ⟨rfl, rfl, rfl, (entry nodes t2).id, ?_, ?_⟩
    · intro hc
      exact hne2 (htab.distinct t2 t ht2 ht hc)
    · have := ((hgood t2 ht2).done ht2f).1
      rw [ht2c] at this
      exact this

/-- On 1..255 sources `quorum_slow` returns: either the cyclic-reference
error, and then the recorded predecessor links contain a cycle, or 0 with the
decision of the endorsement counts. -/
theorem quorum_slow_spec (vectors : List Vec) (nodes : Arena) (quorum : Quorum)
    (hmin : 1 ≤ vectors.length) (hmax : vectors.length ≤ 255) :
    ∃ out, quorum_slow vectors nodes quorum = .ok out ∧
      ((out.error = 1 ∧ ∃ x, Relation.TransGen (Link vectors) x x) ∨
       (out.error = 0 ∧ Decision vectors out.quorum)) := by
  obtain ⟨nodes1, n, hbuild, hbuilt⟩ := quorum_nodes_spec vectors nodes hmin hmax
  have hne : vectors ≠ [] := by
    intro hc
    rw [hc] at hmin
    simp at hmin
  obtain ⟨out, hloop, hcase⟩ := quorum_slow_loop_spec vectors n hmax n 0
    ((offset n).toNat + 1) nodes1 { leader := 0, length := 0, repair := 0, forked := 0 }
    (by omega) (by have := offset_toNat n; omega) hbuilt.table hbuilt.good hbuilt.best
    (fun k hk => Or.inl (hbuilt.flags_unmarked k hk))
    (fun k hk => absurd hk (Nat.not_lt_zero _))
  rw [offset_zero] at hloop
  unfold quorum_slow
  rw [if_neg (by simp only [QUORUM_SOURCES_MIN]; omega),
    if_neg (by simp only [QUORUM_SOURCES_MAX]; omega)]
  simp only []
  rw [hbuild]
  simp only []
  rw [hloop]
  simp only []
  rcases hcase with ⟨herr, hcyc⟩ | ⟨herr, htab, hgood, hbest, hdone⟩
  · rw [if_pos (by rw [herr]; decide)]
    exact ⟨out, rfl, Or.inl ⟨herr, hcyc⟩⟩
  · rw [if_neg (not_not.2 herr)]
    have hdec := decision_of_table hne htab hgood hbest hdone
    by_cases h1 : out.quorum.forked = 1
    · rw [if_pos h1]
      rw [if_pos h1] at hdec
      exact ⟨_, rfl, Or.inr ⟨herr, hdec⟩⟩
    · rw [if_neg h1]
      rw [if_neg h1] at hdec
      have h0 : out.quorum.forked = 0 := by
        rcases hbest.forked with h | h
        · exact h
        · exact absurd h h1
      rw [if_pos h0]
      exact ⟨out, rfl, Or.inr ⟨herr, hdec⟩⟩

/-! ## Predecessor links and cycles -/

theorem Link.step {vectors : List Vec} {x y : Ident} (h : Link vectors x y) :
    Step vectors x y :=
  predOf_some_mem h

theorem Step.to_link {vectors : List Vec} {x y : Ident} (hc : Consistent vectors)
    (h : Step vectors x y) : Link vectors x y := by
  obtain ⟨v, hv, hvx, hvy⟩ := h
  have hheld : holders vectors x ≠ 0 := holders_ne_zero.2 ⟨v, hv, hvx⟩
  cases hp : predOf vectors x with
  | none => exact absurd (predOf_eq_none.1 hp) hheld
  | some z =>
    obtain ⟨u, hu, hux, huz⟩ := predOf_some_mem hp
    have := hc u hu v hv (by rw [hux, hvx])
    show predOf vectors x = some y
    rw [hp, ← huz, this, hvy]

theorem Link.path_step {vectors : List Vec} {x y : Ident}
    (h : Relation.TransGen (Link vectors) x y) : Relation.TransGen (Step vectors) x y :=
  Relation.TransGen.mono (fun _ _ hl => Link.step hl) h

theorem Step.path_link {vectors : List Vec} {x y : Ident} (hc : Consistent vectors)
    (h : Relation.TransGen (Step vectors) x y) : Relation.TransGen (Link vectors) x y :=
  Relation.TransGen.mono (fun _ _ hs => Step.to_link hc hs) h

/-- A chain of vectors linked predecessor to own ID is a path of steps from
the own ID of the first to the predecessor ID of the last. -/
theorem path_of_chain (vectors : List Vec) : ∀ (c : List Vec) (v : Vec),
    (∀ u ∈ v :: c, u ∈ vectors) →
    List.Chain' (fun a b => a.predecessor_id = b.own_id) (v :: c) →
    Relation.TransGen (Step vectors) v.own_id
      ((v :: c).getLast (List.cons_ne_nil v c)).predecessor_id := by
  intro c
  induction c with
  | nil =>
    intro v hmem _
    exact Relation.TransGen.single ⟨v, hmem v (List.mem_cons_self _ _), rfl, rfl⟩
  | cons w c ih =>
    intro v hmem hch
    have hvw : v.predecessor_id = w.own_id := (List.chain'_cons.1 hch).1
    have hrest := ih w (fun u hu => hmem u (List.mem_cons_of_mem _ hu))
      (List.chain'_cons.1 hch).2
    rw [List.getLast_cons (List.cons_ne_nil w c)]
    exact Relation.TransGen.head ⟨v, hmem v (List.mem_cons_self _ _), rfl, hvw⟩ hrest

/-- A path of steps is a chain of vectors linked predecessor to own ID. -/
theorem chain_of_path (vectors : List Vec) {x y : Ident}
    (h : Relation.TransGen (Step vectors) x y) :
    ∃ (v : Vec) (c : List Vec), (∀ u ∈ v :: c, u ∈ vectors) ∧
      List.Chain' (fun a b => a.predecessor_id = b.own_id) (v :: c) ∧
      v.own_id = x ∧ ((v :: c).getLast (List.cons_ne_nil v c)).predecessor_id = y := by
  induction h using Relation.TransGen.head_induction_on with
  | base hs =>
    obtain ⟨v, hv, hvx, hvy⟩ := hs
    refine ⟨v, [], ?_, List.chain'_singleton _, hvx, hvy⟩
    intro u hu
    simp only [List.mem_singleton] at hu
    rw [hu]
    exact hv
  | ih hs _ ih =>
    obtain ⟨v, hv, hvx, hvy⟩ := hs
    obtain ⟨w, c, hmem, hch, hwx, hlast⟩ := ih
    refine ⟨v, w :: c, ?_, ?_, hvx, ?_⟩
    · intro u hu
      rcases List.mem_cons.1 hu with rfl | hu
      · exact hv
      · exact hmem u hu
    · exact List.chain'_cons.2 ⟨by rw [hvy, hwx], hch⟩
    · rw [List.getLast_cons (List.cons_ne_nil w c)]
      exact hlast

theorem cyclic_iff_step_cycle (vectors : List Vec) :
    Cyclic vectors ↔ ∃ x, Relation.TransGen (Step vectors) x x := by
  constructor
  · rintro ⟨v, c, hmem, hch, hlast⟩
    have := path_of_chain vectors c v hmem hch
    rw [hlast] at this
    exact ⟨v.own_id, this⟩
  · rintro ⟨x, hx⟩
    obtain ⟨v, c, hmem, hch, hvx, hlast⟩ := chain_of_path vectors hx
    exact ⟨v, c, hmem, hch, by rw [hlast, hvx]⟩

/-- A cycle of recorded links is a predecessor cycle among the vectors. -/
theorem cyclic_of_link_cycle {vectors : List Vec}
    (h : ∃ x, Relation.TransGen (Link vectors) x x) : Cyclic vectors := by
  obtain ⟨x, hx⟩ := h
  exact (cyclic_iff_step_cycle vectors).2 ⟨x, Link.path_step hx⟩

/-- Under consistency a predecessor cycle among the vectors is a cycle of
recorded links. -/
theorem link_cycle_of_cyclic {vectors : List Vec} (hc : Consistent vectors)
    (h : Cyclic vectors) : ∃ x, Relation.TransGen (Link vectors) x x := by
  obtain ⟨x, hx⟩ := (cyclic_iff_step_cycle vectors).1 h
  exact ⟨x, Step.path_link hc hx⟩

/-- Vectors whose predecessor IDs rank strictly below their own IDs contain no
predecessor cycle. -/
theorem not_cyclic_of_rank (vectors : List Vec) (rank : Ident → Nat)
    (h : ∀ v ∈ vectors, rank v.predecessor_id < rank v.own_id) : ¬ Cyclic vectors := by
  intro hc
  obtain ⟨x, hx⟩ := (cyclic_iff_step_cycle vectors).1 hc
  have key : ∀ a b, Relation.TransGen (Step vectors) a b → rank b < rank a := by
    intro a b hab
    induction hab with
    | single hs =>
      obtain ⟨v, hv, hva, hvb⟩ := hs
      rw [← hva, ← hvb]
      exact h v hv
    | tail _ hs ih =>
      obtain ⟨v, hv, hva, hvb⟩ := hs
      have := h v hv
      rw [hva, hvb] at this
      omega
  have := key x x hx
  omega

/-- When every ID has an endorsement count, the vectors of consistent sources
contain no predecessor cycle. -/
theorem not_cyclic_of_total {vectors : List Vec} (hc : Consistent vectors)
    (h : ∀ x, ∃ k, Endorse vectors x k) : ¬ Cyclic vectors := by
  intro hcyc
  obtain ⟨x, hx⟩ := link_cycle_of_cyclic hc hcyc
  obtain ⟨k, hk⟩ := h x
  exact hk.acyclic hx

/-! ## The decision of the fast path in terms of endorsement counts -/

theorem split_at_index {α : Type} : ∀ (l : List α) (i : Nat) (b : α), l[i]? = some b →
    ∃ pre suf, l = pre ++ b :: suf ∧ pre.length = i ∧
      ∀ u ∈ pre, ∃ j, j < i ∧ l[j]? = some u := by
  intro l
  induction l with
  | nil =>
    intro i b h
    simp at h
  | cons a l ih =>
    intro i b h
    cases i with
    | zero =>
      simp only [List.getElem?_cons_zero, Option.some.injEq] at h
      subst h
      exact ⟨[], l, rfl, rfl, fun u hu => by simp at hu⟩
    | succ i =>
      rw [List.getElem?_cons_succ] at h
      obtain ⟨pre, suf, hl, hlen, hpre⟩ := ih i b h
      refine ⟨a :: pre, suf, by rw [hl]; rfl, by simp [hlen], ?_⟩
      intro u hu
      rcases List.mem_cons.1 hu with rfl | hu
      · exact ⟨0, by omega, by simp⟩
      · obtain ⟨j, hj, hju⟩ := hpre u hu
        exact ⟨j + 1, by omega, by rw [List.getElem?_cons_succ]; exact hju⟩

theorem predOf_cons_self (v : Vec) (rest : List Vec) :
    predOf (v :: rest) v.own_id = some v.predecessor_id := by
  simp [predOf]

theorem firstSeen_cons_self (v : Vec) (rest : List Vec) (index : Nat) :
    firstSeen (v :: rest) index v.own_id = index := by
  rw [firstSeen, if_pos rfl]

/-- What a completed scan of `quorum_fast` says about endorsement counts: the
first version has its number of holders, so has the second one if there is
one, and every other ID has none. -/
theorem FastInv.endorse {a0 : Vec} {vectors : List Vec} {c : Chains}
    (h : FastInv a0 vectors c) :
    Endorse vectors a0.own_id c.aLength ∧
    Link vectors a0.own_id a0.predecessor_id ∧ holders vectors a0.predecessor_id = 0 ∧
    firstSeen vectors 0 a0.own_id = 0 ∧
    (c.bLength = 0 → ∀ x, x ≠ a0.own_id → holders vectors x = 0) ∧
    (c.bLength ≠ 0 → ∃ b0, c.b = some b0 ∧ b0.own_id ≠ a0.own_id ∧
      Endorse vectors b0.own_id c.bLength ∧
      Link vectors b0.own_id b0.predecessor_id ∧ holders vectors b0.predecessor_id = 0 ∧
      (Consistent vectors → firstSeen vectors 0 b0.own_id = c.bIndex) ∧
      ∀ x, x ≠ a0.own_id → x ≠ b0.own_id → holders vectors x = 0) := by
  obtain ⟨rest, hvec⟩ := List.head?_eq_some_iff.1 h.head
  have hmem0 : a0 ∈ vectors := by rw [hvec]; exact List.mem_cons_self _ _
  have hlinkA : Link vectors a0.own_id a0.predecessor_id := by
    show predOf vectors a0.own_id = some a0.predecessor_id
    rw [hvec]
    exact predOf_cons_self a0 rest
  have hpA : holders vectors a0.predecessor_id = 0 := by
    apply holders_eq_zero.2
    intro v hv hc
    by_cases hva : v.own_id = a0.own_id
    · exact h.noself a0 hmem0 (by rw [← hva, hc])
    · exact (h.unrelated v hv hva).1 hc
  have hA : Endorse vectors a0.own_id c.aLength := by
    have := Endorse.held a0.own_id a0.predecessor_id 0 hlinkA (Endorse.unheld _ hpA)
    rw [Nat.add_zero] at this
    rw [h.aLength]
    exact this
  refine ⟨hA, hlinkA, hpA, ?_, ?_, ?_⟩
  · rw [hvec]
    exact firstSeen_cons_self a0 rest 0
  · intro hb x hx
    apply holders_eq_zero.2
    intro v hv hc
    have hcount : vectors.countP (fun u => decide (u.own_id ≠ a0.own_id)) = 0 := by
      rw [← h.bLength]; exact hb
    have : 0 < vectors.countP (fun u => decide (u.own_id ≠ a0.own_id)) :=
      List.countP_pos_iff.2 ⟨v, hv, by simpa using (by rw [hc]; exact hx)⟩
    omega
  · intro hb
    obtain ⟨b0, hb0, hne, hget, hlow, hall⟩ := h.b_some hb
    have hmemb : b0 ∈ vectors := List.getElem?_mem hget
    obtain ⟨pre, suf, hsplit, hprelen, hpre⟩ := split_at_index vectors c.bIndex b0 hget
    have hpreA : ∀ u ∈ pre, u.own_id = a0.own_id := by
      intro u hu
      obtain ⟨j, hj, hju⟩ := hpre u hu
      exact hlow j u hj hju
    have hpremem : ∀ u ∈ pre, u ∈ vectors := by
      intro u hu
      rw [hsplit]
      exact List.mem_append_left _ hu
    have hpre0 : holders pre b0.own_id = 0 := by
      apply holders_eq_zero.2
      intro u hu hc
      exact hne (by rw [← hc, hpreA u hu])
    have hlinkB : Link vectors b0.own_id b0.predecessor_id := by
      show predOf vectors b0.own_id = some b0.predecessor_id
      rw [hsplit, predOf_append_none _ hpre0]
      exact predOf_cons_self b0 suf
    have hpB : holders vectors b0.predecessor_id = 0 := by
      apply holders_eq_zero.2
      intro v hv hc
      by_cases hva : v.own_id = a0.own_id
      · exact (h.unrelated b0 hmemb hne).2 (by rw [← hva, hc])
      · exact h.noself b0 hmemb (by rw [← hall v hv hva, hc])
    have hholdB : holders vectors b0.own_id = c.bLength := by
      rw [h.bLength]
      unfold holders
      apply List.countP_congr
      intro v hv
      by_cases hva : v.own_id = a0.own_id
      · simp [hva, Ne.symm hne]
      · simp [hva, hall v hv hva, hne]
    have hB : Endorse vectors b0.own_id c.bLength := by
      have := Endorse.held b0.own_id b0.predecessor_id 0 hlinkB (Endorse.unheld _ hpB)
      rw [Nat.add_zero, hholdB] at this
      exact this
    refine ⟨b0, hb0, hne, hB, hlinkB, hpB, ?_, ?_⟩
    · intro hcons
      have hunseen : ¬ Seen pre b0.own_id := by
        rintro ⟨u, hu, hx | hx⟩
        · exact hne (by rw [← hx, hpreA u hu])
        · have hup : u.predecessor_id = a0.predecessor_id :=
            hcons u (hpremem u hu) a0 hmem0 (hpreA u hu)
          exact (h.unrelated b0 hmemb hne).1 (by rw [← hx, hup])
      rw [hsplit, firstSeen_append_unseen _ _ hunseen, firstSeen_cons_self, hprelen]
      omega
    · intro x hxa hxb
      apply holders_eq_zero.2
      intro v hv hc
      by_cases hva : v.own_id = a0.own_id
      · exact hxa (by rw [← hc, hva])
      · exact hxb (by rw [← hc, hall v hv hva])

theorem Winner.count_eq {vectors : List Vec} {M1 M2 : Ident} {m1 m2 : Nat}
    (h1 : Winner vectors M1 m1) (h2 : Winner vectors M2 m2) : m1 = m2 := by
  have a := h1.2.2 M2 m2 h2.1
  have b := h2.2.2 M1 m1 h1.1
  omega

theorem Link.unique_target {vectors : List Vec} {x y z : Ident} (h1 : Link vectors x y)
    (h2 : Link vectors x z) : y = z := by
  unfold Link at h1 h2
  rw [h1] at h2
  exact Option.some.inj h2

/-- The endorsement counts determine the four bytes of the decision. -/
theorem Decision.unique {vectors : List Vec} {q1 q2 : Quorum} (h1 : Decision vectors q1)
    (h2 : Decision vectors q2) : q1 = q2 := by
  obtain ⟨M1, m1, w1, z1, f1⟩ := h1.winner
  obtain ⟨M2, m2, w2, z2, f2⟩ := h2.winner
  have hm : m1 = m2 := w1.count_eq w2
  subst hm
  have key : ∀ (qa qb : Quorum) (Ma Mb : Ident), Winner vectors Ma m1 →
      (qa.forked = 0 → qa.length = m1 ∧ qa.leader = firstSeen vectors 0 Ma ∧
        (∃ y, Link vectors Ma y ∧ Endorse vectors y qa.repair) ∧
        ∀ x, Endorse vectors x m1 → x = Ma) →
      (qb.forked = 1 → qb.leader = 0 ∧ qb.length = 0 ∧ qb.repair = 0 ∧
        ∃ M, M ≠ Mb ∧ Endorse vectors M m1) →
      Winner vectors Mb m1 → qa.forked = 0 → qb.forked = 1 → False := by
    intro qa qb Ma Mb _ za fb wb ha hb
    obtain ⟨-, -, -, huniq⟩ := za ha
    obtain ⟨-, -, -, M, hne, hM⟩ := fb hb
    exact hne ((huniq M hM).trans (huniq Mb wb.1).symm)
  rcases h1.forked with a1 | a1 <;> rcases h2.forked with a2 | a2
  · obtain ⟨l1, d1, ⟨y1, k1, r1⟩, u1⟩ := z1 a1
    obtain ⟨l2, d2, ⟨y2, k2, r2⟩, u2⟩ := z2 a2
    have hM : M2 = M1 := u1 M2 w2.1
    subst hM
    have hy : y1 = y2 := k1.unique_target k2
    subst hy
    have hr := r1.functional r2
    cases q1
    cases q2
    simp only at a1 a2 l1 l2 d1 d2 hr
    simp only [Quorum.mk.injEq]
    exact ⟨by rw [d1, d2], by rw [l1, l2], hr, by rw [a1, a2]⟩
  · exact absurd (key q1 q2 M1 M2 w1 z1 f2 w2 a1 a2) id
  · exact absurd (key q2 q1 M2 M1 w2 z2 f1 w1 a2 a1) id
  · obtain ⟨l1, d1, r1, -⟩ := f1 a1
    obtain ⟨l2, d2, r2, -⟩ := f2 a2
    cases q1
    cases q2
    simp only at a1 a2 l1 l2 d1 d2 r1 r2
    simp only [Quorum.mk.injEq]
    exact ⟨by rw [l1, l2], by rw [d1, d2], by rw [r1, r2], by rw [a1, a2]⟩

/-- The endorsement count of any ID after a completed scan of `quorum_fast`. -/
theorem FastInv.endorse_cases {a0 : Vec} {vectors : List Vec} {c : Chains}
    (h : FastInv a0 vectors c) {x : Ident} {k : Nat} (hx : Endorse vectors x k) :
    (x = a0.own_id ∧ k = c.aLength) ∨
    (c.bLength ≠ 0 ∧ k = c.bLength ∧ ∃ b0, c.b = some b0 ∧ x = b0.own_id) ∨
    (k = 0 ∧ x ≠ a0.own_id) := by
  obtain ⟨hA, -, -, -, hb0, hb1⟩ := h.endorse
  by_cases hxa : x = a0.own_id
  · left
    subst hxa
    exact ⟨rfl, hx.functional hA⟩
  · right
    by_cases hb : c.bLength = 0
    · right
      exact ⟨hx.zero_of_unheld (hb0 hb x hxa), hxa⟩
    · obtain ⟨b0, hcb, -, hB, -, -, -, hother⟩ := hb1 hb
      by_cases hxb : x = b0.own_id
      · left
        subst hxb
        exact ⟨hb, hx.functional hB, b0, hcb, rfl⟩
      · right
        exact ⟨hx.zero_of_unheld (hother x hxa hxb), hxa⟩

/-- After a completed scan of `quorum_fast` every ID has an endorsement
count. -/
theorem FastInv.endorse_total {a0 : Vec} {vectors : List Vec} {c : Chains}
    (h : FastInv a0 vectors c) (x : Ident) : ∃ k, Endorse vectors x k := by
  obtain ⟨hA, -, -, -, hb0, hb1⟩ := h.endorse
  by_cases hx : holders vectors x = 0
  · exact ⟨0, Endorse.unheld x hx⟩
  · by_cases hxa : x = a0.own_id
    · exact ⟨c.aLength, hxa ▸ hA⟩
    · by_cases hb : c.bLength = 0
      · exact absurd (hb0 hb x hxa) hx
      · obtain ⟨b0, -, -, hB, -, -, -, hother⟩ := hb1 hb
        by_cases hxb : x = b0.own_id
        · exact ⟨c.bLength, hxb ▸ hB⟩
        · exact absurd (hother x hxa hxb) hx

/-- The bytes `quorum_fast` decides from a completed scan are the decision of
the endorsement counts, up to the leader byte of the second chain. -/
theorem FastInv.decision {a0 : Vec} {vectors : List Vec} {c : Chains}
    (h : FastInv a0 vectors c) : Decision vectors (c.decision vectors) := by
  obtain ⟨hA, hlinkA, hpA, hfirstA, hb0, hb1⟩ := h.endorse
  have hapos := h.aLength_pos
  refine ⟨h.endorse_total, ?_, ?_⟩
  · unfold Chains.decision
    split_ifs
    · exact Or.inr rfl
    · exact Or.inl rfl
    · exact Or.inl rfl
  · by_cases htie : c.aLength = c.bLength
    · have hd : c.decision vectors = { leader := 0, length := 0, repair := 0, forked := 1 } := by
        unfold Chains.decision
        rw [if_pos htie]
      obtain ⟨b0, -, hne, hB, -, -, -, -⟩ := hb1 (by omega)
      rw [hd]
      refine ⟨a0.own_id, c.aLength, ⟨hA, hapos, ?_⟩, ?_, ?_⟩
      · intro x k hx
        rcases h.endorse_cases hx with ⟨-, hk⟩ | ⟨-, hk, -⟩ | ⟨hk, -⟩ <;> omega
      · intro hf
        have : (1 : Nat) = 0 := hf
        omega
      · intro _
        exact ⟨rfl, rfl, rfl, b0.own_id, hne, htie ▸ hB⟩
    · by_cases hgt : c.aLength > c.bLength
      · have hd : c.decision vectors
            = { leader := 0, length := c.aLength, repair := 0, forked := 0 } := by
          unfold Chains.decision
          rw [if_neg htie, if_pos hgt]
        rw [hd]
        refine ⟨a0.own_id, c.aLength, ⟨hA, hapos, ?_⟩, ?_, ?_⟩
        · intro x k hx
          rcases h.endorse_cases hx with ⟨-, hk⟩ | ⟨-, hk, -⟩ | ⟨hk, -⟩ <;> omega
        · intro _
          refine ⟨rfl, hfirstA.symm, ⟨a0.predecessor_id, hlinkA, Endorse.unheld _ hpA⟩, ?_⟩
          intro x hx
          rcases h.endorse_cases hx with ⟨hxa, -⟩ | ⟨-, hk, -⟩ | ⟨hk, -⟩
          · exact hxa
          · omega
          · omega
        · intro hf
          have : (0 : Nat) = 1 := hf
          omega
      · have hbpos : c.bLength ≠ 0 := by omega
        obtain ⟨b0, hcb, hne, hB, hlinkB, hpB, -, -⟩ := hb1 hbpos
        have hd : c.decision vectors
            = { leader := firstSeen vectors 0 b0.own_id, length := c.bLength, repair := 0,
                forked := 0 } := by
          unfold Chains.decision
          rw [if_neg htie, if_neg hgt, hcb]
        rw [hd]
        refine ⟨b0.own_id, c.bLength, ⟨hB, by omega, ?_⟩, ?_, ?_⟩
        · intro x k hx
          rcases h.endorse_cases hx with ⟨-, hk⟩ | ⟨-, hk, -⟩ | ⟨hk, -⟩ <;> omega
        · intro _
          refine ⟨rfl, rfl, ⟨b0.predecessor_id, hlinkB, Endorse.unheld _ hpB⟩, ?_⟩
          intro x hx
          rcases h.endorse_cases hx with ⟨-, hk⟩ | ⟨-, -, b1, hcb1, hxb⟩ | ⟨hk, -⟩
          · omega
          · rw [hcb] at hcb1
            rw [hxb, ← Option.some.inj hcb1]
          · omega
        · intro hf
          have : (0 : Nat) = 1 := hf
          omega

theorem Scan.chains_delegated (r : Except Stop Outcome) : Scan.chains (Scan.delegated r) = none := by
  cases r <;> rfl

/-- A scan of `quorum_fast` that runs off the end of 1..255 sources leaves the
loop invariant over all of them, and `quorum_fast` then returns 0 with the
bytes of its two counts. -/
theorem quorum_fast_scanned (vectors : List Vec) (nodes : Arena) (quorum : Quorum) (c : Chains)
    (hmin : 1 ≤ vectors.length) (hmax : vectors.length ≤ 255)
    (h : Scan.chains (quorum_fast_loop vectors nodes quorum vectors 0 Chains.init) = some c) :
    (∃ a0, FastInv a0 vectors c) ∧
    quorum_fast vectors nodes quorum = .ok { error := 0, nodes := nodes, quorum := c.bytes } := by
  cases vectors with
  | nil => simp at hmin
  | cons a0 rest =>
    have hinv : FastInv a0 (a0 :: rest) c ∧
        quorum_fast_loop (a0 :: rest) nodes quorum (a0 :: rest) 0 Chains.init
          = .ok (.scanned c) := by
      rw [quorum_fast_loop] at h ⊢
      by_cases hs : a0.own_id = a0.predecessor_id
      · rw [if_pos ((quorum_equal_ne_zero _ _).2 hs)] at h
        exact absurd h (by simp [Scan.chains])
      · rw [if_neg (fun hc => hs ((quorum_equal_ne_zero _ _).1 hc)),
          if_pos (show Chains.init.aLength = 0 from rfl)] at h ⊢
        have hi := quorum_fast_loop_cases (a0 :: rest) nodes quorum a0 rest [a0]
          (Chains.first a0) (FastInv.first a0 hs)
        have e1 : ([a0] : List Vec).length = 0 + 1 := rfl
        have e2 : [a0] ++ rest = a0 :: rest := rfl
        have e3 : ({ Chains.init with a := some a0, aIndex := 0,
                                      aLength := Chains.init.aLength + 1 } : Chains)
            = Chains.first a0 := rfl
        rw [e1, e2] at hi
        rw [e3] at h ⊢
        rcases hi with ⟨he, -⟩ | ⟨he, -⟩ | ⟨c2, he, hinv⟩
        · rw [he] at h
          exact absurd h (by simp [Scan.chains])
        · rw [he, Scan.chains_delegated] at h
          exact absurd h (by simp)
        · rw [he] at h ⊢
          have : c2 = c := by simpa [Scan.chains] using h
          subst this
          exact ⟨hinv, rfl⟩
    refine ⟨⟨a0, hinv.1⟩, ?_⟩
    unfold quorum_fast
    rw [if_neg (by simp [QUORUM_SOURCES_MIN]),
      if_neg (by simp only [QUORUM_SOURCES_MAX]; omega)]
    have e4 : (⟨none, none, 0, 0, 0, 0⟩ : Chains) = Chains.init := rfl
    rw [e4, hinv.2]
    simp only []
    rw [quorum_fast_decide_eq hinv.1 hmax nodes]
    rfl

/-- The bytes of a completed scan against the decision of the endorsement
counts: length, repair and forked agree, a fork has leader 0, and the leader
agrees when sources with equal own IDs have equal predecessor IDs. -/
theorem FastInv.bytes_decision {a0 : Vec} {vectors : List Vec} {c : Chains}
    (h : FastInv a0 vectors c) :
    c.bytes.length = (c.decision vectors).length ∧
    c.bytes.repair = (c.decision vectors).repair ∧
    c.bytes.forked = (c.decision vectors).forked ∧
    (c.bytes.forked = 1 → c.bytes.leader = 0) ∧
    (Consistent vectors → c.bytes = c.decision vectors) := by
  unfold Chains.bytes Chains.decision
  by_cases htie : c.aLength = c.bLength
  · rw [if_pos htie, if_pos htie]
    exact ⟨rfl, rfl, rfl, fun _ => rfl, fun _ => rfl⟩
  · rw [if_neg htie, if_neg htie]
    by_cases hgt : c.aLength > c.bLength
    · rw [if_pos hgt, if_pos hgt]
      exact ⟨rfl, rfl, rfl, fun _ => rfl, fun _ => rfl⟩
    · rw [if_neg hgt, if_neg hgt]
      refine ⟨rfl, rfl, rfl, fun hf => ?_, fun hcons => ?_⟩
      · have : (0 : Nat) = 1 := hf
        omega
      · have hapos := h.aLength_pos
        obtain ⟨b0, hcb, -, -, -, -, hfirst, -⟩ := h.endorse.2.2.2.2.2 (by omega)
        rw [hcb]
        simp only []
        rw [hfirst hcons]

/-- What `quorum_fast` does on 1..255 sources, whichever path decides: it
returns the cyclic-reference error only on a predecessor cycle, and otherwise
0 with bytes that agree with the decision of the endorsement counts in
length, repair and forked, and in leader too when sources with equal own IDs
have equal predecessor IDs. -/
theorem quorum_fast_spec (vectors : List Vec) (nodes : Arena) (quorum : Quorum)
    (hmin : 1 ≤ vectors.length) (hmax : vectors.length ≤ 255) :
    ∃ out, quorum_fast vectors nodes quorum = .ok out ∧
      ((out.error = 1 ∧ Cyclic vectors) ∨
       (out.error = 0 ∧ ∃ q, Decision vectors q ∧ out.quorum.length = q.length ∧
          out.quorum.repair = q.repair ∧ out.quorum.forked = q.forked ∧
          (out.quorum.forked = 1 → out.quorum.leader = 0) ∧
          (Consistent vectors → out.quorum = q))) := by
  cases vectors with
  | nil => simp at hmin
  | cons a0 rest =>
    rcases quorum_fast_cases a0 rest nodes quorum hmax with
      ⟨he, v, hv, hvs⟩ | ⟨he, -⟩ | ⟨c, he, hinv⟩
    · refine ⟨_, he, Or.inl ⟨rfl, ?_⟩⟩
      exact (cyclic_iff_step_cycle _).2
        ⟨v.own_id, Relation.TransGen.single ⟨v, hv, rfl, hvs.symm⟩⟩
    · obtain ⟨out, hout, hcase⟩ := quorum_slow_spec (a0 :: rest) nodes quorum hmin hmax
      refine ⟨out, by rw [he, hout], ?_⟩
      rcases hcase with ⟨herr, hcyc⟩ | ⟨herr, hdec⟩
      · exact Or.inl ⟨herr, cyclic_of_link_cycle hcyc⟩
      · refine Or.inr ⟨herr, out.quorum, hdec, rfl, rfl, rfl, ?_, fun _ => rfl⟩
        intro hf
        obtain ⟨M, m, -, -, hfork⟩ := hdec.winner
        exact (hfork hf).1
    · rw [quorum_fast_decide_eq hinv hmax nodes] at he
      obtain ⟨b1, b2, b3, b4, b5⟩ := hinv.bytes_decision
      exact ⟨_, he, Or.inr ⟨rfl, c.decision (a0 :: rest), hinv.decision, b1, b2, b3, b4, b5⟩⟩

/-! ## Leader, reachability and counting lemmas for the claims -/

theorem firstSeen_lowest_from (M : Ident) : ∀ (l : List Vec) (index : Nat),
    (∀ u ∈ l, u.predecessor_id ≠ M) → (∃ u ∈ l, u.own_id = M) →
    ∃ j, firstSeen l index M = index + j ∧ (∃ v, l[j]? = some v ∧ v.own_id = M) ∧
      ∀ i u, i < j → l[i]? = some u → u.own_id ≠ M := by
  intro l
  induction l with
  | nil =>
    intro index _ h
    obtain ⟨u, hu, -⟩ := h
    simp at hu
  | cons w l ih =>
    intro index hpred hheld
    rw [firstSeen]
    by_cases hw : w.own_id = M
    · rw [if_pos hw]
      refine ⟨0, rfl, ⟨w, by simp, hw⟩, ?_⟩
      intro i u hi
      omega
    · rw [if_neg hw, if_neg (hpred w (List.mem_cons_self _ _))]
      obtain ⟨u, hu, huM⟩ := hheld
      have hul : u ∈ l := by
        rcases List.mem_cons.1 hu with rfl | hu
        · exact absurd huM hw
        · exact hu
      obtain ⟨j, hj, ⟨v, hv, hvM⟩, hlow⟩ := ih (index + 1)
        (fun x hx => hpred x (List.mem_cons_of_mem _ hx)) ⟨u, hul, huM⟩
      refine ⟨j + 1, by omega, ⟨v, by rw [List.getElem?_cons_succ]; exact hv, hvM⟩, ?_⟩
      intro i x hi hx
      cases i with
      | zero =>
        simp only [List.getElem?_cons_zero, Option.some.injEq] at hx
        rw [← hx]
        exact hw
      | succ i =>
        rw [List.getElem?_cons_succ] at hx
        exact hlow i x (by omega) hx

/-- The index stored for a held ID that is nobody's predecessor is the lowest
source index holding it. -/
theorem firstSeen_lowest {vectors : List Vec} {M : Ident}
    (hpred : ∀ u ∈ vectors, u.predecessor_id ≠ M) (hheld : holders vectors M ≠ 0) :
    LowestIndex vectors M (firstSeen vectors 0 M) := by
  obtain ⟨j, hj, hv, hlow⟩ := firstSeen_lowest_from M vectors 0 hpred (holders_ne_zero.1 hheld)
  rw [hj, Nat.zero_add]
  exact ⟨hv, hlow⟩

/-- With consistent sources an ID of greatest endorsement count is nobody's
predecessor. -/
theorem Winner.not_predecessor {vectors : List Vec} {M : Ident} {m : Nat}
    (hc : Consistent vectors) (htotal : ∀ x, ∃ k, Endorse vectors x k)
    (hw : Winner vectors M m) : ∀ u ∈ vectors, u.predecessor_id ≠ M := by
  intro u hu hp
  have hlink : Link vectors u.own_id M := Step.to_link hc ⟨u, hu, rfl, hp⟩
  obtain ⟨k, hk⟩ := htotal u.own_id
  obtain ⟨k2, hk2, -, hlt⟩ := hk.link hlink
  have h1 := hw.1.functional hk2
  have h2 := hw.2.2 _ _ hk
  omega

theorem Winner.held {vectors : List Vec} {M : Ident} {m : Nat} (hw : Winner vectors M m) :
    holders vectors M ≠ 0 := by
  intro hc
  have := hw.1.zero_of_unheld hc
  have := hw.2.1
  omega

/-- With consistent sources, the IDs reachable from an ID with an endorsement
count form a list, and the count is the number of sources holding one of
them. -/
theorem Endorse.reach {vectors : List Vec} (hc : Consistent vectors) {x : Ident} {k : Nat}
    (h : Endorse vectors x k) :
    ∃ l : List Ident, (∀ y, y ∈ l ↔ Relation.ReflTransGen (Step vectors) x y) ∧
      k = vectors.countP (fun u => decide (u.own_id ∈ l)) := by
  induction h with
  | unheld x hx =>
    refine ⟨[x], ?_, ?_⟩
    · intro y
      constructor
      · intro hy
        simp only [List.mem_singleton] at hy
        rw [hy]
      · intro hy
        rcases Relation.ReflTransGen.cases_head hy with rfl | ⟨z, ⟨v, hv, hvx, -⟩, -⟩
        · simp
        · exact absurd hvx (holders_eq_zero.1 hx v hv)
    · have := countP_mem_cons vectors x [] (List.not_mem_nil x)
      rw [this, hx]
      simp
  | held x y k hy hk ih =>
    obtain ⟨l, hl, hcount⟩ := ih
    have hxl : x ∉ l := by
      intro hx
      have hpath : Relation.TransGen (Step vectors) x x :=
        Relation.TransGen.head' (Link.step hy) ((hl x).1 hx)
      exact (Endorse.held x y k hy hk).acyclic (Step.path_link hc hpath)
    refine ⟨x :: l, ?_, ?_⟩
    · intro z
      constructor
      · intro hz
        rcases List.mem_cons.1 hz with rfl | hz
        · exact Relation.ReflTransGen.refl
        · exact Relation.ReflTransGen.head (Link.step hy) ((hl z).1 hz)
      · intro hz
        rcases Relation.ReflTransGen.cases_head hz with rfl | ⟨w, hs, hrest⟩
        · exact List.mem_cons_self _ _
        · have hw : y = w := (Step.to_link hc hs).unique_target hy |>.symm
          subst hw
          exact List.mem_cons_of_mem _ ((hl z).2 hrest)
    · rw [countP_mem_cons vectors x l hxl, hcount]

theorem countP_split (vectors : List Vec) (l : List Ident) (M : Ident) (hM : M ∈ l) :
    vectors.countP (fun u => decide (u.own_id ∈ l))
      = holders vectors M
        + vectors.countP (fun u => decide (u.own_id ∈ l ∧ u.own_id ≠ M)) := by
  unfold holders
  induction vectors with
  | nil => rfl
  | cons v vs ih =>
    simp only [List.countP_cons, ih]
    by_cases h1 : v.own_id = M
    · simp [h1, hM]
      omega
    · by_cases h2 : v.own_id ∈ l
      · simp [h1, h2]
        omega
      · simp [h1, h2]

/-! ## The endorsement count as a function -/

theorem Chain.eval_fuel {vectors : List Vec} {x : Ident} {l : List Ident}
    (h : Chain vectors x l) : ∀ fuel, l.length < fuel →
      Endorse vectors x (endorsement vectors fuel x) := by
  induction h with
  | stop x hx =>
    intro fuel hfuel
    obtain ⟨f, rfl⟩ : ∃ f, fuel = f + 1 := ⟨fuel - 1, by simp at hfuel; omega⟩
    rw [endorsement, predOf_eq_none.2 hx]
    exact Endorse.unheld x hx
  | next x y l hy _ ih =>
    intro fuel hfuel
    simp only [List.length_cons] at hfuel
    obtain ⟨f, rfl⟩ : ∃ f, fuel = f + 1 := ⟨fuel - 1, by omega⟩
    rw [endorsement, hy]
    exact Endorse.held x y _ hy (ih f (by omega))

theorem Chain.length_le {vectors : List Vec} {x : Ident} {l : List Ident}
    (h : Chain vectors x l) :
    l.length ≤ vectors.countP (fun v => decide (v.own_id ∈ l)) := by
  induction h with
  | stop x hx => simp
  | next x y l hy hl ih =>
    have hx : x ∉ l := (List.nodup_cons.1 (Chain.next x y l hy hl).nodup).1
    rw [countP_mem_cons vectors x l hx]
    have := predOf_some_holders hy
    simp only [List.length_cons]
    omega

/-- An endorsement count is the value the function computes with at least as
much fuel as there are sources. -/
theorem Endorse.eval {vectors : List Vec} {x : Ident} {k : Nat} (h : Endorse vectors x k) :
    endorsement vectors (vectors.length + 1) x = k := by
  obtain ⟨l, hl, -⟩ := h.chain
  have hlen := hl.length_le
  have hle : vectors.countP (fun v => decide (v.own_id ∈ l)) ≤ vectors.length :=
    List.countP_le_length _
  exact (hl.eval_fuel (vectors.length + 1) (by omega)).functional h

/-! ## Claims about the decision -/

theorem outcome_of_code {r : Except Stop Outcome} {e : Int} (h : Outcome.code r = some e) :
    ∃ out, r = .ok out ∧ out.error = e := by
  cases r with
  | error s => simp [Outcome.code] at h
  | ok out => exact ⟨out, rfl, by simpa [Outcome.code] using h⟩

theorem bytes_of_ok {r : Except Stop Outcome} {out : Outcome} {q : Quorum} (hr : r = .ok out)
    (h : Outcome.bytes r = some q) : out.quorum = q := by
  subst hr
  simpa [Outcome.bytes] using h

/-- What a return of 0 by `quorum_fast` on 1..255 sources says about the bytes
written. -/
theorem quorum_fast_returns_zero {vectors : List Vec} {nodes : Arena} {quorum q : Quorum}
    (hmin : 1 ≤ vectors.length) (hmax : vectors.length ≤ 255)
    (hcode : Outcome.code (quorum_fast vectors nodes quorum) = some 0)
    (hbytes : Outcome.bytes (quorum_fast vectors nodes quorum) = some q) :
    ∃ q2, Decision vectors q2 ∧ q.length = q2.length ∧ q.repair = q2.repair ∧
      q.forked = q2.forked ∧ (q.forked = 1 → q.leader = 0) ∧ (Consistent vectors → q = q2) := by
  obtain ⟨out, hout, hcase⟩ := quorum_fast_spec vectors nodes quorum hmin hmax
  have hq := bytes_of_ok hout hbytes
  rw [hout] at hcode
  have herr : out.error = 0 := by simpa [Outcome.code] using hcode
  rcases hcase with ⟨h1, -⟩ | ⟨-, q2, hdec, h⟩
  · rw [herr] at h1
    exact absurd h1 (by decide)
  · rw [hq] at h
    exact ⟨q2, hdec, h⟩

/-- C5. On 1..255 sources on which `quorum_fast` returns 0, by itself or
through `quorum_slow`, a forked byte of 1 comes with leader, length and repair
bytes of 0. -/
theorem quorum_fast_forked_zeroes (vectors : List Vec) (nodes : Arena) (quorum q : Quorum)
    (hmin : 1 ≤ vectors.length) (hmax : vectors.length ≤ 255)
    (hcode : Outcome.code (quorum_fast vectors nodes quorum) = some 0)
    (hbytes : Outcome.bytes (quorum_fast vectors nodes quorum) = some q)
    (hforked : q.forked = 1) :
    q.leader = 0 ∧ q.length = 0 ∧ q.repair = 0 := by
  obtain ⟨q2, hdec, hl, hr, hf, hlead, -⟩ := quorum_fast_returns_zero hmin hmax hcode hbytes
  obtain ⟨M, m, -, -, hfork⟩ := hdec.winner
  obtain ⟨-, z1, z2, -⟩ := hfork (by rw [← hf]; exact hforked)
  exact ⟨hlead hforked, by rw [hl, z1], by rw [hr, z2]⟩

theorem quorum_fast_forked_zeroes_witness :
    Outcome.code (quorum_fast sampleTie sampleArena sampleQuorum) = some 0 ∧
    Outcome.bytes (quorum_fast sampleTie sampleArena sampleQuorum) = some ⟨0, 0, 0, 1⟩ ∧
    (⟨0, 0, 0, 1⟩ : Quorum).leader = 0 ∧ (⟨0, 0, 0, 1⟩ : Quorum).length = 0 ∧
      (⟨0, 0, 0, 1⟩ : Quorum).repair = 0 :=
  ⟨by decide, by decide,
    quorum_fast_forked_zeroes sampleTie sampleArena sampleQuorum ⟨0, 0, 0, 1⟩
      (by decide) (by decide) (by decide) (by decide) rfl⟩

/-- C3. On 1..255 sources in which equal own IDs have equal predecessor IDs,
when `quorum_fast` returns 0 with forked 0, the leader byte is the index of a
source; length is the number of sources whose own ID is that source's own ID
or reachable from it along predecessor links (the list `l` holds exactly the
reachable IDs), and repair is the number of those sources whose own ID is not
the leader's, that is length minus the number of holders of the leader's
version. The absence of a predecessor cycle, which the claim assumes, follows
from the return of 0. -/
theorem quorum_fast_length_repair (vectors : List Vec) (nodes : Arena) (quorum q : Quorum)
    (hmin : 1 ≤ vectors.length) (hmax : vectors.length ≤ 255)
    (hcons : Consistent vectors)
    (hcode : Outcome.code (quorum_fast vectors nodes quorum) = some 0)
    (hbytes : Outcome.bytes (quorum_fast vectors nodes quorum) = some q)
    (hforked : q.forked = 0) :
    ∃ (v : Vec) (l : List Ident), vectors[q.leader]? = some v ∧
      (∀ y, y ∈ l ↔ Relation.ReflTransGen (Step vectors) v.own_id y) ∧
      q.length = vectors.countP (fun u => decide (u.own_id ∈ l)) ∧
      q.repair = vectors.countP (fun u => decide (u.own_id ∈ l ∧ u.own_id ≠ v.own_id)) ∧
      q.repair = q.length - holders vectors v.own_id := by
  obtain ⟨q2, hdec, -, -, -, -, heq⟩ := quorum_fast_returns_zero hmin hmax hcode hbytes
  rw [← heq hcons] at hdec
  obtain ⟨M, m, hw, hzero, -⟩ := hdec.winner
  obtain ⟨hlen, hlead, ⟨y, hlink, hy⟩, -⟩ := hzero hforked
  have hlow := firstSeen_lowest (hw.not_predecessor hcons hdec.total) hw.held
  rw [← hlead] at hlow
  obtain ⟨⟨v, hv, hvM⟩, -⟩ := hlow
  obtain ⟨l, hl, hcount⟩ := hw.1.reach hcons
  obtain ⟨k2, hk2, hsum, -⟩ := hw.1.link hlink
  have hrep : q.repair = k2 := hy.functional hk2
  have hMl : M ∈ l := (hl M).2 Relation.ReflTransGen.refl
  have hsplit := countP_split vectors l M hMl
  subst hvM
  refine ⟨v, l, hv, hl, by rw [hlen, hcount], ?_, ?_⟩
  · omega
  · omega

theorem quorum_fast_length_repair_witness :
    Consistent sampleChain ∧
    Outcome.code (quorum_fast sampleChain sampleArena sampleQuorum) = some 0 ∧
    Outcome.bytes (quorum_fast sampleChain sampleArena sampleQuorum) = some ⟨2, 3, 2, 0⟩ ∧
    ∃ (v : Vec) (l : List Ident), sampleChain[(⟨2, 3, 2, 0⟩ : Quorum).leader]? = some v ∧
      (∀ y, y ∈ l ↔ Relation.ReflTransGen (Step sampleChain) v.own_id y) ∧
      (⟨2, 3, 2, 0⟩ : Quorum).length
        = sampleChain.countP (fun u => decide (u.own_id ∈ l)) ∧
      (⟨2, 3, 2, 0⟩ : Quorum).repair
        = sampleChain.countP (fun u => decide (u.own_id ∈ l ∧ u.own_id ≠ v.own_id)) ∧
      (⟨2, 3, 2, 0⟩ : Quorum).repair
        = (⟨2, 3, 2, 0⟩ : Quorum).length - holders sampleChain v.own_id :=
  ⟨by unfold Consistent; decide, by decide, by decide,
    quorum_fast_length_repair sampleChain sampleArena sampleQuorum ⟨2, 3, 2, 0⟩
      (by decide) (by decide) (by unfold Consistent; decide) (by decide) (by decide) rfl⟩

theorem Maximal.endorse_winner {vectors : List Vec} {x M : Ident} {m : Nat}
    (hx : Maximal vectors x) (hw : Winner vectors M m) : Endorse vectors x m := by
  obtain ⟨k, hk, hmax⟩ := hx
  have a := hmax M m hw.1
  have b := hw.2.2 x k hk
  have : k = m := by omega
  rw [← this]
  exact hk

/-- C4. With `E` the endorsement count (`Endorse vectors x k` reads
`E(x) = k`), on 1..255 sources without a predecessor cycle `quorum_fast`
returns 0, whether it decides itself or hands over to `quorum_slow`, and the
forked byte it writes is 1 exactly when two distinct IDs attain the maximum of
`E`. Consistency of the sources, which the claim assumes to speak of the
predecessor of an ID, is not needed: `E` follows the predecessor of the
lowest-indexed holder. -/
theorem quorum_fast_forked_iff (vectors : List Vec) (nodes : Arena) (quorum : Quorum)
    (hmin : 1 ≤ vectors.length) (hmax : vectors.length ≤ 255)
    (hacyclic : ¬ Cyclic vectors) :
    Outcome.code (quorum_fast vectors nodes quorum) = some 0 ∧
    ∃ q, Outcome.bytes (quorum_fast vectors nodes quorum) = some q ∧
      (q.forked = 1 ↔ ∃ x y, x ≠ y ∧ Maximal vectors x ∧ Maximal vectors y) := by
  obtain ⟨out, hout, hcase⟩ := quorum_fast_spec vectors nodes quorum hmin hmax
  rcases hcase with ⟨-, hcyc⟩ | ⟨herr, q2, hdec, -, -, hf, -, -⟩
  · exact absurd hcyc hacyclic
  · rw [hout]
    refine ⟨by simp [Outcome.code, herr], out.quorum, rfl, ?_⟩
    obtain ⟨M, m, hw, hzero, hfork⟩ := hdec.winner
    rw [hf]
    constructor
    · intro h1
      obtain ⟨-, -, -, M2, hne, hM2⟩ := hfork h1
      exact ⟨M2, M, hne, ⟨m, hM2, hw.2.2⟩, ⟨m, hw.1, hw.2.2⟩⟩
    · rintro ⟨x, y, hne, hx, hy⟩
      rcases hdec.forked with h0 | h1
      · obtain ⟨-, -, -, huniq⟩ := hzero h0
        have hxM := huniq x (hx.endorse_winner hw)
        have hyM := huniq y (hy.endorse_winner hw)
        exact absurd (hxM.trans hyM.symm) hne
      · exact h1

theorem quorum_fast_forked_iff_witness :
    ¬ Cyclic sampleTie ∧
    Outcome.code (quorum_fast sampleTie sampleArena sampleQuorum) = some 0 ∧
    ∃ q, Outcome.bytes (quorum_fast sampleTie sampleArena sampleQuorum) = some q ∧
      (q.forked = 1 ↔ ∃ x y, x ≠ y ∧ Maximal sampleTie x ∧ Maximal sampleTie y) :=
  ⟨not_cyclic_of_rank sampleTie (fun x => x.b0) (by decide),
    quorum_fast_forked_iff sampleTie sampleArena sampleQuorum (by decide) (by decide)
      (not_cyclic_of_rank sampleTie (fun x => x.b0) (by decide))⟩

/-- C6. On 1..255 sources in which equal own IDs have equal predecessor IDs,
when `quorum_fast` returns 0 with forked 0, the source at index leader holds
the one ID that attains the maximum endorsement count, that count is the
length written, and leader is the lowest source index holding that ID. The
absence of a predecessor cycle, which the claim assumes, follows from the
return of 0. -/
theorem quorum_fast_leader_unique_maximum (vectors : List Vec) (nodes : Arena)
    (quorum q : Quorum) (hmin : 1 ≤ vectors.length) (hmax : vectors.length ≤ 255)
    (hcons : Consistent vectors)
    (hcode : Outcome.code (quorum_fast vectors nodes quorum) = some 0)
    (hbytes : Outcome.bytes (quorum_fast vectors nodes quorum) = some q)
    (hforked : q.forked = 0) :
    ∃ v, vectors[q.leader]? = some v ∧ Endorse vectors v.own_id q.length ∧
      (∀ z k, Endorse vectors z k → k ≤ q.length) ∧
      (∀ x, Maximal vectors x → x = v.own_id) ∧
      LowestIndex vectors v.own_id q.leader := by
  obtain ⟨q2, hdec, -, -, -, -, heq⟩ := quorum_fast_returns_zero hmin hmax hcode hbytes
  rw [← heq hcons] at hdec
  obtain ⟨M, m, hw, hzero, -⟩ := hdec.winner
  obtain ⟨hlen, hlead, -, huniq⟩ := hzero hforked
  have hlow := firstSeen_lowest (hw.not_predecessor hcons hdec.total) hw.held
  rw [← hlead] at hlow
  obtain ⟨v, hv, hvM⟩ := hlow.1
  subst hvM
  rw [hlen]
  exact ⟨v, hv, hw.1, hw.2.2, fun x hx => huniq x (hx.endorse_winner hw), hlow⟩

theorem quorum_fast_leader_unique_maximum_witness :
    Consistent sampleChain ∧
    Outcome.code (quorum_fast sampleChain sampleArena sampleQuorum) = some 0 ∧
    Outcome.bytes (quorum_fast sampleChain sampleArena sampleQuorum) = some ⟨2, 3, 2, 0⟩ ∧
    ∃ v, sampleChain[(⟨2, 3, 2, 0⟩ : Quorum).leader]? = some v ∧
      Endorse sampleChain v.own_id (⟨2, 3, 2, 0⟩ : Quorum).length ∧
      (∀ z k, Endorse sampleChain z k → k ≤ (⟨2, 3, 2, 0⟩ : Quorum).length) ∧
      (∀ x, Maximal sampleChain x → x = v.own_id) ∧
      LowestIndex sampleChain v.own_id (⟨2, 3, 2, 0⟩ : Quorum).leader :=
  ⟨by unfold Consistent; decide, by decide, by decide,
    quorum_fast_leader_unique_maximum sampleChain sampleArena sampleQuorum ⟨2, 3, 2, 0⟩
      (by decide) (by decide) (by unfold Consistent; decide) (by decide) (by decide) rfl⟩

/-! ## Claims about the cyclic-reference error -/

/-- C7, as stated, fails: in `AA|00`, `BB|AA`, `AA|AA` the third vector has
its own ID as predecessor, yet `quorum_fast` returns 0 with a decision. The
scan hands over to `quorum_slow` at the second vector, and the table keeps for
`AA` the predecessor of its first holder. -/
theorem quorum_fast_self_reference_missed :
    (∃ v ∈ sampleSelfLate, v.own_id = v.predecessor_id) ∧
    Outcome.code (quorum_fast sampleSelfLate sampleArena sampleQuorum) = some 0 ∧
    Outcome.bytes (quorum_fast sampleSelfLate sampleArena sampleQuorum)
      = some ⟨1, 3, 2, 0⟩ := by
  refine ⟨by decide, by decide, by decide⟩

/-- The recorded predecessor of the own ID of a self-referencing vector is
that ID itself when every source before it with the same own ID has the same
predecessor ID. -/
theorem self_link (pre suf : List Vec) (v : Vec) (hv : v.own_id = v.predecessor_id)
    (hpre : ∀ u ∈ pre, u.own_id = v.own_id → u.predecessor_id = v.predecessor_id) :
    Link (pre ++ v :: suf) v.own_id v.own_id := by
  show predOf (pre ++ v :: suf) v.own_id = some v.own_id
  by_cases h0 : holders pre v.own_id = 0
  · rw [predOf_append_none _ h0, predOf_cons_self, ← hv]
  · cases hp : predOf pre v.own_id with
    | none => exact absurd (predOf_eq_none.1 hp) h0
    | some y =>
      obtain ⟨u, hu, hux, huy⟩ := predOf_some_mem hp
      rw [predOf_append_some _ hp, ← huy, hpre u hu hux, ← hv]

/-- C7, amended. On 1..255 sources `pre ++ v :: suf` in which the vector `v`
has its own ID as predecessor ID and every source before it with the same own
ID has the same predecessor ID (as is the case whenever sources with equal own
IDs have equal predecessor IDs), `quorum_fast` returns the cyclic-reference
error (1), wherever `v` sits and whether or not the scan had handed over to
`quorum_slow` before reaching it. -/
theorem quorum_fast_self_reference (pre suf : List Vec) (v : Vec) (nodes : Arena)
    (quorum : Quorum) (hmin : 1 ≤ (pre ++ v :: suf).length)
    (hmax : (pre ++ v :: suf).length ≤ 255)
    (hself : v.own_id = v.predecessor_id)
    (hpre : ∀ u ∈ pre, u.own_id = v.own_id → u.predecessor_id = v.predecessor_id) :
    Outcome.code (quorum_fast (pre ++ v :: suf) nodes quorum) = some 1 := by
  obtain ⟨out, hout, hcase⟩ := quorum_fast_spec (pre ++ v :: suf) nodes quorum hmin hmax
  rw [hout]
  rcases hcase with ⟨herr, -⟩ | ⟨-, q2, hdec, -⟩
  · simp [Outcome.code, herr]
  · obtain ⟨k, hk⟩ := hdec.total v.own_id
    exact absurd (Relation.TransGen.single (self_link pre suf v hself hpre)) hk.acyclic

theorem quorum_fast_self_reference_witness :
    sampleSelf = [⟨Ident.fill 0xAA, Ident.fill 0⟩, ⟨Ident.fill 0xBB, Ident.fill 0xAA⟩]
      ++ ⟨Ident.fill 0xCC, Ident.fill 0xCC⟩ :: [] ∧
    Outcome.code (quorum_fast
      ([⟨Ident.fill 0xAA, Ident.fill 0⟩, ⟨Ident.fill 0xBB, Ident.fill 0xAA⟩]
        ++ ⟨Ident.fill 0xCC, Ident.fill 0xCC⟩ :: []) sampleArena sampleQuorum) = some 1 :=
  ⟨rfl,
    quorum_fast_self_reference
      [⟨Ident.fill 0xAA, Ident.fill 0⟩, ⟨Ident.fill 0xBB, Ident.fill 0xAA⟩] []
      ⟨Ident.fill 0xCC, Ident.fill 0xCC⟩ sampleArena sampleQuorum
      (by decide) (by decide) rfl (by decide)⟩

theorem sampleCycle_cyclic : Cyclic sampleCycle :=
  ⟨⟨Ident.fill 0xAA, Ident.fill 0xBB⟩,
    [⟨Ident.fill 0xBB, Ident.fill 0xCC⟩, ⟨Ident.fill 0xCC, Ident.fill 0xAA⟩],
    by decide,
    List.chain'_cons.2 ⟨rfl, List.chain'_cons.2 ⟨rfl, List.chain'_singleton _⟩⟩,
    rfl⟩

/-- C8. On 1..255 sources in which equal own IDs have equal predecessor IDs
and whose vectors contain a predecessor cycle, `quorum_fast` returns the
cyclic-reference error (1) and no decision. -/
theorem quorum_fast_cycle_error (vectors : List Vec) (nodes : Arena) (quorum : Quorum)
    (hmin : 1 ≤ vectors.length) (hmax : vectors.length ≤ 255)
    (hcons : Consistent vectors) (hcyc : Cyclic vectors) :
    Outcome.code (quorum_fast vectors nodes quorum) = some 1 := by
  obtain ⟨out, hout, hcase⟩ := quorum_fast_spec vectors nodes quorum hmin hmax
  rw [hout]
  rcases hcase with ⟨herr, -⟩ | ⟨-, q2, hdec, -⟩
  · simp [Outcome.code, herr]
  · exact absurd hcyc (not_cyclic_of_total hcons hdec.total)

theorem quorum_fast_cycle_error_witness :
    Consistent sampleCycle ∧ Cyclic sampleCycle ∧
    Outcome.code (quorum_fast sampleCycle sampleArena sampleQuorum) = some 1 :=
  ⟨by unfold Consistent; decide, sampleCycle_cyclic,
    quorum_fast_cycle_error sampleCycle sampleArena sampleQuorum (by decide) (by decide)
      (by unfold Consistent; decide) sampleCycle_cyclic⟩

/-! ## Claims about the two paths and the bounds -/

/-- C9, as stated, fails: on `AA|00`, `AA|BB`, `BB|00`, `BB|00`, `BB|00` the
scan of `quorum_fast` runs to the end and decides leader 2, while `quorum_slow`
on the same vectors writes leader 0. The second vector makes `quorum_nodes`
reserve the node of `BB` as a predecessor, with index 0, before source 2
presents `BB` as its own ID, and the index is not stored again. -/
theorem quorum_fast_slow_leader_differs :
    Scan.chains (quorum_fast_loop sampleSplit sampleArena sampleQuorum sampleSplit 0
      Chains.init) = some ⟨some ⟨Ident.fill 0xAA, Ident.fill 0⟩,
        some ⟨Ident.fill 0xBB, Ident.fill 0⟩, 0, 2, 2, 3⟩ ∧
    Outcome.bytes (quorum_fast sampleSplit sampleArena sampleQuorum) = some ⟨2, 3, 0, 0⟩ ∧
    Outcome.code (quorum_slow sampleSplit sampleArena sampleQuorum) = some 0 ∧
    Outcome.bytes (quorum_slow sampleSplit sampleArena sampleQuorum) = some ⟨0, 3, 0, 0⟩ := by
  refine ⟨by decide, by decide, by decide, by decide⟩

/-- C9, amended. On 1..255 sources on which the scan of `quorum_fast` runs to
the end, so that it decides by itself, `quorum_fast` returns 0 and
`quorum_slow` on the same vectors (whatever the arena and the quorum bytes it
starts from) returns 0 with the same length, repair and forked bytes; the
leader byte, and so all four bytes, are the same as well when sources with
equal own IDs have equal predecessor IDs. -/
theorem quorum_fast_slow_agree (vectors : List Vec) (nodes nodes2 : Arena)
    (quorum quorum2 : Quorum) (c : Chains)
    (hmin : 1 ≤ vectors.length) (hmax : vectors.length ≤ 255)
    (hscan : Scan.chains (quorum_fast_loop vectors nodes quorum vectors 0 Chains.init)
      = some c) :
    ∃ qf qs, Outcome.code (quorum_fast vectors nodes quorum) = some 0 ∧
      Outcome.bytes (quorum_fast vectors nodes quorum) = some qf ∧
      Outcome.code (quorum_slow vectors nodes2 quorum2) = some 0 ∧
      Outcome.bytes (quorum_slow vectors nodes2 quorum2) = some qs ∧
      qs.length = qf.length ∧ qs.repair = qf.repair ∧ qs.forked = qf.forked ∧
      (Consistent vectors → qs = qf) := by
  obtain ⟨⟨a0, hinv⟩, hfast⟩ := quorum_fast_scanned vectors nodes quorum c hmin hmax hscan
  obtain ⟨out, hslow, hcase⟩ := quorum_slow_spec vectors nodes2 quorum2 hmin hmax
  obtain ⟨b1, b2, b3, -, b5⟩ := hinv.bytes_decision
  rcases hcase with ⟨-, x, hx⟩ | ⟨herr, hdec⟩
  · obtain ⟨k, hk⟩ := hinv.endorse_total x
    exact absurd hx hk.acyclic
  · have hsame : out.quorum = c.decision vectors := hdec.unique hinv.decision
    rw [hfast, hslow]
    refine ⟨c.bytes, out.quorum, rfl, rfl, by simp [Outcome.code, herr], rfl, ?_, ?_, ?_, ?_⟩
    · rw [hsame, b1]
    · rw [hsame, b2]
    · rw [hsame, b3]
    · intro hcons
      rw [hsame, b5 hcons]

theorem quorum_fast_slow_agree_witness :
    Scan.chains (quorum_fast_loop sampleMajority sampleArena sampleQuorum sampleMajority 0
      Chains.init) = some ⟨some ⟨Ident.fill 0xAA, Ident.fill 0⟩,
        some ⟨Ident.fill 0xBB, Ident.fill 0⟩, 0, 1, 1, 2⟩ ∧
    ∃ qf qs, Outcome.code (quorum_fast sampleMajority sampleArena sampleQuorum) = some 0 ∧
      Outcome.bytes (quorum_fast sampleMajority sampleArena sampleQuorum) = some qf ∧
      Outcome.code (quorum_slow sampleMajority sampleArena sampleQuorum) = some 0 ∧
      Outcome.bytes (quorum_slow sampleMajority sampleArena sampleQuorum) = some qs ∧
      qs.length = qf.length ∧ qs.repair = qf.repair ∧ qs.forked = qf.forked ∧
      (Consistent sampleMajority → qs = qf) :=
  ⟨by decide,
    quorum_fast_slow_agree sampleMajority sampleArena sampleArena sampleQuorum sampleQuorum
      ⟨some ⟨Ident.fill 0xAA, Ident.fill 0⟩, some ⟨Ident.fill 0xBB, Ident.fill 0⟩, 0, 1, 1, 2⟩
      (by decide) (by decide) (by decide)⟩

/-- C10, as stated, fails: on the two sources `AA|00`, `BB|AA`, which contain
no predecessor cycle, `quorum_fast` writes length 2 and repair 1, and
`2 + 1 > 2`. -/
theorem quorum_fast_length_plus_repair_exceeds :
    ¬ Cyclic samplePair ∧
    Outcome.code (quorum_fast samplePair sampleArena sampleQuorum) = some 0 ∧
    Outcome.bytes (quorum_fast samplePair sampleArena sampleQuorum) = some ⟨1, 2, 1, 0⟩ ∧
    ¬ ((⟨1, 2, 1, 0⟩ : Quorum).length + (⟨1, 2, 1, 0⟩ : Quorum).repair
        ≤ samplePair.length) := by
  refine ⟨not_cyclic_of_rank samplePair (fun x => x.b0) (by decide), by decide, by decide,
    by decide⟩

/-- C10, amended. On 1..255 sources without a predecessor cycle `quorum_fast`
returns 0 and the decision it writes has length at most the number of sources
and repair at most length: the sources counted in repair are counted in
length as well. -/
theorem quorum_fast_length_repair_bounds (vectors : List Vec) (nodes : Arena)
    (quorum : Quorum) (hmin : 1 ≤ vectors.length) (hmax : vectors.length ≤ 255)
    (hacyclic : ¬ Cyclic vectors) :
    Outcome.code (quorum_fast vectors nodes quorum) = some 0 ∧
    ∃ q, Outcome.bytes (quorum_fast vectors nodes quorum) = some q ∧
      q.length ≤ vectors.length ∧ q.repair ≤ q.length := by
  obtain ⟨out, hout, hcase⟩ := quorum_fast_spec vectors nodes quorum hmin hmax
  rcases hcase with ⟨-, hcyc⟩ | ⟨herr, q2, hdec, hl, hr, hf, -, -⟩
  · exact absurd hcyc hacyclic
  · rw [hout]
    refine ⟨by simp [Outcome.code, herr], out.quorum, rfl, ?_⟩
    obtain ⟨M, m, hw, hzero, hfork⟩ := hdec.winner
    rw [hl, hr]
    rcases hdec.forked with h0 | h1
    · obtain ⟨hlen, -, ⟨y, hlink, hy⟩, -⟩ := hzero h0
      obtain ⟨k2, hk2, hsum, -⟩ := hw.1.link hlink
      have hrep := hy.functional hk2
      have hle := hw.1.le
      omega
    · obtain ⟨-, z1, z2, -⟩ := hfork h1
      omega

theorem quorum_fast_length_repair_bounds_witness :
    ¬ Cyclic samplePair ∧
    Outcome.code (quorum_fast samplePair sampleArena sampleQuorum) = some 0 ∧
    ∃ q, Outcome.bytes (quorum_fast samplePair sampleArena sampleQuorum) = some q ∧
      q.length ≤ samplePair.length ∧ q.repair ≤ q.length :=
  ⟨not_cyclic_of_rank samplePair (fun x => x.b0) (by decide),
    quorum_fast_length_repair_bounds samplePair sampleArena sampleQuorum (by decide)
      (by decide) (not_cyclic_of_rank samplePair (fun x => x.b0) (by decide))⟩

/-! ## Claim about `quorum_equal` -/

theorem Ident.eq_of_bytes {a b : Ident} (h : ∀ i, i < 16 → a.byte i = b.byte i) : a = b := by
  cases a
  cases b
  simp only [Ident.mk.injEq]
  exact ⟨h 0 (by omega), h 1 (by omega), h 2 (by omega), h 3 (by omega), h 4 (by omega),
    h 5 (by omega), h 6 (by omega), h 7 (by omega), h 8 (by omega), h 9 (by omega),
    h 10 (by omega), h 11 (by omega), h 12 (by omega), h 13 (by omega), h 14 (by omega),
    h 15 (by omega)⟩

theorem Ident.byte_store (a : Ident) (i : Nat) (value : Nat) (hi : i < 16) :
    (a.store i value).byte i = value := by
  interval_cases i <;> rfl

theorem quorum_equal_eq_ite (a b : Ident) : quorum_equal a b = if a = b then 1 else 0 := by
  by_cases h : a = b
  · rw [if_pos h]
    exact (quorum_equal_eq_one a b).2 h
  · rw [if_neg h]
    by_contra hc
    exact h ((quorum_equal_ne_zero a b).1 hc)

/-- C19. `quorum_equal(a, b)` returns 1 if the sixteen bytes of `a` and `b` are
pairwise equal and 0 otherwise; in particular, after a store of another value
to any one byte position 0..15 of either argument of an equal pair it
returns 0. -/
theorem quorum_equal_bytes (a b : Ident) :
    ((∀ i, i < 16 → a.byte i = b.byte i) → quorum_equal a b = 1) ∧
    ((¬ ∀ i, i < 16 → a.byte i = b.byte i) → quorum_equal a b = 0) ∧
    ∀ i, i < 16 → ∀ value, value ≠ a.byte i →
      quorum_equal (a.store i value) a = 0 ∧ quorum_equal a (a.store i value) = 0 := by
  refine ⟨?_, ?_, ?_⟩
  · intro h
    exact (quorum_equal_eq_one a b).2 (Ident.eq_of_bytes h)
  · intro h
    have hne : a ≠ b := by
      intro hc
      exact h (fun i _ => by rw [hc])
    rw [quorum_equal_eq_ite, if_neg hne]
  · intro i hi value hvalue
    have hne : a.store i value ≠ a := by
      intro hc
      have := Ident.byte_store a i value hi
      rw [hc] at this
      exact hvalue this.symm
    rw [quorum_equal_eq_ite, quorum_equal_eq_ite, if_neg hne, if_neg (Ne.symm hne)]
    exact ⟨rfl, rfl⟩

theorem quorum_equal_bytes_witness :
    quorum_equal (Ident.fill 7) (Ident.fill 7) = 1 ∧
    quorum_equal ((Ident.fill 7).store 3 8) (Ident.fill 7) = 0 ∧
    quorum_equal (Ident.fill 7) ((Ident.fill 7).store 3 8) = 0 :=
  ⟨(quorum_equal_bytes (Ident.fill 7) (Ident.fill 7)).1 (fun _ _ => rfl),
    (quorum_equal_bytes (Ident.fill 7) (Ident.fill 7)).2.2 3 (by decide) 8 (by decide)⟩

/-! ## Claims about the node table -/

theorem predOf_lowest : ∀ (vectors : List Vec) (x y : Ident), predOf vectors x = some y →
    ∃ (j : Nat) (v : Vec), vectors[j]? = some v ∧ v.own_id = x ∧ v.predecessor_id = y ∧
      ∀ (k : Nat) (u : Vec), k < j → vectors[k]? = some u → u.own_id ≠ x := by
  intro vectors
  induction vectors with
  | nil =>
    intro x y h
    simp [predOf] at h
  | cons w rest ih =>
    intro x y h
    by_cases hw : w.own_id = x
    · refine ⟨0, w, List.getElem?_cons_zero, hw, ?_, fun k u hk => absurd hk (Nat.not_lt_zero _)⟩
      rw [← hw, predOf_cons_self] at h
      exact Option.some.inj h
    · have h0 : holders [w] x = 0 := by
        rw [holders_singleton, if_neg hw]
      have e : w :: rest = [w] ++ rest := rfl
      rw [e, predOf_append_none _ h0] at h
      obtain ⟨j, v, hv, hvx, hvy, hlow⟩ := ih x y h
      refine ⟨j + 1, v, by rw [List.getElem?_cons_succ]; exact hv, hvx, hvy, ?_⟩
      intro k u hk hu
      cases k with
      | zero =>
        simp only [List.getElem?_cons_zero, Option.some.injEq] at hu
        rw [← hu]
        exact hw
      | succ k =>
        rw [List.getElem?_cons_succ] at hu
        exact hlow k u (by omega) hu

/-- C16. On 1..255 sources `quorum_nodes` returns, so that the free-space
assertion of `quorum_node` held at every miss of the build; the nodes of the
table hold pairwise distinct IDs, and the length returned is 36 times the
number `n` of nodes, at most `36 * 2 * sources_length` and at most 18360. -/
theorem quorum_nodes_distinct_bounded (vectors : List Vec) (nodes : Arena)
    (hmin : 1 ≤ vectors.length) (hmax : vectors.length ≤ 255) :
    ∃ (nodes2 : Arena) (n : Nat),
      quorum_nodes vectors nodes = .ok (nodes2, QUORUM_NODE * (n : Int)) ∧
      (∀ j k, j < n → k < n → (nodes2 (QUORUM_NODE * (j : Int))).id
        = (nodes2 (QUORUM_NODE * (k : Int))).id → j = k) ∧
      QUORUM_NODE * (n : Int) ≤ QUORUM_NODE * 2 * (vectors.length : Int) ∧
      QUORUM_NODE * (n : Int) ≤ 18360 ∧ QUORUM_NODE * (n : Int) ≤ QUORUM_NODES := by
  obtain ⟨nodes2, n, hbuild, hbuilt⟩ := quorum_nodes_spec vectors nodes hmin hmax
  have hsize := hbuilt.size
  refine ⟨nodes2, n, hbuild, hbuilt.fields.distinct, ?_, ?_, ?_⟩
  · simp only [QUORUM_NODE]
    omega
  · simp only [QUORUM_NODE]
    omega
  · simp only [QUORUM_NODE, QUORUM_NODES]
    omega

theorem quorum_nodes_distinct_bounded_witness :
    ∃ (nodes2 : Arena) (n : Nat),
      quorum_nodes sampleChain sampleArena = .ok (nodes2, QUORUM_NODE * (n : Int)) ∧
      (∀ j k, j < n → k < n → (nodes2 (QUORUM_NODE * (j : Int))).id
        = (nodes2 (QUORUM_NODE * (k : Int))).id → j = k) ∧
      QUORUM_NODE * (n : Int) ≤ QUORUM_NODE * 2 * (sampleChain.length : Int) ∧
      QUORUM_NODE * (n : Int) ≤ 18360 ∧ QUORUM_NODE * (n : Int) ≤ QUORUM_NODES :=
  quorum_nodes_distinct_bounded sampleChain sampleArena (by decide) (by decide)

/-- C17. On 1..255 sources, after `quorum_nodes` the count byte of every node
is the number of sources whose own ID is the node's ID; the IDs of the nodes
are exactly the own IDs and predecessor IDs of the vectors; a node has the
dependent flag iff its count is positive; and the dependency stored in a
dependent node is the predecessor ID of the lowest-indexed source with that
own ID. -/
theorem quorum_nodes_contents (vectors : List Vec) (nodes : Arena)
    (hmin : 1 ≤ vectors.length) (hmax : vectors.length ≤ 255) :
    ∃ (nodes2 : Arena) (n : Nat),
      quorum_nodes vectors nodes = .ok (nodes2, QUORUM_NODE * (n : Int)) ∧
      (∀ i, i < n → (entry nodes2 i).count = holders vectors (entry nodes2 i).id) ∧
      (∀ x, (∃ i, i < n ∧ (entry nodes2 i).id = x) ↔
        ∃ v ∈ vectors, v.own_id = x ∨ v.predecessor_id = x) ∧
      (∀ i, i < n →
        ((entry nodes2 i).flags &&& QUORUM_DEPENDENT ≠ 0 ↔ 0 < (entry nodes2 i).count)) ∧
      (∀ i, i < n → (entry nodes2 i).flags &&& QUORUM_DEPENDENT ≠ 0 →
        ∃ (j : Nat) (v : Vec), vectors[j]? = some v ∧ v.own_id = (entry nodes2 i).id ∧
          (∀ (k : Nat) (u : Vec), k < j → vectors[k]? = some u → u.own_id ≠ (entry nodes2 i).id) ∧
          (entry nodes2 i).dependency = v.predecessor_id) := by
  obtain ⟨nodes2, n, hbuild, hbuilt⟩ := quorum_nodes_spec vectors nodes hmin hmax
  have hF := hbuilt.fields
  have hflag : ∀ i, i < n →
      ((entry nodes2 i).flags &&& QUORUM_DEPENDENT ≠ 0 ↔ 0 < (entry nodes2 i).count) := by
    intro i hi
    rw [hF.flags i hi, hF.count i hi]
    by_cases h0 : holders vectors (entry nodes2 i).id = 0
    · rw [if_pos h0, h0]
      decide
    · rw [if_neg h0]
      constructor
      · intro _
        omega
      · intro _
        decide
  refine ⟨nodes2, n, hbuild, hF.count, ?_, hflag, ?_⟩
  · intro x
    constructor
    · rintro ⟨i, hi, hid⟩
      exact hid ▸ hF.seen i hi
    · rintro ⟨v, hv, hx | hx⟩
      · exact hx ▸ (hbuilt.covers v hv).1
      · exact hx ▸ (hbuilt.covers v hv).2
  · intro i hi hdep
    have hpos := (hflag i hi).1 hdep
    rw [hF.count i hi] at hpos
    obtain ⟨j, v, hv, hvx, hvy, hlow⟩ :=
      predOf_lowest vectors _ _ (hF.dependency i hi (by omega))
    exact ⟨j, v, hv, hvx, hlow, hvy.symm⟩

theorem quorum_nodes_contents_witness :
    ∃ (nodes2 : Arena) (n : Nat),
      quorum_nodes sampleChain sampleArena = .ok (nodes2, QUORUM_NODE * (n : Int)) ∧
      (∀ i, i < n → (entry nodes2 i).count = holders sampleChain (entry nodes2 i).id) ∧
      (∀ x, (∃ i, i < n ∧ (entry nodes2 i).id = x) ↔
        ∃ v ∈ sampleChain, v.own_id = x ∨ v.predecessor_id = x) ∧
      (∀ i, i < n →
        ((entry nodes2 i).flags &&& QUORUM_DEPENDENT ≠ 0 ↔ 0 < (entry nodes2 i).count)) ∧
      (∀ i, i < n → (entry nodes2 i).flags &&& QUORUM_DEPENDENT ≠ 0 →
        ∃ (j : Nat) (v : Vec), sampleChain[j]? = some v ∧ v.own_id = (entry nodes2 i).id ∧
          (∀ (k : Nat) (u : Vec), k < j → sampleChain[k]? = some u → u.own_id ≠ (entry nodes2 i).id) ∧
          (entry nodes2 i).dependency = v.predecessor_id) :=
  quorum_nodes_contents sampleChain sampleArena (by decide) (by decide)

/-! ## Claims about the error and the byte bounds -/

/-- C20. On 1..255 sources, if `quorum_fast` returns the cyclic-reference
error then the vectors contain a predecessor cycle; equivalently, without
such a cycle `quorum_fast` returns 0 with a decision. -/
theorem quorum_fast_error_is_cycle (vectors : List Vec) (nodes : Arena) (quorum : Quorum)
    (hmin : 1 ≤ vectors.length) (hmax : vectors.length ≤ 255) :
    (Outcome.code (quorum_fast vectors nodes quorum) = some 1 → Cyclic vectors) ∧
    (¬ Cyclic vectors → Outcome.code (quorum_fast vectors nodes quorum) = some 0 ∧
      ∃ q, Outcome.bytes (quorum_fast vectors nodes quorum) = some q) := by
  obtain ⟨out, hout, hcase⟩ := quorum_fast_spec vectors nodes quorum hmin hmax
  rw [hout]
  rcases hcase with ⟨herr, hcyc⟩ | ⟨herr, -⟩
  · exact ⟨fun _ => hcyc, fun hno => absurd hcyc hno⟩
  · refine ⟨fun h => ?_, fun _ => ⟨by simp [Outcome.code, herr], out.quorum, rfl⟩⟩
    simp [Outcome.code, herr] at h

theorem quorum_fast_error_is_cycle_witness :
    (Outcome.code (quorum_fast sampleCycle sampleArena sampleQuorum) = some 1 →
      Cyclic sampleCycle) ∧
    (¬ Cyclic sampleCycle →
      Outcome.code (quorum_fast sampleCycle sampleArena sampleQuorum) = some 0 ∧
      ∃ q, Outcome.bytes (quorum_fast sampleCycle sampleArena sampleQuorum) = some q) :=
  quorum_fast_error_is_cycle sampleCycle sampleArena sampleQuorum (by decide) (by decide)

/-! ## The leader byte -/

theorem firstSeen_lt : ∀ (l : List Vec) (index : Nat) (x : Ident),
    firstSeen l index x = 0 ∨ firstSeen l index x < index + l.length := by
  intro l
  induction l with
  | nil =>
    intro index x
    exact Or.inl rfl
  | cons v rest ih =>
    intro index x
    rw [firstSeen, List.length_cons]
    by_cases h1 : v.own_id = x
    · rw [if_pos h1]
      right
      omega
    · rw [if_neg h1]
      by_cases h2 : v.predecessor_id = x
      · rw [if_pos h2]
        exact Or.inl rfl
      · rw [if_neg h2]
        rcases ih (index + 1) x with h | h
        · exact Or.inl h
        · right
          omega

/-- The leader byte of a decision is a source index. -/
theorem Decision.leader_lt {vectors : List Vec} {q : Quorum} (h : Decision vectors q)
    (hmin : 1 ≤ vectors.length) : q.leader < vectors.length := by
  obtain ⟨M, m, -, hzero, hfork⟩ := h.winner
  rcases h.forked with h0 | h1
  · obtain ⟨-, hlead, -, -⟩ := hzero h0
    rw [hlead]
    rcases firstSeen_lt vectors 0 M with h | h
    · omega
    · omega
  · obtain ⟨hlead, -, -, -⟩ := hfork h1
    omega

/-- The leader byte written by a successful `quorum_fast` is a source index. -/
theorem quorum_fast_leader_lt {vectors : List Vec} {nodes : Arena} {quorum : Quorum}
    {out : Outcome} (hmin : 1 ≤ vectors.length) (hmax : vectors.length ≤ 255)
    (hout : quorum_fast vectors nodes quorum = .ok out) (herr : out.error = 0) :
    out.quorum.leader < vectors.length := by
  cases vectors with
  | nil => simp at hmin
  | cons a0 rest =>
    rcases quorum_fast_cases a0 rest nodes quorum hmax with ⟨h, -⟩ | ⟨h, -⟩ | ⟨c, h, hinv⟩
    · rw [hout] at h
      have e := Except.ok.inj h
      rw [e] at herr
      have h1 : (1 : Int) = 0 := herr
      omega
    · obtain ⟨out2, hslow, hcase⟩ := quorum_slow_spec (a0 :: rest) nodes quorum hmin hmax
      rw [hout, hslow] at h
      have e := Except.ok.inj h
      rw [← e] at hcase
      rcases hcase with ⟨h1, -⟩ | ⟨-, hdec⟩
      · rw [herr] at h1
        omega
      · exact hdec.leader_lt hmin
    · rw [hout, quorum_fast_decide_eq hinv hmax nodes] at h
      have e := Except.ok.inj h
      have hb := hinv.bIndex_lt
      rw [e]
      simp only []
      split_ifs
      · exact hmin
      · exact hmin
      · exact hb

/-- C15, as stated, fails: on 85 sources `AA|00` followed by the source
`BB|AA`, `quorum_fast` returns 0 and writes leader 85, length 86 and repair
85, whose sum is 256. -/
theorem quorum_fast_bytes_sum_exceeds :
    sampleLate.length = 86 ∧
    Outcome.code (quorum_fast sampleLate sampleArena sampleQuorum) = some 0 ∧
    Outcome.bytes (quorum_fast sampleLate sampleArena sampleQuorum) = some ⟨85, 86, 85, 0⟩ ∧
    ¬ ((⟨85, 86, 85, 0⟩ : Quorum).leader + (⟨85, 86, 85, 0⟩ : Quorum).length
        + (⟨85, 86, 85, 0⟩ : Quorum).repair ≤ 255) := by
  refine ⟨by decide, ?_, ?_, by decide⟩
  · set_option maxRecDepth 100000 in decide
  · set_option maxRecDepth 100000 in decide

/-- C15, amended. When `quorum_fast` returns 0 on 1..255 sources, the leader
byte written is below the number of sources, the length byte is at most the
number of sources and the repair byte is at most the length byte, so that
each of the three is at most 255. -/
theorem quorum_fast_bytes_each_bounded (vectors : List Vec) (nodes : Arena)
    (quorum q : Quorum) (hmin : 1 ≤ vectors.length) (hmax : vectors.length ≤ 255)
    (hcode : Outcome.code (quorum_fast vectors nodes quorum) = some 0)
    (hbytes : Outcome.bytes (quorum_fast vectors nodes quorum) = some q) :
    q.leader < vectors.length ∧ q.length ≤ vectors.length ∧ q.repair ≤ q.length ∧
    q.leader ≤ 254 ∧ q.length ≤ 255 ∧ q.repair ≤ 255 := by
  obtain ⟨out, hout, herr⟩ := outcome_of_code hcode
  have hq := bytes_of_ok hout hbytes
  have hlead := quorum_fast_leader_lt hmin hmax hout herr
  rw [hq] at hlead
  obtain ⟨q2, hdec, hl, hr, hf, -, -⟩ := quorum_fast_returns_zero hmin hmax hcode hbytes
  have hbound : q.length ≤ vectors.length ∧ q.repair ≤ q.length := by
    obtain ⟨M, m, hw, hzero, hfork⟩ := hdec.winner
    rw [hl, hr]
    rcases hdec.forked with h0 | h1
    · obtain ⟨hlen, -, ⟨y, hlink, hy⟩, -⟩ := hzero h0
      obtain ⟨k2, hk2, hsum, -⟩ := hw.1.link hlink
      have hrep := hy.functional hk2
      have hle := hw.1.le
      omega
    · obtain ⟨-, z1, z2, -⟩ := hfork h1
      omega
  omega

theorem quorum_fast_bytes_each_bounded_witness :
    (⟨1, 2, 1, 0⟩ : Quorum).leader < samplePair.length ∧
    (⟨1, 2, 1, 0⟩ : Quorum).length ≤ samplePair.length ∧
    (⟨1, 2, 1, 0⟩ : Quorum).repair ≤ (⟨1, 2, 1, 0⟩ : Quorum).length ∧
    (⟨1, 2, 1, 0⟩ : Quorum).leader ≤ 254 ∧ (⟨1, 2, 1, 0⟩ : Quorum).length ≤ 255 ∧
    (⟨1, 2, 1, 0⟩ : Quorum).repair ≤ 255 :=
  quorum_fast_bytes_each_bounded samplePair sampleArena sampleQuorum ⟨1, 2, 1, 0⟩
    (by decide) (by decide) (by decide) (by decide)

/-! ## The traversal on every path

A call of `quorum_visit` that returns the cyclic-reference error has stored
nothing but temporary marks and completed folds, so every node is still as
`Good` describes it. -/

theorem quorum_visit_finish_error (nodes : Arena) (nodesOffset : Int) (quorum : Quorum) :
    (quorum_visit_finish nodes nodesOffset quorum).error = 0 := rfl

/-- Whatever `quorum_visit` returns, the IDs of the table are unchanged and
every node is as `Good` describes it. -/
theorem quorum_visit_keeps (vectors : List Vec) (n : Nat) (hmax : vectors.length ≤ 255) :
    ∀ (fuel : Nat) (nodes : Arena) (i : Nat) (quorum : Quorum) (count : Nat),
      Table vectors nodes n → (∀ j, j < n → Good vectors (entry nodes j)) → Best nodes n quorum →
      i < n → unmarked nodes n < fuel →
      (∀ j, j < n → 2 ≤ (entry nodes j).flags → (entry nodes j).flags < 4 →
        Relation.TransGen (Link vectors) (entry nodes j).id (entry nodes i).id) →
      ∀ r, quorum_visit fuel nodes (offset i) (offset n) quorum count = .ok r →
        (∀ j, j < n → (entry r.nodes j).id = (entry nodes j).id) ∧
        ∀ j, j < n → Good vectors (entry r.nodes j) := by
  intro fuel
  induction fuel with
  | zero =>
    intro nodes i quorum count _ _ _ _ hfuel
    omega
  | succ fuel ih =>
    intro nodes i quorum count htab hgood hbest hi hfuel hstack r hr
    obtain ⟨r0, hr0, hcase⟩ := quorum_visit_spec vectors n hmax (fuel + 1) nodes i quorum count
      htab hgood hbest hi hfuel hstack
    have hrr : r0 = r := by
      rw [hr0] at hr
      exact Except.ok.inj hr
    subst hrr
    rcases hcase with ⟨herr, -⟩ | ⟨-, hset⟩
    swap
    · exact ⟨hset.ids, hset.good⟩
    have hgi := hgood i hi
    have hf8 := hgi.flags_lt
    have e0 : nodes (offset i) = entry nodes i := rfl
    rw [quorum_visit] at hr
    rw [if_neg (by have := offset_nonneg i; omega)] at hr
    rw [if_neg (not_not.2 (offset_pos (by omega)))] at hr
    rw [e0] at hr
    by_cases hperm : 4 ≤ (entry nodes i).flags
    · rw [if_pos ((flags_permanent _ hf8).2 hperm)] at hr
      have e := Except.ok.inj hr
      rw [← e]
      exact ⟨fun _ _ => rfl, hgood⟩
    · rw [if_neg (fun hc => hperm ((flags_permanent _ hf8).1 hc))] at hr
      have hf4 : (entry nodes i).flags < 4 := by omega
      by_cases htemp : 2 ≤ (entry nodes i).flags
      · rw [if_pos ((flags_temporary _ hf4).2 htemp)] at hr
        have e := Except.ok.inj hr
        rw [← e]
        exact ⟨fun _ _ => rfl, hgood⟩
      · rw [if_neg (fun hc => htemp ((flags_temporary _ hf4).1 hc))] at hr
        have hf2 : (entry nodes i).flags < 2 := by omega
        have hdflag := hgi.unmarked_flags hf2
        have hfresh := hgi.fresh hf4
        have hmark : (entry nodes i).flags ||| QUORUM_TEMPORARY = (entry nodes i).flags + 2 :=
          flags_mark_temporary _ hf2
        simp only [] at hr
        rw [hmark] at hr
        set nodes1 : Arena := Function.update nodes (offset i)
          { entry nodes i with flags := (entry nodes i).flags + 2 } with hnodes1
        have h1i : nodes1 (offset i)
            = { entry nodes i with flags := (entry nodes i).flags + 2 } := by
          rw [hnodes1]
          exact Function.update_same _ _ _
        have h1e : entry nodes1 i
            = { entry nodes i with flags := (entry nodes i).flags + 2 } := h1i
        have h1o : ∀ j, j ≠ i → entry nodes1 j = entry nodes j :=
          fun j hj => entry_update_ne _ _ hj
        have h1ids : ∀ j, (entry nodes1 j).id = (entry nodes j).id := by
          intro j
          by_cases hji : j = i
          · subst hji
            rw [h1e]
          · rw [h1o j hji]
        have htab1 : Table vectors nodes1 n := htab.of_ids (fun j _ => h1ids j)
        have hgood1 : ∀ j, j < n → Good vectors (entry nodes1 j) := by
          intro j hj
          by_cases hji : j = i
          · subst hji
            rw [h1e]
            refine ⟨hgi.index, Or.inr (Or.inl ?_), hgi.dependency, fun _ => hfresh, ?_⟩
            · show (entry nodes j).flags + 2 = _
              rw [hdflag]
            · intro hc
              have hc2 : 4 ≤ (entry nodes j).flags + 2 := hc
              omega
          · rw [h1o j hji]
            exact hgood j hj
        have hbest1 : Best nodes1 n quorum := by
          refine hbest.congr ?_ ?_
          · intro j hj hf
            exact h1o j (fun hc => by rw [hc] at hf; omega)
          · intro j hj hf
            by_cases hji : j = i
            · subst hji
              rw [h1e] at hf
              have hc2 : 4 ≤ (entry nodes j).flags + 2 := hf
              omega
            · rw [h1o j hji] at hf
              exact hf
        rw [h1i] at hr
        simp only [] at hr
        by_cases hdep : (entry nodes i).flags = 1
        · rw [if_pos ((flags_dependent _ hf2).2 hdep)] at hr
          have hheld : holders vectors (entry nodes i).id ≠ 0 := by
            intro hc
            rw [hdflag, if_pos hc] at hdep
            omega
          have hlink : predOf vectors (entry nodes i).id = some (entry nodes i).dependency :=
            hgi.dependency hheld
          obtain ⟨v, hv, -, hvp⟩ := predOf_some_mem hlink
          obtain ⟨d, hd, hdid⟩ := (htab1.covers v hv).2
          rw [hvp] at hdid
          rw [quorum_node_hit nodes1 n d _ hd hdid htab1.distinct] at hr
          simp only [] at hr
          have hfuel1 : unmarked nodes1 n < fuel := by
            have := unmarked_update nodes { entry nodes i with flags := (entry nodes i).flags + 2 }
              i hf2 (by show 2 ≤ (entry nodes i).flags + 2; omega) n hi
            rw [← hnodes1] at this
            omega
          have hstack1 : ∀ j, j < n → 2 ≤ (entry nodes1 j).flags → (entry nodes1 j).flags < 4 →
              Relation.TransGen (Link vectors) (entry nodes1 j).id (entry nodes1 d).id := by
            intro j hj hj2 hj4
            rw [hdid, h1ids]
            by_cases hji : j = i
            · subst hji
              exact Relation.TransGen.single hlink
            · rw [h1o j hji] at hj2 hj4
              exact Relation.TransGen.tail (hstack j hj hj2 hj4) hlink
          obtain ⟨r1, hr1, -⟩ := quorum_visit_spec vectors n hmax fuel nodes1 d quorum
            (entry nodes i).carried htab1 hgood1 hbest1 hd hfuel1 hstack1
          obtain ⟨k1, k2⟩ := ih nodes1 d quorum (entry nodes i).carried htab1 hgood1
            hbest1 hd hfuel1 hstack1 r1 hr1
          rw [hr1] at hr
          simp only [] at hr
          by_cases he : r1.error = 0
          · rw [if_neg (not_not.2 he)] at hr
            split_ifs at hr
            have e := Except.ok.inj hr
            rw [← e, quorum_visit_finish_error] at herr
            omega
          · rw [if_pos he] at hr
            have e := Except.ok.inj hr
            rw [← e]
            exact ⟨fun j hj => by rw [k1 j hj, h1ids], k2⟩
        · rw [if_neg (fun hc => hdep ((flags_dependent _ hf2).1 hc))] at hr
          have e := Except.ok.inj hr
          rw [← e, quorum_visit_finish_error] at herr
          omega

/-- Whatever the loop of `quorum_slow` returns, every node is as `Good`
describes it. -/
theorem quorum_slow_loop_keeps (vectors : List Vec) (n : Nat) (hmax : vectors.length ≤ 255) :
    ∀ (d j fuel : Nat) (nodes : Arena) (quorum : Quorum), j + d = n → d < fuel →
      Table vectors nodes n → (∀ k, k < n → Good vectors (entry nodes k)) →
      Best nodes n quorum →
      (∀ k, k < n → (entry nodes k).flags < 2 ∨ 4 ≤ (entry nodes k).flags) →
      ∀ out, quorum_slow_loop fuel nodes (offset j) (offset n) quorum = .ok out →
        (∀ k, k < n → (entry out.nodes k).id = (entry nodes k).id) ∧
        ∀ k, k < n → Good vectors (entry out.nodes k) := by
  intro d
  induction d with
  | zero =>
    intro j fuel nodes quorum hj hfuel htab hgood hbest _ out hout
    obtain ⟨f, rfl⟩ : ∃ f, fuel = f + 1 := ⟨fuel - 1, by omega⟩
    have hjn : j = n := by omega
    subst hjn
    rw [quorum_slow_loop, if_neg (lt_irrefl _)] at hout
    have e := Except.ok.inj hout
    rw [← e]
    exact ⟨fun _ _ => rfl, hgood⟩
  | succ d ih =>
    intro j fuel nodes quorum hj hfuel htab hgood hbest hmarks out hout
    obtain ⟨f, rfl⟩ : ∃ f, fuel = f + 1 := ⟨fuel - 1, by omega⟩
    have hjn : j < n := by omega
    have e0 : nodes (offset j) = entry nodes j := rfl
    rw [quorum_slow_loop, if_pos (offset_lt.2 hjn), e0, ← offset_succ] at hout
    by_cases hf2 : (entry nodes j).flags < 2
    · rw [if_pos ((flags_marked _ (hgood j hjn).flags_lt).2 hf2), offset_div] at hout
      have hfuel1 : unmarked nodes n < n + 1 := by
        have := unmarked_le nodes n
        omega
      have hstack : ∀ k, k < n → 2 ≤ (entry nodes k).flags → (entry nodes k).flags < 4 →
          Relation.TransGen (Link vectors) (entry nodes k).id (entry nodes j).id := by
        intro k hk h2 h4
        rcases hmarks k hk with h | h <;> omega
      obtain ⟨r, hr, hcase⟩ := quorum_visit_spec vectors n hmax (n + 1) nodes j quorum 0
        htab hgood hbest hjn hfuel1 hstack
      have hkeep := quorum_visit_keeps vectors n hmax (n + 1) nodes j quorum 0
        htab hgood hbest hjn hfuel1 hstack r hr
      rw [hr] at hout
      simp only [] at hout
      rcases hcase with ⟨herr, -⟩ | ⟨herr, hset⟩
      · rw [if_pos (by rw [herr]; decide)] at hout
        have e := Except.ok.inj hout
        rw [← e]
        exact hkeep
      · rw [if_neg (not_not.2 herr)] at hout
        obtain ⟨k1, k2⟩ := ih (j + 1) f r.nodes r.quorum (by omega) (by omega)
          (htab.of_ids hset.ids) hset.good hset.best (fun k hk => by
            rcases hmarks k hk with h | h
            · exact hset.marks k hk h
            · right
              rw [hset.frame k hk (by omega)]
              exact h) out hout
        exact ⟨fun k hk => by rw [k1 k hk, hset.ids k hk], k2⟩
    · rw [if_neg (fun hc => hf2 ((flags_marked _ (hgood j hjn).flags_lt).1 hc))] at hout
      exact ih (j + 1) f nodes quorum (by omega) (by omega) htab hgood hbest hmarks out hout

/-- The count byte of a node is its direct count plus its carried count, with
no wrap, and is at most the number of sources. -/
theorem Good.count_le {vectors : List Vec} {e : Node} (h : Good vectors e) :
    e.count = holders vectors e.id + e.carried ∧ e.count ≤ vectors.length := by
  by_cases hf : e.flags < 4
  · obtain ⟨h1, h2⟩ := h.fresh hf
    rw [h1, h2]
    exact ⟨rfl, holders_le _ _⟩
  · obtain ⟨h1, h2, h3⟩ := h.done (by omega)
    refine ⟨?_, h1.le⟩
    by_cases hh : holders vectors e.id = 0
    · rw [h1.zero_of_unheld hh, hh, h2 hh]
    · exact (h3 hh).2

/-- The table that `quorum_slow` leaves behind: whatever it returns, the
nodes are those of the table built by `quorum_nodes`, each as `Good`
describes it. -/
theorem quorum_slow_keeps (vectors : List Vec) (nodes : Arena) (quorum : Quorum)
    (hmin : 1 ≤ vectors.length) (hmax : vectors.length ≤ 255) :
    ∃ (nodes1 : Arena) (n : Nat) (out : Outcome),
      quorum_nodes vectors nodes = .ok (nodes1, offset n) ∧
      quorum_slow vectors nodes quorum = .ok out ∧
      ∀ k, k < n → Good vectors (entry out.nodes k) := by
  obtain ⟨nodes1, n, hbuild, hbuilt⟩ := quorum_nodes_spec vectors nodes hmin hmax
  obtain ⟨out, hloop, hcase⟩ := quorum_slow_loop_spec vectors n hmax n 0
    ((offset n).toNat + 1) nodes1 { leader := 0, length := 0, repair := 0, forked := 0 }
    (by omega) (by have := offset_toNat n; omega) hbuilt.table hbuilt.good hbuilt.best
    (fun k hk => Or.inl (hbuilt.flags_unmarked k hk))
    (fun k hk => absurd hk (Nat.not_lt_zero _))
  obtain ⟨-, hkeep⟩ := quorum_slow_loop_keeps vectors n hmax n 0
    ((offset n).toNat + 1) nodes1 { leader := 0, length := 0, repair := 0, forked := 0 }
    (by omega) (by have := offset_toNat n; omega) hbuilt.table hbuilt.good hbuilt.best
    (fun k hk => Or.inl (hbuilt.flags_unmarked k hk)) out hloop
  rw [offset_zero] at hloop
  suffices hs : ∃ out, quorum_slow vectors nodes quorum = .ok out ∧
      ∀ k, k < n → Good vectors (entry out.nodes k) by
    obtain ⟨out2, h1, h2⟩ := hs
    exact ⟨nodes1, n, out2, hbuild, h1, h2⟩
  unfold quorum_slow
  rw [if_neg (by simp only [QUORUM_SOURCES_MIN]; omega),
    if_neg (by simp only [QUORUM_SOURCES_MAX]; omega)]
  simp only []
  rw [hbuild]
  simp only []
  rw [hloop]
  simp only []
  rcases hcase with ⟨herr, -⟩ | ⟨herr, -, -, hbest, -⟩
  · rw [if_pos (by rw [herr]; decide)]
    exact ⟨out, rfl, hkeep⟩
  · rw [if_neg (not_not.2 herr)]
    by_cases h1 : out.quorum.forked = 1
    · rw [if_pos h1]
      exact ⟨_, rfl, hkeep⟩
    · rw [if_neg h1]
      have h0 : out.quorum.forked = 0 := by
        rcases hbest.forked with h | h
        · exact h
        · exact absurd h h1
      rw [if_pos h0]
      exact ⟨out, rfl, hkeep⟩

/-- The length byte of a decision is at most the number of sources. -/
theorem Decision.length_bound {vectors : List Vec} {q : Quorum} (h : Decision vectors q) :
    q.length ≤ vectors.length := by
  obtain ⟨M, m, hw, hzero, hfork⟩ := h.winner
  rcases h.forked with h0 | h1
  · rw [(hzero h0).1]
    exact hw.1.le
  · rw [(hfork h1).2.1]
    exact Nat.zero_le _

/-! ## Claims about the traversal -/

/-- C11. On 1..255 sources `quorum_slow` returns, so that the assertion
`count + carried <= UINT8_MAX` of `quorum_visit` held at every fold. In the
table it leaves, on the error path as well, the count byte of every node is
the node's direct count plus its carried count, without wrap, and at most the
number of sources; and the length byte written on success is at most the
number of sources. -/
theorem quorum_slow_counts_bounded (vectors : List Vec) (nodes : Arena) (quorum : Quorum)
    (hmin : 1 ≤ vectors.length) (hmax : vectors.length ≤ 255) :
    ∃ (nodes1 : Arena) (n : Nat) (out : Outcome),
      quorum_nodes vectors nodes = .ok (nodes1, QUORUM_NODE * (n : Int)) ∧
      quorum_slow vectors nodes quorum = .ok out ∧
      (∀ k, k < n →
        (entry out.nodes k).count
          = holders vectors (entry out.nodes k).id + (entry out.nodes k).carried ∧
        holders vectors (entry out.nodes k).id + (entry out.nodes k).carried ≤ vectors.length ∧
        (entry out.nodes k).count ≤ vectors.length ∧ (entry out.nodes k).count ≤ UINT8_MAX) ∧
      (out.error = 0 → out.quorum.length ≤ vectors.length) := by
  obtain ⟨nodes1, n, out, hbuild, hslow, hgood⟩ :=
    quorum_slow_keeps vectors nodes quorum hmin hmax
  refine ⟨nodes1, n, out, hbuild, hslow, ?_, ?_⟩
  · intro k hk
    obtain ⟨h1, h2⟩ := (hgood k hk).count_le
    refine ⟨h1, ?_, h2, ?_⟩
    · rw [← h1]
      exact h2
    · simp only [UINT8_MAX]
      omega
  · intro herr
    obtain ⟨out2, hslow2, hcase⟩ := quorum_slow_spec vectors nodes quorum hmin hmax
    rw [hslow] at hslow2
    have e := Except.ok.inj hslow2
    rw [← e] at hcase
    rcases hcase with ⟨h1, -⟩ | ⟨-, hdec⟩
    · rw [herr] at h1
      omega
    · exact hdec.length_bound

theorem quorum_slow_counts_bounded_witness :
    ∃ (nodes1 : Arena) (n : Nat) (out : Outcome),
      quorum_nodes sampleChain sampleArena = .ok (nodes1, QUORUM_NODE * (n : Int)) ∧
      quorum_slow sampleChain sampleArena sampleQuorum = .ok out ∧
      (∀ k, k < n →
        (entry out.nodes k).count
          = holders sampleChain (entry out.nodes k).id + (entry out.nodes k).carried ∧
        holders sampleChain (entry out.nodes k).id + (entry out.nodes k).carried
          ≤ sampleChain.length ∧
        (entry out.nodes k).count ≤ sampleChain.length ∧
        (entry out.nodes k).count ≤ UINT8_MAX) ∧
      (out.error = 0 → out.quorum.length ≤ sampleChain.length) :=
  quorum_slow_counts_bounded sampleChain sampleArena sampleQuorum (by decide) (by decide)

/-- C18. On 1..255 sources the table built by `quorum_nodes` has `n` nodes
with `n` at most twice the number of sources, hence at most 510. On that
table `quorum_visit` returns from every node when its recursion may nest `n`
calls below the outermost one (fuel `n + 1`), and `quorum_slow`, whose loop
gives every call of `quorum_visit` that much, returns. -/
theorem quorum_visit_terminates (vectors : List Vec) (nodes : Arena) (quorum : Quorum)
    (hmin : 1 ≤ vectors.length) (hmax : vectors.length ≤ 255) :
    ∃ (nodes1 : Arena) (n : Nat), quorum_nodes vectors nodes = .ok (nodes1, QUORUM_NODE * (n : Int)) ∧
      n ≤ 2 * vectors.length ∧ n ≤ 510 ∧
      (∀ (i count : Nat), i < n → ∃ r, quorum_visit (n + 1) nodes1 (QUORUM_NODE * (i : Int))
        (QUORUM_NODE * (n : Int)) { leader := 0, length := 0, repair := 0, forked := 0 } count
          = .ok r) ∧
      ∃ out, quorum_slow vectors nodes quorum = .ok out := by
  obtain ⟨nodes1, n, hbuild, hbuilt⟩ := quorum_nodes_spec vectors nodes hmin hmax
  have hsize := hbuilt.size
  refine ⟨nodes1, n, hbuild, hsize, by omega, ?_, ?_⟩
  · intro i count hi
    obtain ⟨r, hr, -⟩ := quorum_visit_spec vectors n hmax (n + 1) nodes1 i
      { leader := 0, length := 0, repair := 0, forked := 0 } count hbuilt.table hbuilt.good
      hbuilt.best hi (by have := unmarked_le nodes1 n; omega)
      (fun k hk h2 h4 => by
        have := hbuilt.flags_unmarked k hk
        omega)
    exact ⟨r, hr⟩
  · obtain ⟨out, hout, -⟩ := quorum_slow_spec vectors nodes quorum hmin hmax
    exact ⟨out, hout⟩

theorem quorum_visit_terminates_witness :
    ∃ (nodes1 : Arena) (n : Nat), quorum_nodes sampleCycle sampleArena = .ok (nodes1, QUORUM_NODE * (n : Int)) ∧
      n ≤ 2 * sampleCycle.length ∧ n ≤ 510 ∧
      (∀ (i count : Nat), i < n → ∃ r, quorum_visit (n + 1) nodes1 (QUORUM_NODE * (i : Int))
        (QUORUM_NODE * (n : Int)) { leader := 0, length := 0, repair := 0, forked := 0 } count
          = .ok r) ∧
      ∃ out, quorum_slow sampleCycle sampleArena sampleQuorum = .ok out :=
  quorum_visit_terminates sampleCycle sampleArena sampleQuorum (by decide) (by decide)

/-- The bound of `n` nested calls below the outermost one is attained: on the
three-node table of the cycle `AA|BB`, `BB|CC`, `CC|AA` the call on the first
node returns the error with room for four nested activations and does not
return with room for three. -/
theorem quorum_visit_depth_sharp :
    quorum_visit_first sampleCycle sampleArena 4 = .ok 1 ∧
    quorum_visit_first sampleCycle sampleArena 3 = .error .fuel := by
  exact ⟨rfl, rfl⟩

/-! ## Independence of the arena and of the previous quorum bytes -/

/-- The scan of `quorum_fast` takes the same way out whatever the arena and
the previous quorum bytes are. -/
theorem quorum_fast_loop_independent (vectors : List Vec) (nodes1 nodes2 : Arena)
    (q1 q2 : Quorum) : ∀ (rest : List Vec) (index : Nat) (c : Chains),
    (quorum_fast_loop vectors nodes1 q1 rest index c
        = .ok (.returned { error := 1, nodes := nodes1, quorum := q1 }) ∧
      quorum_fast_loop vectors nodes2 q2 rest index c
        = .ok (.returned { error := 1, nodes := nodes2, quorum := q2 })) ∨
    (quorum_fast_loop vectors nodes1 q1 rest index c
        = Scan.delegated (quorum_slow vectors nodes1 q1) ∧
      quorum_fast_loop vectors nodes2 q2 rest index c
        = Scan.delegated (quorum_slow vectors nodes2 q2)) ∨
    (quorum_fast_loop vectors nodes1 q1 rest index c = .error .null ∧
      quorum_fast_loop vectors nodes2 q2 rest index c = .error .null) ∨
    (∃ c2, quorum_fast_loop vectors nodes1 q1 rest index c = .ok (.scanned c2) ∧
      quorum_fast_loop vectors nodes2 q2 rest index c = .ok (.scanned c2)) := by
  intro rest
  induction rest with
  | nil =>
    intro index c
    exact Or.inr (Or.inr (Or.inr ⟨c, rfl, rfl⟩))
  | cons v rest ih =>
    intro index c
    have hd1 : ∀ (nodes : Arena) (q : Quorum),
        (match quorum_slow vectors nodes q with
          | .error e => (.error e : Except Stop Scan)
          | .ok out => .ok (.returned out)) = Scan.delegated (quorum_slow vectors nodes q) := by
      intro nodes q
      cases quorum_slow vectors nodes q <;> rfl
    obtain ⟨ca, cb, cai, cbi, cal, cbl⟩ := c
    rw [quorum_fast_loop, quorum_fast_loop]
    by_cases hs : quorum_equal v.own_id v.predecessor_id ≠ 0
    · rw [if_pos hs, if_pos hs]
      exact Or.inl ⟨rfl, rfl⟩
    · simp only [if_neg hs]
      by_cases ha : cal = 0
      · simp only [if_pos ha]
        exact ih _ _
      · simp only [if_neg ha]
        cases ca with
        | none => exact Or.inr (Or.inr (Or.inl ⟨rfl, rfl⟩))
        | some a =>
          simp only []
          by_cases h1 : quorum_equal v.own_id a.own_id ≠ 0
          · simp only [if_pos h1]
            exact ih _ _
          · simp only [if_neg h1]
            by_cases h2 : quorum_equal v.own_id a.predecessor_id ≠ 0 ∨
                quorum_equal a.own_id v.predecessor_id ≠ 0
            · simp only [if_pos h2]
              exact Or.inr (Or.inl ⟨hd1 _ _, hd1 _ _⟩)
            · simp only [if_neg h2]
              by_cases hb : cbl = 0
              · simp only [if_pos hb]
                exact ih _ _
              · simp only [if_neg hb]
                cases cb with
                | none => exact Or.inr (Or.inr (Or.inl ⟨rfl, rfl⟩))
                | some b =>
                  simp only []
                  by_cases h3 : quorum_equal v.own_id b.own_id ≠ 0
                  · simp only [if_pos h3]
                    exact ih _ _
                  · simp only [if_neg h3]
                    exact Or.inr (Or.inl ⟨hd1 _ _, hd1 _ _⟩)

/-- The slow decider returns the same code, and on success writes the same
bytes, whatever the arena and the previous quorum bytes are. -/
theorem quorum_slow_independent (vectors : List Vec) (nodes1 nodes2 : Arena) (q1 q2 : Quorum)
    (hmin : 1 ≤ vectors.length) (hmax : vectors.length ≤ 255) :
    ∃ out1 out2, quorum_slow vectors nodes1 q1 = .ok out1 ∧
      quorum_slow vectors nodes2 q2 = .ok out2 ∧ out1.error = out2.error ∧
      (out1.error = 0 ∨ out1.error = 1) ∧ (out1.error = 0 → out1.quorum = out2.quorum) := by
  obtain ⟨out1, h1, c1⟩ := quorum_slow_spec vectors nodes1 q1 hmin hmax
  obtain ⟨out2, h2, c2⟩ := quorum_slow_spec vectors nodes2 q2 hmin hmax
  refine ⟨out1, out2, h1, h2, ?_⟩
  rcases c1 with ⟨e1, x, hx⟩ | ⟨e1, d1⟩
  · rcases c2 with ⟨e2, -⟩ | ⟨-, d2⟩
    · exact ⟨by rw [e1, e2], Or.inr e1, fun h => by rw [e1] at h; omega⟩
    · obtain ⟨k, hk⟩ := d2.total x
      exact absurd hx hk.acyclic
  · rcases c2 with ⟨-, x, hx⟩ | ⟨e2, d2⟩
    · obtain ⟨k, hk⟩ := d1.total x
      exact absurd hx hk.acyclic
    · exact ⟨by rw [e1, e2], Or.inl e1, fun _ => d1.unique d2⟩

/-- The decider `quorum_fast` returns the same code, and on success writes the
same bytes, whatever the arena and the previous quorum bytes are. -/
theorem quorum_fast_independent (vectors : List Vec) (nodes1 nodes2 : Arena) (q1 q2 : Quorum)
    (hmin : 1 ≤ vectors.length) (hmax : vectors.length ≤ 255) :
    ∃ out1 out2, quorum_fast vectors nodes1 q1 = .ok out1 ∧
      quorum_fast vectors nodes2 q2 = .ok out2 ∧ out1.error = out2.error ∧
      (out1.error = 0 ∨ out1.error = 1) ∧ (out1.error = 0 → out1.quorum = out2.quorum) := by
  have hlo : ¬ (vectors.length < QUORUM_SOURCES_MIN) := by
    simp only [QUORUM_SOURCES_MIN]; omega
  have hhi : ¬ (vectors.length > QUORUM_SOURCES_MAX) := by
    simp only [QUORUM_SOURCES_MAX]; omega
  obtain ⟨o1, ho1, -⟩ := quorum_fast_spec vectors nodes1 q1 hmin hmax
  obtain ⟨o2, ho2, -⟩ := quorum_fast_spec vectors nodes2 q2 hmin hmax
  have ho1b := ho1
  have ho2b := ho2
  unfold quorum_fast at ho1b ho2b
  rw [if_neg hlo, if_neg hhi] at ho1b ho2b
  rcases quorum_fast_loop_independent vectors nodes1 nodes2 q1 q2 vectors 0
    { a := none, b := none, aIndex := 0, bIndex := 0, aLength := 0, bLength := 0 } with
    ⟨l1, l2⟩ | ⟨l1, l2⟩ | ⟨l1, l2⟩ | ⟨c, l1, l2⟩
  · rw [l1] at ho1b
    rw [l2] at ho2b
    have e1 := Except.ok.inj ho1b
    have e2 := Except.ok.inj ho2b
    refine ⟨o1, o2, ho1, ho2, ?_⟩
    rw [← e1, ← e2]
    exact ⟨rfl, Or.inr rfl, fun h => by
      have h1 : (1 : Int) = 0 := h
      omega⟩
  · obtain ⟨s1, s2, hs1, hs2, hs⟩ := quorum_slow_independent vectors nodes1 nodes2 q1 q2
      hmin hmax
    rw [l1, hs1] at ho1b
    rw [l2, hs2] at ho2b
    have e1 := Except.ok.inj ho1b
    have e2 := Except.ok.inj ho2b
    refine ⟨o1, o2, ho1, ho2, ?_⟩
    rw [← e1, ← e2]
    exact hs
  · rw [l1] at ho1b
    exact absurd ho1b (by simp)
  · rw [l1] at ho1b
    rw [l2] at ho2b
    simp only [] at ho1b ho2b
    obtain ⟨⟨a0, hinv⟩, hb1⟩ := quorum_fast_scanned vectors nodes1 q1 c hmin hmax
      (by rw [Chains.init, l1]; rfl)
    obtain ⟨-, hb2⟩ := quorum_fast_scanned vectors nodes2 q2 c hmin hmax
      (by rw [Chains.init, l2]; rfl)
    rw [ho1] at hb1
    rw [ho2] at hb2
    have e1 := Except.ok.inj hb1
    have e2 := Except.ok.inj hb2
    refine ⟨o1, o2, ho1, ho2, ?_⟩
    rw [e1, e2]
    exact ⟨rfl, Or.inl rfl, fun _ => rfl⟩

/-! ## Buffers -/

theorem vectorsAt_length (sources : List Memory) (vectorOffset : Int) :
    (vectorsAt sources vectorOffset).length = sources.length := by
  simp [vectorsAt]

theorem Memory.setQuorum_outside (m : Memory) (offset : Int) (q : Quorum) (x : Int)
    (h : x < offset ∨ offset + QUORUM_SIZE ≤ x) : (m.setQuorum offset q) x = m x := by
  simp only [QUORUM_SIZE] at h
  unfold Memory.setQuorum
  simp only [QUORUM_LEADER_OFFSET, QUORUM_LENGTH_OFFSET, QUORUM_REPAIR_OFFSET,
    QUORUM_FORKED_OFFSET]
  rw [Function.update_noteq (by omega), Function.update_noteq (by omega),
    Function.update_noteq (by omega), Function.update_noteq (by omega)]

theorem Memory.setQuorum_leader (m : Memory) (offset : Int) (q : Quorum) :
    (m.setQuorum offset q) (offset + QUORUM_LEADER_OFFSET) = q.leader := by
  unfold Memory.setQuorum
  simp only [QUORUM_LEADER_OFFSET, QUORUM_LENGTH_OFFSET, QUORUM_REPAIR_OFFSET,
    QUORUM_FORKED_OFFSET]
  rw [Function.update_noteq (by omega), Function.update_noteq (by omega),
    Function.update_noteq (by omega), Function.update_same]

theorem Memory.setQuorum_length (m : Memory) (offset : Int) (q : Quorum) :
    (m.setQuorum offset q) (offset + QUORUM_LENGTH_OFFSET) = q.length := by
  unfold Memory.setQuorum
  simp only [QUORUM_LEADER_OFFSET, QUORUM_LENGTH_OFFSET, QUORUM_REPAIR_OFFSET,
    QUORUM_FORKED_OFFSET]
  rw [Function.update_noteq (by omega), Function.update_noteq (by omega),
    Function.update_same]

theorem Memory.setQuorum_repair (m : Memory) (offset : Int) (q : Quorum) :
    (m.setQuorum offset q) (offset + QUORUM_REPAIR_OFFSET) = q.repair := by
  unfold Memory.setQuorum
  simp only [QUORUM_LEADER_OFFSET, QUORUM_LENGTH_OFFSET, QUORUM_REPAIR_OFFSET,
    QUORUM_FORKED_OFFSET]
  rw [Function.update_noteq (by omega), Function.update_same]

theorem Memory.setQuorum_forked (m : Memory) (offset : Int) (q : Quorum) :
    (m.setQuorum offset q) (offset + QUORUM_FORKED_OFFSET) = q.forked := by
  unfold Memory.setQuorum
  rw [Function.update_same]

theorem Memory.setQuorum_quorum (m : Memory) (offset : Int) (q : Quorum) :
    (m.setQuorum offset q).quorum offset = q := by
  unfold Memory.quorum
  rw [Memory.setQuorum_leader, Memory.setQuorum_length, Memory.setQuorum_repair,
    Memory.setQuorum_forked]

theorem Memory.quorum_congr {m1 m2 : Memory} {offset : Int}
    (h : ∀ x, offset ≤ x → x < offset + QUORUM_SIZE → m1 x = m2 x) :
    m1.quorum offset = m2.quorum offset := by
  simp only [QUORUM_SIZE] at h
  unfold Memory.quorum
  simp only [QUORUM_LEADER_OFFSET, QUORUM_LENGTH_OFFSET, QUORUM_REPAIR_OFFSET,
    QUORUM_FORKED_OFFSET]
  rw [h _ (by omega) (by omega), h _ (by omega) (by omega), h _ (by omega) (by omega),
    h _ (by omega) (by omega)]

theorem memcpy_inside (target : Memory) (targetOffset : Int) (source : Memory)
    (sourceOffset size x : Int) (h1 : targetOffset ≤ x) (h2 : x < targetOffset + size) :
    memcpy target targetOffset source sourceOffset size x
      = source (sourceOffset + (x - targetOffset)) := by
  unfold memcpy
  rw [if_pos ⟨h1, h2⟩]

theorem memcpy_outside (target : Memory) (targetOffset : Int) (source : Memory)
    (sourceOffset size x : Int) (h : x < targetOffset ∨ targetOffset + size ≤ x) :
    memcpy target targetOffset source sourceOffset size x = target x := by
  unfold memcpy
  rw [if_neg (by omega)]

theorem memset_inside (target : Memory) (targetOffset : Int) (value : Nat) (size x : Int)
    (h1 : targetOffset ≤ x) (h2 : x < targetOffset + size) :
    memset target targetOffset value size x = value := by
  unfold memset
  rw [if_pos ⟨h1, h2⟩]

theorem memset_outside (target : Memory) (targetOffset : Int) (value : Nat) (size x : Int)
    (h : x < targetOffset ∨ targetOffset + size ≤ x) :
    memset target targetOffset value size x = target x := by
  unfold memset
  rw [if_neg (by omega)]

theorem record_succ (size : Int) (p : Nat) : size * ((p + 1 : Nat) : Int) = size * p + size := by
  push_cast
  ring

theorem record_le {size : Int} (h : 0 ≤ size) {j k : Nat} (hjk : j ≤ k) :
    size * (j : Int) ≤ size * (k : Int) :=
  mul_le_mul_of_nonneg_left (by exact_mod_cast hjk) h

/-- What `quorum_fast` returns at a record position, for every arena and
every previous content of the quorum bytes, given what it returned for one. -/
theorem quorum_fast_everywhere {vectors : List Vec} {nodes : Arena} {quorum : Quorum}
    {out : Outcome} (hmin : 1 ≤ vectors.length) (hmax : vectors.length ≤ 255)
    (hout : quorum_fast vectors nodes quorum = .ok out) :
    (out.error = 0 ∨ out.error = 1) ∧
    (∀ (nodes2 : Arena) (q2 : Quorum),
      Outcome.code (quorum_fast vectors nodes2 q2) = some out.error) ∧
    (out.error = 0 → ∀ (nodes2 : Arena) (q2 : Quorum),
      Outcome.bytes (quorum_fast vectors nodes2 q2) = some out.quorum) := by
  refine ⟨?_, ?_, ?_⟩
  · obtain ⟨o1, o2, h1, -, -, h01, -⟩ :=
      quorum_fast_independent vectors nodes nodes quorum quorum hmin hmax
    rw [hout] at h1
    rw [Except.ok.inj h1]
    exact h01
  · intro nodes2 q2
    obtain ⟨o1, o2, h1, h2, he, -, -⟩ :=
      quorum_fast_independent vectors nodes nodes2 quorum q2 hmin hmax
    rw [hout] at h1
    rw [Except.ok.inj h1, h2, he]
    rfl
  · intro herr nodes2 q2
    obtain ⟨o1, o2, h1, h2, -, -, hq⟩ :=
      quorum_fast_independent vectors nodes nodes2 quorum q2 hmin hmax
    rw [hout] at h1
    have e := Except.ok.inj h1
    rw [h2, e, hq (by rw [← e]; exact herr)]
    rfl

/-! ## The loop of `quorum_iterate` -/

/-- The loop of `quorum_iterate` from record position `p` with `d` positions
to go returns. It stops at the first position `k` at which `quorum_fast`
returns the cyclic-reference error, which it returns, or runs over all the
positions and returns 0; in both cases it has written the positions from `p`
up to `k` as `Ran` describes. -/
theorem quorum_iterate_loop_spec (vectorOffset objectSize sourceSize : Int)
    (sources : List Memory) (hvo : 0 ≤ vectorOffset)
    (hos : vectorOffset + QUORUM_VECTOR ≤ objectSize)
    (hmin : 1 ≤ sources.length) (hmax : sources.length ≤ 255) :
    ∀ (d p fuel : Nat) (nodes : Arena) (quorum target : Memory),
      sourceSize = objectSize * ((p + d : Nat) : Int) → d < fuel →
      ∃ (r : Iterated) (k : Nat),
        quorum_iterate_loop vectorOffset objectSize sourceSize sources fuel nodes
          (objectSize * p) (QUORUM_SIZE * p) (objectSize * p) quorum target = .ok r ∧
        p ≤ k ∧ k ≤ p + d ∧ Ran vectorOffset objectSize sources p k quorum target r ∧
        ((r.error = 0 ∧ k = p + d ∧ ∀ x : Int, QUORUM_SIZE * k ≤ x → r.quorum x = quorum x) ∨
         (r.error = 1 ∧ k < p + d ∧
          (∀ (nodes2 : Arena) (q2 : Quorum),
            Outcome.code (quorum_fast (vectorsAt sources (objectSize * k + vectorOffset))
              nodes2 q2) = some 1) ∧
          ∃ (nodes2 : Arena) (out : Outcome),
            quorum_fast (vectorsAt sources (objectSize * k + vectorOffset)) nodes2
              (quorum.quorum (QUORUM_SIZE * k)) = .ok out ∧
            r.quorum.quorum (QUORUM_SIZE * k) = out.quorum)) := by
  have hv : (QUORUM_VECTOR : Int) = 32 := rfl
  have hsize : QUORUM_SIZE = 4 := rfl
  have hospos : 0 < objectSize := by omega
  intro d
  induction d with
  | zero =>
    intro p fuel nodes quorum target hss hfuel
    obtain ⟨f, rfl⟩ : ∃ f, fuel = f + 1 := ⟨fuel - 1, by omega⟩
    rw [quorum_iterate_loop, if_neg (by rw [hss]; simp)]
    refine ⟨_, p, rfl, le_refl _, by omega, ⟨?_, fun _ _ => rfl, fun _ _ => rfl⟩, ?_⟩
    · intro j h1 h2
      omega
    · exact Or.inl ⟨rfl, rfl, fun _ _ => rfl⟩
  | succ d ih =>
    intro p fuel nodes quorum target hss hfuel
    obtain ⟨f, rfl⟩ : ∃ f, fuel = f + 1 := ⟨fuel - 1, by omega⟩
    have e1 : objectSize * ((p + 1 : Nat) : Int) = objectSize * p + objectSize :=
      record_succ _ _
    have e4 : QUORUM_SIZE * ((p + 1 : Nat) : Int) = QUORUM_SIZE * p + QUORUM_SIZE :=
      record_succ _ _
    have hle : objectSize * ((p + 1 : Nat) : Int) ≤ sourceSize := by
      rw [hss]
      exact record_le (le_of_lt hospos) (by omega)
    have hp0 : 0 ≤ objectSize * (p : Int) :=
      mul_nonneg (le_of_lt hospos) (Int.ofNat_nonneg p)
    have hlen := vectorsAt_length sources (objectSize * p + vectorOffset)
    obtain ⟨out, hout, -⟩ := quorum_fast_spec
      (vectorsAt sources (objectSize * p + vectorOffset)) nodes
      (quorum.quorum (QUORUM_SIZE * p)) (by omega) (by omega)
    obtain ⟨h01, hcode, hbytes⟩ := quorum_fast_everywhere (by omega) (by omega) hout
    rw [quorum_iterate_loop, if_pos (by omega), if_neg (by omega), if_neg (by omega),
      if_neg (by omega), hout]
    simp only []
    by_cases herr : out.error = 0
    swap
    · -- the decider returns the error: the loop breaks
      have h1 : out.error = 1 := by
        rcases h01 with h | h
        · exact absurd h herr
        · exact h
      rw [if_pos herr]
      refine ⟨_, p, rfl, le_refl _, by omega, ⟨?_, ?_, fun _ _ => rfl⟩, ?_⟩
      · intro j h1 h2
        omega
      · intro x hx
        exact Memory.setQuorum_outside _ _ _ _ (by
          have := e4
          push_cast at hx this
          omega)
      · right
        refine ⟨h1, by omega, ?_, nodes, out, hout, Memory.setQuorum_quorum _ _ _⟩
        intro nodes2 q2
        rw [hcode nodes2 q2, h1]
    · rw [if_neg (not_not.2 herr), Memory.setQuorum_length, Memory.setQuorum_leader]
      have hb := hbytes herr
      have hlead : out.quorum.leader < sources.length := by
        have := quorum_fast_leader_lt (by omega) (by omega) hout herr
        omega
      -- what the rest of the run adds to the buffers `quorum2` and `target2`
      have key : ∀ (quorum2 target2 : Memory) (r : Iterated) (k : Nat),
          quorum2 = quorum.setQuorum (QUORUM_SIZE * p) out.quorum →
          (∀ x : Int, x < objectSize * p ∨ objectSize * p + objectSize ≤ x →
            target2 x = target x) →
          ((0 < out.quorum.length → ∃ source, sources[out.quorum.leader]? = some source ∧
              ∀ b : Int, 0 ≤ b → b < objectSize →
                target2 (objectSize * p + b) = source (objectSize * p + b)) ∧
            (out.quorum.length = 0 → ∀ b : Int, 0 ≤ b → b < objectSize →
                target2 (objectSize * p + b) = 0)) →
          p + 1 ≤ k →
          Ran vectorOffset objectSize sources (p + 1) k quorum2 target2 r →
          Ran vectorOffset objectSize sources p k quorum target r := by
        intro quorum2 target2 r k hq2 ht2 hrec hk hran
        have hkle : objectSize * ((p + 1 : Nat) : Int) ≤ objectSize * (k : Int) :=
          record_le (le_of_lt hospos) hk
        have hk4 : QUORUM_SIZE * ((p + 1 : Nat) : Int) ≤ QUORUM_SIZE * (k : Int) :=
          record_le (by decide) hk
        refine ⟨?_, ?_, ?_⟩
        · intro j hj1 hj2
          by_cases hjp : j = p
          · subst hjp
            refine ⟨out.quorum, fun nodes2 q2 => ⟨?_, hb nodes2 q2⟩, ?_, ?_, ?_⟩
            · rw [hcode nodes2 q2, herr]
            · rw [← Memory.setQuorum_quorum quorum (QUORUM_SIZE * j) out.quorum, ← hq2]
              refine Memory.quorum_congr (fun x hx1 hx2 => ?_)
              exact hran.quorumFrame x (Or.inl (by push_cast at e4 ⊢; omega))
            · intro hpos
              obtain ⟨source, hs, hrecord⟩ := hrec.1 hpos
              refine ⟨source, hs, fun b hb0 hb1 => ?_⟩
              rw [hran.targetFrame _ (Or.inl (by omega))]
              exact hrecord b hb0 hb1
            · intro hzero b hb0 hb1
              rw [hran.targetFrame _ (Or.inl (by omega))]
              exact hrec.2 hzero b hb0 hb1
          · exact hran.decided j (by omega) hj2
        · intro x hx
          rw [hran.quorumFrame x (by
            rcases hx with h | h
            · left
              omega
            · right
              exact h), hq2]
          refine Memory.setQuorum_outside _ _ _ _ ?_
          simp only [hsize] at e4 hk4 hx ⊢
          push_cast at e4 hk4 hx ⊢
          omega
        · intro x hx
          rw [hran.targetFrame x (by
            rcases hx with h | h
            · left
              omega
            · right
              exact h)]
          exact ht2 x (by omega)
      have hqk : ∀ k : Nat, p + 1 ≤ k →
          (quorum.setQuorum (QUORUM_SIZE * p) out.quorum).quorum (QUORUM_SIZE * k)
            = quorum.quorum (QUORUM_SIZE * k) := by
        intro k hk
        have hk4 : QUORUM_SIZE * ((p + 1 : Nat) : Int) ≤ QUORUM_SIZE * (k : Int) :=
          record_le (by decide) hk
        refine Memory.quorum_congr (fun x hx1 hx2 => ?_)
        exact Memory.setQuorum_outside _ _ _ _ (by omega)
      by_cases hpos : out.quorum.length > 0
      · -- a decision: the leader's record is copied
        rw [if_pos hpos, if_neg (by omega)]
        obtain ⟨source, hsource⟩ : ∃ source, sources[out.quorum.leader]? = some source :=
          ⟨sources[out.quorum.leader], List.getElem?_eq_getElem hlead⟩
        rw [hsource]
        simp only []
        rw [← e1, ← e4]
        obtain ⟨r, k, hr, hk1, hk2, hran, hcase⟩ := ih (p + 1) f out.nodes
          (quorum.setQuorum (QUORUM_SIZE * p) out.quorum)
          (memcpy target (objectSize * p) source (objectSize * p) objectSize)
          (by rw [hss]; congr 1; omega) (by omega)
        refine ⟨r, k, hr, by omega, by omega, ?_, ?_⟩
        · refine key _ _ r k rfl (fun x hx => memcpy_outside _ _ _ _ _ _ hx) ⟨?_, ?_⟩ hk1 hran
          · intro _
            refine ⟨source, hsource, fun b hb0 hb1 => ?_⟩
            rw [memcpy_inside _ _ _ _ _ _ (by omega) (by omega)]
            congr 1
            omega
          · intro hz
            omega
        · rcases hcase with ⟨c1, c2, c3⟩ | ⟨c1, c2, c3⟩
          · left
            refine ⟨c1, by omega, fun x hx => ?_⟩
            rw [c3 x hx]
            refine Memory.setQuorum_outside _ _ _ _ ?_
            have hk4 : QUORUM_SIZE * ((p + 1 : Nat) : Int) ≤ QUORUM_SIZE * (k : Int) :=
              record_le (by decide) hk1
            omega
          · right
            obtain ⟨c3, nodesK, outK, c4, c5⟩ := c3
            rw [hqk k hk1] at c4
            exact ⟨c1, by omega, c3, nodesK, outK, c4, c5⟩
      · -- no decision: the record is zeroed
        rw [if_neg hpos]
        rw [← e1, ← e4]
        obtain ⟨r, k, hr, hk1, hk2, hran, hcase⟩ := ih (p + 1) f out.nodes
          (quorum.setQuorum (QUORUM_SIZE * p) out.quorum)
          (memset target (objectSize * p) 0 objectSize)
          (by rw [hss]; congr 1; omega) (by omega)
        refine ⟨r, k, hr, by omega, by omega, ?_, ?_⟩
        · refine key _ _ r k rfl (fun x hx => memset_outside _ _ _ _ _ hx) ⟨?_, ?_⟩ hk1 hran
          · intro hc
            exact absurd hc hpos
          · intro _ b hb0 hb1
            exact memset_inside _ _ _ _ _ (by omega) (by omega)
        · rcases hcase with ⟨c1, c2, c3⟩ | ⟨c1, c2, c3⟩
          · left
            refine ⟨c1, by omega, fun x hx => ?_⟩
            rw [c3 x hx]
            refine Memory.setQuorum_outside _ _ _ _ ?_
            have hk4 : QUORUM_SIZE * ((p + 1 : Nat) : Int) ≤ QUORUM_SIZE * (k : Int) :=
              record_le (by decide) hk1
            omega
          · right
            obtain ⟨c3, nodesK, outK, c4, c5⟩ := c3
            rw [hqk k hk1] at c4
            exact ⟨c1, by omega, c3, nodesK, outK, c4, c5⟩

/-- The number of records of a source whose size is a multiple of the record
size. -/
theorem records_of_size {objectSize sourceSize : Int} (hos : 0 < objectSize)
    (hsize : objectSize ≤ sourceSize) (hmul : sourceSize % objectSize = 0) :
    ∃ N : Nat, 0 < N ∧ sourceSize = objectSize * (N : Int) ∧ N < sourceSize.toNat + 1 := by
  have hdiv : sourceSize = objectSize * (sourceSize / objectSize) := by
    have := Int.emod_add_ediv sourceSize objectSize
    rw [hmul, zero_add] at this
    exact this.symm
  have hnn : 0 ≤ sourceSize / objectSize := Int.ediv_nonneg (by omega) (by omega)
  obtain ⟨N, hN⟩ := Int.eq_ofNat_of_zero_le hnn
  rw [hN] at hdiv
  have hNpos : 0 < N := by
    rcases Nat.eq_zero_or_pos N with h | h
    · rw [h] at hdiv
      simp at hdiv
      omega
    · exact h
  have hle : (N : Int) ≤ sourceSize := by
    rw [hdiv]
    have : (1 : Int) * (N : Int) ≤ objectSize * (N : Int) :=
      mul_le_mul_of_nonneg_right (by omega) (Int.ofNat_nonneg N)
    omega
  exact ⟨N, hNpos, hdiv, by omega⟩

/-- On a valid input `quorum_iterate` returns. It stops at the first record
position `k` at which `quorum_fast` returns the cyclic-reference error, which
it returns, or runs over all the positions and returns 0; in both cases it
has written the positions before `k` as `Ran` describes. -/
theorem quorum_iterate_spec (vectorOffset objectSize sourceSize : Int) (sources : List Memory)
    (nodes : Arena) (quorum target : Memory) (hvo : 0 ≤ vectorOffset)
    (hos : vectorOffset + QUORUM_VECTOR ≤ objectSize) (hsize : objectSize ≤ sourceSize)
    (hmul : sourceSize % objectSize = 0)
    (hmin : 1 ≤ sources.length) (hmax : sources.length ≤ 255) :
    ∃ (r : Iterated) (k : Nat),
      quorum_iterate vectorOffset objectSize sourceSize sources nodes quorum target = .ok r ∧
      Ran vectorOffset objectSize sources 0 k quorum target r ∧
      ((r.error = 0 ∧ objectSize * (k : Int) = sourceSize ∧
          ∀ x : Int, QUORUM_SIZE * k ≤ x → r.quorum x = quorum x) ∨
       (r.error = 1 ∧ objectSize * (k : Int) < sourceSize ∧
        (∀ (nodes2 : Arena) (q2 : Quorum),
          Outcome.code (quorum_fast (vectorsAt sources (objectSize * k + vectorOffset))
            nodes2 q2) = some 1) ∧
        ∃ (nodes2 : Arena) (out : Outcome),
          quorum_fast (vectorsAt sources (objectSize * k + vectorOffset)) nodes2
            (quorum.quorum (QUORUM_SIZE * k)) = .ok out ∧
          r.quorum.quorum (QUORUM_SIZE * k) = out.quorum)) := by
  have hv : (QUORUM_VECTOR : Int) = 32 := rfl
  have hospos : 0 < objectSize := by omega
  obtain ⟨N, hNpos, hN, hfuel⟩ := records_of_size hospos hsize hmul
  obtain ⟨r, k, hr, -, hk, hran, hcase⟩ := quorum_iterate_loop_spec vectorOffset objectSize
    sourceSize sources hvo hos hmin hmax N 0 (sourceSize.toNat + 1) nodes quorum target
    (by rw [hN, Nat.zero_add]) hfuel
  simp only [Nat.cast_zero, mul_zero] at hr
  refine ⟨r, k, ?_, hran, ?_⟩
  · unfold quorum_iterate
    rw [if_neg (by omega), if_neg (by omega), if_neg (by omega), if_neg (by omega),
      if_neg (by omega), if_neg (by rw [hmul]; simp),
      if_neg (by simp only [QUORUM_SOURCES_MIN]; omega),
      if_neg (by simp only [QUORUM_SOURCES_MAX]; omega),
      if_neg (by simp only [UINT8_MAX]; omega), if_neg (by omega)]
    exact hr
  · rcases hcase with ⟨c1, c2, c3⟩ | ⟨c1, c2, c3⟩
    · left
      refine ⟨c1, ?_, c3⟩
      rw [hN, c2, Nat.zero_add]
    · right
      refine ⟨c1, ?_, c3⟩
      rw [hN]
      have h1 : objectSize * ((k + 1 : Nat) : Int) ≤ objectSize * (N : Int) :=
        record_le (le_of_lt hospos) (by omega)
      rw [record_succ] at h1
      omega

/-! ## Two runs in step

Runs of the slow decider on the same vectors from two arenas go through the
same steps: the tables they build and traverse are similar node by node. -/

theorem Similar.refl_node (e : Node) : Similar e e :=
  ⟨rfl, rfl, rfl, rfl, rfl, fun _ => rfl⟩

theorem Agree.update {nodes1 nodes2 : Arena} {n : Nat} (h : Agree nodes1 nodes2 n) (i : Nat)
    {e1 e2 : Node} (he : Similar e1 e2) :
    Agree (Function.update nodes1 (offset i) e1) (Function.update nodes2 (offset i) e2) n := by
  intro j hj
  rw [entry_update, entry_update]
  by_cases hji : j = i
  · rw [if_pos hji, if_pos hji]
    exact he
  · rw [if_neg hji, if_neg hji]
    exact h j hj

theorem Agree.extend {nodes1 nodes2 : Arena} {n : Nat} (h : Agree nodes1 nodes2 n)
    {e1 e2 : Node} (he : Similar e1 e2) :
    Agree (Function.update nodes1 (offset n) e1) (Function.update nodes2 (offset n) e2)
      (n + 1) := by
  intro j hj
  rw [entry_update, entry_update]
  by_cases hji : j = n
  · rw [if_pos hji, if_pos hji]
    exact he
  · rw [if_neg hji, if_neg hji]
    exact h j (by omega)

/-- The lookup loop gives the same result on similar tables. -/
theorem quorum_node_loop_lockstep {nodes1 nodes2 : Arena} {n : Nat}
    (h : Agree nodes1 nodes2 n) (vector : Ident) : ∀ (fuel i : Nat),
    quorum_node_loop fuel nodes1 (offset n) (offset i) vector
      = quorum_node_loop fuel nodes2 (offset n) (offset i) vector := by
  intro fuel
  induction fuel with
  | zero =>
    intro i
    rfl
  | succ fuel ih =>
    intro i
    rw [quorum_node_loop, quorum_node_loop]
    by_cases hi : i < n
    · have e1 : nodes1 (offset i) = entry nodes1 i := rfl
      have e2 : nodes2 (offset i) = entry nodes2 i := rfl
      rw [if_pos (offset_lt.2 hi), if_pos (offset_lt.2 hi), e1, e2, (h i hi).2.2.2.2.1,
        ← offset_succ, ih (i + 1)]
    · rw [if_neg (fun hc => hi (offset_lt.1 hc)), if_neg (fun hc => hi (offset_lt.1 hc))]

/-- The lookup loop returns the offset of a node of the table or, on a miss,
`-(nodesLength + 1)`. -/
theorem quorum_node_loop_range (nodes : Arena) (n : Nat) (vector : Ident) :
    ∀ (fuel i : Nat) (o : Int),
    quorum_node_loop fuel nodes (offset n) (offset i) vector = .ok o →
    o = -(offset n + 1) ∨ ∃ j, j < n ∧ o = offset j := by
  intro fuel
  induction fuel with
  | zero =>
    intro i o h
    simp [quorum_node_loop] at h
  | succ fuel ih =>
    intro i o h
    rw [quorum_node_loop] at h
    by_cases hi : i < n
    · rw [if_pos (offset_lt.2 hi)] at h
      split_ifs at h with h1
      · exact Or.inr ⟨i, hi, (Except.ok.inj h).symm⟩
      · rw [← offset_succ] at h
        exact ih (i + 1) o h
    · rw [if_neg (fun hc => hi (offset_lt.1 hc))] at h
      split_ifs at h
      exact Or.inl (Except.ok.inj h).symm

theorem quorum_node_lockstep {nodes1 nodes2 : Arena} {n : Nat}
    (h : Agree nodes1 nodes2 n) (vector : Ident) :
    quorum_node nodes1 (offset n) vector = quorum_node nodes2 (offset n) vector := by
  unfold quorum_node
  have := quorum_node_loop_lockstep h vector ((offset n).toNat + 1) 0
  rw [offset_zero] at this
  exact this

theorem quorum_node_range (nodes : Arena) (n : Nat) (vector : Ident) (o : Int)
    (h : quorum_node nodes (offset n) vector = .ok o) :
    o = -(offset n + 1) ∨ ∃ j, j < n ∧ o = offset j := by
  unfold quorum_node at h
  have := quorum_node_loop_range nodes n vector ((offset n).toNat + 1) 0 o
  rw [offset_zero] at this
  exact this h

theorem flags_or_dependent (f g : Nat) (hg : g &&& QUORUM_DEPENDENT = 0) :
    (f ||| g) &&& QUORUM_DEPENDENT = f &&& QUORUM_DEPENDENT := by
  rw [Nat.and_distrib_right, hg, Nat.or_zero]

theorem quorum_nodes_count_similar {e1 e2 : Node} (h : Similar e1 e2) (vector : Vec) :
    Similar (quorum_nodes_count e1 vector) (quorum_nodes_count e2 vector) := by
  obtain ⟨h1, h2, h3, h4, h5, h6⟩ := h
  unfold quorum_nodes_count
  simp only []
  rw [← h1]
  by_cases hd : e1.flags &&& QUORUM_DEPENDENT = 0
  · rw [if_pos hd, if_pos hd]
    exact ⟨rfl, h2, by simp only [h3], h4, h5, fun _ => rfl⟩
  · rw [if_neg hd, if_neg hd]
    exact ⟨rfl, h2, by simp only [h3], h4, h5, h6⟩

theorem quorum_nodes_id_lockstep {nodes1 nodes2 : Arena} {n : Nat}
    (h : Agree nodes1 nodes2 n) (index : Nat) (vector : Vec) :
    (∃ e, quorum_nodes_id nodes1 (offset n) index vector = .error e ∧
      quorum_nodes_id nodes2 (offset n) index vector = .error e) ∨
    (∃ (a1 a2 : Arena) (n2 : Nat),
      quorum_nodes_id nodes1 (offset n) index vector = .ok (a1, offset n2) ∧
      quorum_nodes_id nodes2 (offset n) index vector = .ok (a2, offset n2) ∧
      Agree a1 a2 n2) := by
  unfold quorum_nodes_id
  rw [← quorum_node_lockstep h]
  cases hq : quorum_node nodes1 (offset n) vector.own_id with
  | error e => exact Or.inl ⟨e, rfl, rfl⟩
  | ok o =>
    right
    simp only []
    have hn := offset_nonneg n
    rcases quorum_node_range nodes1 n _ o hq with ho | ⟨j, hj, ho⟩
    · have hneg : o < 0 := by omega
      have hoff : -(o + 1) = offset n := by omega
      rw [if_pos hneg, if_pos hneg, hoff, ← offset_succ]
      exact ⟨_, _, n + 1, rfl, rfl, h.extend (Similar.refl_node _)⟩
    · have hnn : ¬ o < 0 := by
        have := offset_nonneg j
        omega
      rw [if_neg hnn, if_neg hnn, ho]
      exact ⟨_, _, n, rfl, rfl, h.update j (quorum_nodes_count_similar (h j hj) vector)⟩

theorem quorum_nodes_dependency_lockstep {nodes1 nodes2 : Arena} {n : Nat}
    (h : Agree nodes1 nodes2 n) (vector : Vec) :
    (∃ e, quorum_nodes_dependency nodes1 (offset n) vector = .error e ∧
      quorum_nodes_dependency nodes2 (offset n) vector = .error e) ∨
    (∃ (a1 a2 : Arena) (n2 : Nat),
      quorum_nodes_dependency nodes1 (offset n) vector = .ok (a1, offset n2) ∧
      quorum_nodes_dependency nodes2 (offset n) vector = .ok (a2, offset n2) ∧
      Agree a1 a2 n2) := by
  unfold quorum_nodes_dependency
  rw [← quorum_node_lockstep h]
  cases hq : quorum_node nodes1 (offset n) vector.predecessor_id with
  | error e => exact Or.inl ⟨e, rfl, rfl⟩
  | ok o =>
    right
    simp only []
    have hn := offset_nonneg n
    rcases quorum_node_range nodes1 n _ o hq with ho | ⟨j, hj, ho⟩
    · have hneg : o < 0 := by omega
      have hoff : -(o + 1) = offset n := by omega
      rw [if_pos hneg, if_pos hneg, hoff, ← offset_succ]
      refine ⟨_, _, n + 1, rfl, rfl, h.extend ⟨rfl, rfl, rfl, rfl, rfl, fun hc => ?_⟩⟩
      exact absurd (show (0 : Nat) &&& QUORUM_DEPENDENT = 0 from rfl) hc
    · have hnn : ¬ o < 0 := by
        have := offset_nonneg j
        omega
      rw [if_neg hnn, if_neg hnn]
      exact ⟨_, _, n, rfl, rfl, h⟩

theorem quorum_nodes_loop_lockstep : ∀ (rest : List Vec) (index : Nat) (nodes1 nodes2 : Arena)
    (n : Nat), Agree nodes1 nodes2 n →
    (∃ e, quorum_nodes_loop rest index nodes1 (offset n) = .error e ∧
      quorum_nodes_loop rest index nodes2 (offset n) = .error e) ∨
    (∃ (a1 a2 : Arena) (n2 : Nat),
      quorum_nodes_loop rest index nodes1 (offset n) = .ok (a1, offset n2) ∧
      quorum_nodes_loop rest index nodes2 (offset n) = .ok (a2, offset n2) ∧
      Agree a1 a2 n2) := by
  intro rest
  induction rest with
  | nil =>
    intro index nodes1 nodes2 n h
    exact Or.inr ⟨nodes1, nodes2, n, rfl, rfl, h⟩
  | cons vector rest ih =>
    intro index nodes1 nodes2 n h
    rw [quorum_nodes_loop, quorum_nodes_loop]
    rcases quorum_nodes_id_lockstep h index vector with ⟨e, h1, h2⟩ | ⟨a1, a2, n2, h1, h2, ha⟩
    · rw [h1, h2]
      exact Or.inl ⟨e, rfl, rfl⟩
    · rw [h1, h2]
      simp only []
      rcases quorum_nodes_dependency_lockstep ha vector with
        ⟨e, h3, h4⟩ | ⟨b1, b2, n3, h3, h4, hb⟩
      · rw [h3, h4]
        exact Or.inl ⟨e, rfl, rfl⟩
      · rw [h3, h4]
        exact ih (index + 1) b1 b2 n3 hb

theorem quorum_nodes_lockstep (vectors : List Vec) (nodes1 nodes2 : Arena) :
    (∃ e, quorum_nodes vectors nodes1 = .error e ∧ quorum_nodes vectors nodes2 = .error e) ∨
    (∃ (a1 a2 : Arena) (n : Nat), quorum_nodes vectors nodes1 = .ok (a1, offset n) ∧
      quorum_nodes vectors nodes2 = .ok (a2, offset n) ∧ Agree a1 a2 n) := by
  unfold quorum_nodes
  by_cases h1 : vectors.length < QUORUM_SOURCES_MIN
  · rw [if_pos h1, if_pos h1]
    exact Or.inl ⟨_, rfl, rfl⟩
  · rw [if_neg h1, if_neg h1]
    by_cases h2 : vectors.length > QUORUM_SOURCES_MAX
    · rw [if_pos h2, if_pos h2]
      exact Or.inl ⟨_, rfl, rfl⟩
    · rw [if_neg h2, if_neg h2]
      have := quorum_nodes_loop_lockstep vectors 0 nodes1 nodes2 0
        (fun j hj => absurd hj (Nat.not_lt_zero _))
      rw [offset_zero] at this
      exact this

theorem Similar.mark {e1 e2 : Node} (h : Similar e1 e2) (g : Nat)
    (hg : g &&& QUORUM_DEPENDENT = 0) :
    Similar { e1 with flags := e1.flags ||| g } { e2 with flags := e2.flags ||| g } := by
  obtain ⟨h1, h2, h3, h4, h5, h6⟩ := h
  refine ⟨by simp only [h1], h2, h3, h4, h5, fun hc => h6 ?_⟩
  rw [← flags_or_dependent e1.flags g hg]
  exact hc

theorem quorum_visit_finish_lockstep {nodes1 nodes2 : Arena} {n : Nat}
    (h : Agree nodes1 nodes2 n) (i : Nat) (hi : i < n) (quorum : Quorum) :
    (quorum_visit_finish nodes1 (offset i) quorum).error
      = (quorum_visit_finish nodes2 (offset i) quorum).error ∧
    (quorum_visit_finish nodes1 (offset i) quorum).quorum
      = (quorum_visit_finish nodes2 (offset i) quorum).quorum ∧
    (quorum_visit_finish nodes1 (offset i) quorum).count
      = (quorum_visit_finish nodes2 (offset i) quorum).count ∧
    Agree (quorum_visit_finish nodes1 (offset i) quorum).nodes
      (quorum_visit_finish nodes2 (offset i) quorum).nodes n := by
  have hs := h i hi
  obtain ⟨h1, h2, h3, h4, h5, h6⟩ := hs
  have e1 : nodes1 (offset i) = entry nodes1 i := rfl
  have e2 : nodes2 (offset i) = entry nodes2 i := rfl
  refine ⟨rfl, ?_, ?_, ?_⟩
  · unfold quorum_visit_finish
    simp only []
    rw [e1, e2, ← h2, ← h3, ← h4]
  · unfold quorum_visit_finish
    exact h3
  · unfold quorum_visit_finish
    exact h.update i ((h i hi).mark QUORUM_PERMANENT rfl)

/-- Two calls of `quorum_visit` on similar tables go the same way: they
return the same code, count and quorum bytes and leave similar tables. -/
theorem quorum_visit_lockstep (n : Nat) : ∀ (fuel : Nat) (nodes1 nodes2 : Arena) (o : Int)
    (quorum : Quorum) (count : Nat), Agree nodes1 nodes2 n →
    (o < 0 ∨ ∃ i, i < n ∧ o = offset i) →
    (∃ e, quorum_visit fuel nodes1 o (offset n) quorum count = .error e ∧
      quorum_visit fuel nodes2 o (offset n) quorum count = .error e) ∨
    (∃ r1 r2, quorum_visit fuel nodes1 o (offset n) quorum count = .ok r1 ∧
      quorum_visit fuel nodes2 o (offset n) quorum count = .ok r2 ∧
      r1.error = r2.error ∧ r1.quorum = r2.quorum ∧ r1.count = r2.count ∧
      Agree r1.nodes r2.nodes n) := by
  intro fuel
  induction fuel with
  | zero =>
    intro nodes1 nodes2 o quorum count _ _
    exact Or.inl ⟨_, rfl, rfl⟩
  | succ fuel ih =>
    intro nodes1 nodes2 o quorum count h ho
    rw [quorum_visit, quorum_visit]
    rcases ho with ho | ⟨i, hi, ho⟩
    · rw [if_pos ho, if_pos ho]
      exact Or.inl ⟨_, rfl, rfl⟩
    · subst ho
      have hnn : ¬ offset i < 0 := not_lt.2 (offset_nonneg i)
      have hpos : ¬ ¬ offset n > 0 := not_not.2 (offset_pos (by omega))
      rw [if_neg hnn, if_neg hnn, if_neg hpos, if_neg hpos]
      have e1 : nodes1 (offset i) = entry nodes1 i := rfl
      have e2 : nodes2 (offset i) = entry nodes2 i := rfl
      obtain ⟨h1, h2, h3, h4, h5, h6⟩ := h i hi
      simp only [Function.update_same]
      rw [e1, e2, ← h1]
      by_cases hp : (entry nodes1 i).flags &&& QUORUM_PERMANENT ≠ 0
      · rw [if_pos hp, if_pos hp]
        exact Or.inr ⟨_, _, rfl, rfl, rfl, rfl, h3, h⟩
      · rw [if_neg hp, if_neg hp]
        by_cases ht : (entry nodes1 i).flags &&& QUORUM_TEMPORARY ≠ 0
        · rw [if_pos ht, if_pos ht]
          exact Or.inr ⟨_, _, rfl, rfl, rfl, rfl, rfl, h⟩
        · rw [if_neg ht, if_neg ht]
          rw [← h4]
          have hm : ∀ dep2 : Ident,
              (((entry nodes1 i).flags ||| QUORUM_TEMPORARY) &&& QUORUM_DEPENDENT ≠ 0 →
                (entry nodes1 i).dependency = dep2) →
              Agree
                (Function.update nodes1 (offset i)
                  ⟨(entry nodes1 i).flags ||| QUORUM_TEMPORARY, (entry nodes1 i).index,
                    (entry nodes1 i).count, (entry nodes1 i).carried, (entry nodes1 i).id,
                    (entry nodes1 i).dependency⟩)
                (Function.update nodes2 (offset i)
                  ⟨(entry nodes1 i).flags ||| QUORUM_TEMPORARY, (entry nodes2 i).index,
                    (entry nodes2 i).count, (entry nodes1 i).carried, (entry nodes2 i).id,
                    dep2⟩)
                n :=
            fun dep2 hdep2 => h.update i ⟨rfl, h2, h3, rfl, h5, hdep2⟩
          by_cases hd : ((entry nodes1 i).flags ||| QUORUM_TEMPORARY) &&& QUORUM_DEPENDENT ≠ 0
          · rw [if_pos hd, if_pos hd]
            have hdep : (entry nodes1 i).dependency = (entry nodes2 i).dependency :=
              h6 (by rw [← flags_or_dependent _ QUORUM_TEMPORARY rfl]; exact hd)
            rw [← hdep, ← quorum_node_lockstep (hm _ (fun _ => rfl))]
            cases hq : quorum_node (Function.update nodes1 (offset i)
                ⟨(entry nodes1 i).flags ||| QUORUM_TEMPORARY, (entry nodes1 i).index,
                  (entry nodes1 i).count, (entry nodes1 i).carried, (entry nodes1 i).id,
                  (entry nodes1 i).dependency⟩)
                (offset n) (entry nodes1 i).dependency with
            | error e => exact Or.inl ⟨e, rfl, rfl⟩
            | ok d =>
              simp only []
              have hrange : d < 0 ∨ ∃ j, j < n ∧ d = offset j := by
                rcases quorum_node_range _ n _ d hq with hc | hc
                · left
                  have := offset_nonneg n
                  omega
                · exact Or.inr hc
              rcases ih _ _ d quorum (entry nodes1 i).carried (hm _ (fun _ => rfl)) hrange with
                ⟨e, v1, v2⟩ | ⟨r1, r2, v1, v2, herr, hquo, hcnt, hagree⟩
              · rw [v1, v2]
                exact Or.inl ⟨e, rfl, rfl⟩
              · rw [v1, v2]
                simp only []
                rw [← herr, ← hquo, ← hcnt]
                by_cases hv : r1.error ≠ 0
                · rw [if_pos hv, if_pos hv]
                  exact Or.inr ⟨_, _, rfl, rfl, rfl, rfl, rfl, hagree⟩
                · rw [if_neg hv, if_neg hv]
                  have f1 : r1.nodes (offset i) = entry r1.nodes i := rfl
                  have f2 : r2.nodes (offset i) = entry r2.nodes i := rfl
                  obtain ⟨g1, g2, g3, g4, g5, g6⟩ := hagree i hi
                  rw [f1, f2, ← g3]
                  by_cases ha : ¬ ((entry r1.nodes i).count + r1.count ≤ UINT8_MAX)
                  · rw [if_pos ha, if_pos ha]
                    exact Or.inl ⟨_, rfl, rfl⟩
                  · rw [if_neg ha, if_neg ha]
                    have hsim : Similar
                        { entry r1.nodes i with
                          carried := r1.count,
                          count := ((entry r1.nodes i).count + r1.count) % 256 }
                        { entry r2.nodes i with
                          carried := r1.count,
                          count := ((entry r1.nodes i).count + r1.count) % 256 } :=
                      ⟨g1, g2, rfl, rfl, g5, g6⟩
                    have hfin := quorum_visit_finish_lockstep (hagree.update i hsim) i hi
                      r1.quorum
                    exact Or.inr ⟨_, _, rfl, rfl, hfin⟩
          · rw [if_neg hd, if_neg hd]
            have hfin := quorum_visit_finish_lockstep
              (hm (entry nodes2 i).dependency (fun hc => absurd hc hd)) i hi quorum
            exact Or.inr ⟨_, _, rfl, rfl, hfin⟩

theorem quorum_slow_loop_lockstep (n : Nat) : ∀ (fuel j : Nat) (nodes1 nodes2 : Arena)
    (quorum : Quorum), Agree nodes1 nodes2 n →
    (∃ e, quorum_slow_loop fuel nodes1 (offset j) (offset n) quorum = .error e ∧
      quorum_slow_loop fuel nodes2 (offset j) (offset n) quorum = .error e) ∨
    (∃ o1 o2, quorum_slow_loop fuel nodes1 (offset j) (offset n) quorum = .ok o1 ∧
      quorum_slow_loop fuel nodes2 (offset j) (offset n) quorum = .ok o2 ∧
      o1.error = o2.error ∧ o1.quorum = o2.quorum ∧ Agree o1.nodes o2.nodes n) := by
  intro fuel
  induction fuel with
  | zero =>
    intro j nodes1 nodes2 quorum _
    exact Or.inl ⟨_, rfl, rfl⟩
  | succ fuel ih =>
    intro j nodes1 nodes2 quorum h
    rw [quorum_slow_loop, quorum_slow_loop]
    by_cases hj : j < n
    · have e1 : nodes1 (offset j) = entry nodes1 j := rfl
      have e2 : nodes2 (offset j) = entry nodes2 j := rfl
      rw [if_pos (offset_lt.2 hj), if_pos (offset_lt.2 hj), e1, e2, ← (h j hj).1,
        ← offset_succ]
      by_cases hu : (entry nodes1 j).flags &&& (QUORUM_TEMPORARY ||| QUORUM_PERMANENT) = 0
      · rw [if_pos hu, if_pos hu]
        rcases quorum_visit_lockstep n ((offset n / QUORUM_NODE).toNat + 1) nodes1 nodes2
          (offset j) quorum 0 h (Or.inr ⟨j, hj, rfl⟩) with
          ⟨e, v1, v2⟩ | ⟨r1, r2, v1, v2, herr, hquo, -, hagree⟩
        · rw [v1, v2]
          exact Or.inl ⟨e, rfl, rfl⟩
        · rw [v1, v2]
          simp only []
          rw [← herr, ← hquo]
          by_cases hv : r1.error ≠ 0
          · rw [if_pos hv, if_pos hv]
            exact Or.inr ⟨_, _, rfl, rfl, rfl, rfl, hagree⟩
          · rw [if_neg hv, if_neg hv]
            exact ih (j + 1) r1.nodes r2.nodes r1.quorum hagree
      · rw [if_neg hu, if_neg hu]
        exact ih (j + 1) nodes1 nodes2 quorum h
    · rw [if_neg (fun hc => hj (offset_lt.1 hc)), if_neg (fun hc => hj (offset_lt.1 hc))]
      exact Or.inr ⟨_, _, rfl, rfl, rfl, rfl, h⟩

/-- Two runs of `quorum_slow` on the same vectors, from any two arenas and
any two contents of the quorum bytes, both fail to return for the same
reason or both return, with the same code and the same quorum bytes. -/
theorem quorum_slow_lockstep (vectors : List Vec) (nodes1 nodes2 : Arena) (q1 q2 : Quorum) :
    (∃ e, quorum_slow vectors nodes1 q1 = .error e ∧
      quorum_slow vectors nodes2 q2 = .error e) ∨
    (∃ o1 o2, quorum_slow vectors nodes1 q1 = .ok o1 ∧ quorum_slow vectors nodes2 q2 = .ok o2 ∧
      o1.error = o2.error ∧ o1.quorum = o2.quorum) := by
  unfold quorum_slow
  by_cases h1 : vectors.length < QUORUM_SOURCES_MIN
  · rw [if_pos h1, if_pos h1]
    exact Or.inl ⟨_, rfl, rfl⟩
  rw [if_neg h1, if_neg h1]
  by_cases h2 : vectors.length > QUORUM_SOURCES_MAX
  · rw [if_pos h2, if_pos h2]
    exact Or.inl ⟨_, rfl, rfl⟩
  rw [if_neg h2, if_neg h2]
  simp only []
  rcases quorum_nodes_lockstep vectors nodes1 nodes2 with ⟨e, b1, b2⟩ | ⟨a1, a2, n, b1, b2, ha⟩
  · rw [b1, b2]
    exact Or.inl ⟨e, rfl, rfl⟩
  rw [b1, b2]
  simp only []
  have hloop := quorum_slow_loop_lockstep n ((offset n).toNat + 1) 0 a1 a2
    { leader := 0, length := 0, repair := 0, forked := 0 } ha
  rw [offset_zero] at hloop
  rcases hloop with ⟨e, l1, l2⟩ | ⟨o1, o2, l1, l2, herr, hquo, -⟩
  · rw [l1, l2]
    exact Or.inl ⟨e, rfl, rfl⟩
  rw [l1, l2]
  simp only []
  rw [← herr, ← hquo]
  by_cases hv : o1.error ≠ 0
  · rw [if_pos hv, if_pos hv]
    exact Or.inr ⟨_, _, rfl, rfl, herr, hquo⟩
  rw [if_neg hv, if_neg hv]
  by_cases hf1 : o1.quorum.forked = 1
  · rw [if_pos hf1, if_pos hf1]
    exact Or.inr ⟨_, _, rfl, rfl, rfl, rfl⟩
  rw [if_neg hf1, if_neg hf1]
  by_cases hf0 : o1.quorum.forked = 0
  · rw [if_pos hf0, if_pos hf0]
    exact Or.inr ⟨_, _, rfl, rfl, herr, hquo⟩
  · rw [if_neg hf0, if_neg hf0]
    exact Or.inl ⟨_, rfl, rfl⟩

theorem quorum_fast_decide_lockstep (vectorsLength : Nat) (nodes1 nodes2 : Arena) (c : Chains) :
    (∃ e, quorum_fast_decide vectorsLength nodes1 c = .error e ∧
      quorum_fast_decide vectorsLength nodes2 c = .error e) ∨
    (∃ o1 o2, quorum_fast_decide vectorsLength nodes1 c = .ok o1 ∧
      quorum_fast_decide vectorsLength nodes2 c = .ok o2 ∧
      o1.error = o2.error ∧ o1.quorum = o2.quorum) := by
  unfold quorum_fast_decide
  by_cases c0 : ¬ (c.aIndex ≤ UINT8_MAX)
  · rw [if_pos c0, if_pos c0]
    exact Or.inl ⟨_, rfl, rfl⟩
  rw [if_neg c0, if_neg c0]
  by_cases c1 : ¬ (c.bIndex ≤ UINT8_MAX)
  · rw [if_pos c1, if_pos c1]
    exact Or.inl ⟨_, rfl, rfl⟩
  rw [if_neg c1, if_neg c1]
  by_cases c2 : ¬ (c.aIndex < vectorsLength)
  · rw [if_pos c2, if_pos c2]
    exact Or.inl ⟨_, rfl, rfl⟩
  rw [if_neg c2, if_neg c2]
  by_cases c3 : ¬ (c.bIndex < vectorsLength)
  · rw [if_pos c3, if_pos c3]
    exact Or.inl ⟨_, rfl, rfl⟩
  rw [if_neg c3, if_neg c3]
  by_cases c4 : ¬ (c.aLength ≤ UINT8_MAX)
  · rw [if_pos c4, if_pos c4]
    exact Or.inl ⟨_, rfl, rfl⟩
  rw [if_neg c4, if_neg c4]
  by_cases c5 : ¬ (c.bLength ≤ UINT8_MAX)
  · rw [if_pos c5, if_pos c5]
    exact Or.inl ⟨_, rfl, rfl⟩
  rw [if_neg c5, if_neg c5]
  by_cases c6 : ¬ (c.aLength + c.bLength = vectorsLength)
  · rw [if_pos c6, if_pos c6]
    exact Or.inl ⟨_, rfl, rfl⟩
  rw [if_neg c6, if_neg c6]
  by_cases d1 : c.aLength = c.bLength
  · rw [if_pos d1, if_pos d1]
    exact Or.inr ⟨_, _, rfl, rfl, rfl, rfl⟩
  rw [if_neg d1, if_neg d1]
  by_cases d2 : c.aLength > c.bLength
  · rw [if_pos d2, if_pos d2]
    exact Or.inr ⟨_, _, rfl, rfl, rfl, rfl⟩
  · rw [if_neg d2, if_neg d2]
    exact Or.inr ⟨_, _, rfl, rfl, rfl, rfl⟩

/-- Two runs of `quorum_fast` on the same vectors, from any two arenas and
any two contents of the quorum bytes, both fail to return for the same
reason or both return the same code; the quorum bytes they leave are the
same, or both runs return the error without having written them. -/
theorem quorum_fast_lockstep (vectors : List Vec) (nodes1 nodes2 : Arena) (q1 q2 : Quorum) :
    (∃ e, quorum_fast vectors nodes1 q1 = .error e ∧
      quorum_fast vectors nodes2 q2 = .error e) ∨
    (∃ o1 o2, quorum_fast vectors nodes1 q1 = .ok o1 ∧ quorum_fast vectors nodes2 q2 = .ok o2 ∧
      o1.error = o2.error ∧
      (o1.quorum = o2.quorum ∨ (o1.error = 1 ∧ o1.quorum = q1 ∧ o2.quorum = q2))) := by
  unfold quorum_fast
  by_cases h1 : vectors.length < QUORUM_SOURCES_MIN
  · rw [if_pos h1, if_pos h1]
    exact Or.inl ⟨_, rfl, rfl⟩
  rw [if_neg h1, if_neg h1]
  by_cases h2 : vectors.length > QUORUM_SOURCES_MAX
  · rw [if_pos h2, if_pos h2]
    exact Or.inl ⟨_, rfl, rfl⟩
  rw [if_neg h2, if_neg h2]
  rcases quorum_fast_loop_independent vectors nodes1 nodes2 q1 q2 vectors 0
    { a := none, b := none, aIndex := 0, bIndex := 0, aLength := 0, bLength := 0 } with
    ⟨l1, l2⟩ | ⟨l1, l2⟩ | ⟨l1, l2⟩ | ⟨c, l1, l2⟩
  · rw [l1, l2]
    exact Or.inr ⟨_, _, rfl, rfl, rfl, Or.inr ⟨rfl, rfl, rfl⟩⟩
  · rw [l1, l2]
    rcases quorum_slow_lockstep vectors nodes1 nodes2 q1 q2 with
      ⟨e, s1, s2⟩ | ⟨o1, o2, s1, s2, herr, hquo⟩
    · rw [s1, s2]
      exact Or.inl ⟨e, rfl, rfl⟩
    · rw [s1, s2]
      exact Or.inr ⟨o1, o2, rfl, rfl, herr, Or.inl hquo⟩
  · rw [l1, l2]
    exact Or.inl ⟨_, rfl, rfl⟩
  · rw [l1, l2]
    simp only []
    rcases quorum_fast_decide_lockstep vectors.length nodes1 nodes2 c with
      ⟨e, s1, s2⟩ | ⟨o1, o2, s1, s2, herr, hquo⟩
    · exact Or.inl ⟨e, s1, s2⟩
    · exact Or.inr ⟨o1, o2, s1, s2, herr, Or.inl hquo⟩


/-! ## Claims about `quorum_iterate` -/

theorem iterated_of_code {r : Except Stop Iterated} {e : Int} (h : Iterated.code r = some e) :
    ∃ it, r = .ok it ∧ it.error = e := by
  cases r with
  | error s => simp [Iterated.code] at h
  | ok it => exact ⟨it, rfl, by simpa [Iterated.code] using h⟩

/-- The record position of a byte offset that is a multiple of the record
size. -/
theorem position_of_offset {objectSize k : Int} (hos : 0 < objectSize)
    (hk0 : 0 ≤ k) (hmul : k % objectSize = 0) :
    ∃ j : Nat, k = objectSize * (j : Int) ∧ k / objectSize = (j : Int) := by
  have hdiv : k = objectSize * (k / objectSize) := by
    have := Int.emod_add_ediv k objectSize
    rw [hmul, zero_add] at this
    exact this.symm
  have hnn : 0 ≤ k / objectSize := Int.ediv_nonneg hk0 (by omega)
  obtain ⟨j, hj⟩ := Int.eq_ofNat_of_zero_le hnn
  exact ⟨j, by rw [← hj]; exact hdiv, hj⟩

/-- C12. On a valid input (`objectSize >= vectorOffset + 32`, `sourceSize` a
positive multiple of `objectSize`, 1..255 sources) on which `quorum_iterate`
returns 0, at every record position `k` (a multiple of `objectSize` below
`sourceSize`): `quorum_fast` at vector offset `k + vectorOffset` returns 0
with one decision, whatever the arena and the previous quorum bytes; the
quorum entry number `k / objectSize` holds that decision; and the target
record at `k` holds the `objectSize` bytes at `k` of the leader source when
the length is positive, and `objectSize` zero bytes when the length is 0. -/
theorem quorum_iterate_success (vectorOffset objectSize sourceSize : Int)
    (sources : List Memory) (nodes : Arena) (quorum target : Memory) (hvo : 0 ≤ vectorOffset)
    (hos : vectorOffset + QUORUM_VECTOR ≤ objectSize) (hsize : objectSize ≤ sourceSize)
    (hmul : sourceSize % objectSize = 0)
    (hmin : 1 ≤ sources.length) (hmax : sources.length ≤ 255)
    (hcode : Iterated.code
      (quorum_iterate vectorOffset objectSize sourceSize sources nodes quorum target) = some 0) :
    ∃ r : Iterated,
      quorum_iterate vectorOffset objectSize sourceSize sources nodes quorum target = .ok r ∧
      r.error = 0 ∧
      ∀ k : Int, 0 ≤ k → k < sourceSize → k % objectSize = 0 →
        ∃ dec : Quorum,
          (∀ (nodes2 : Arena) (q2 : Quorum),
            Outcome.code (quorum_fast (vectorsAt sources (k + vectorOffset)) nodes2 q2)
              = some 0 ∧
            Outcome.bytes (quorum_fast (vectorsAt sources (k + vectorOffset)) nodes2 q2)
              = some dec) ∧
          r.quorum.quorum (QUORUM_SIZE * (k / objectSize)) = dec ∧
          (0 < dec.length → ∃ source, sources[dec.leader]? = some source ∧
            ∀ b : Int, 0 ≤ b → b < objectSize → r.target (k + b) = source (k + b)) ∧
          (dec.length = 0 →
            ∀ b : Int, 0 ≤ b → b < objectSize → r.target (k + b) = 0) := by
  have hv : (QUORUM_VECTOR : Int) = 32 := rfl
  have hospos : 0 < objectSize := by omega
  obtain ⟨r, n, hr, hran, hcase⟩ := quorum_iterate_spec vectorOffset objectSize sourceSize
    sources nodes quorum target hvo hos hsize hmul hmin hmax
  have herr : r.error = 0 := by
    rw [hr] at hcode
    simpa [Iterated.code] using hcode
  refine ⟨r, hr, herr, ?_⟩
  rcases hcase with ⟨-, hn, -⟩ | ⟨h1, -, -⟩
  swap
  · rw [herr] at h1
    omega
  intro k hk0 hk1 hkmul
  obtain ⟨j, hj, hjdiv⟩ := position_of_offset hospos hk0 hkmul
  have hjn : j < n := by
    by_contra hc
    have := record_le (le_of_lt hospos) (not_lt.1 hc)
    omega
  rw [hjdiv, hj]
  exact hran.decided j (Nat.zero_le _) hjn

set_option maxRecDepth 100000 in
theorem quorum_iterate_success_witness :
    ∃ r : Iterated,
      quorum_iterate 0 32 64 sampleRecords sampleArena sampleMemory sampleMemory = .ok r ∧
      r.error = 0 ∧
      ∀ k : Int, 0 ≤ k → k < 64 → k % 32 = 0 →
        ∃ dec : Quorum,
          (∀ (nodes2 : Arena) (q2 : Quorum),
            Outcome.code (quorum_fast (vectorsAt sampleRecords (k + 0)) nodes2 q2) = some 0 ∧
            Outcome.bytes (quorum_fast (vectorsAt sampleRecords (k + 0)) nodes2 q2)
              = some dec) ∧
          r.quorum.quorum (QUORUM_SIZE * (k / 32)) = dec ∧
          (0 < dec.length → ∃ source, sampleRecords[dec.leader]? = some source ∧
            ∀ b : Int, 0 ≤ b → b < 32 → r.target (k + b) = source (k + b)) ∧
          (dec.length = 0 → ∀ b : Int, 0 ≤ b → b < 32 → r.target (k + b) = 0) :=
  quorum_iterate_success 0 32 64 sampleRecords sampleArena sampleMemory sampleMemory
    (by decide) (by decide) (by decide) (by decide) (by decide) (by decide) (by decide)

theorem record_lt {size : Int} (h : 0 ≤ size) {j k : Nat} (hjk : size * (j : Int) < size * (k : Int)) :
    j < k := by
  by_contra hc
  have := record_le h (not_lt.1 hc)
  omega

/-- Two runs that wrote the same record positions wrote the same entries and
records there. -/
theorem Ran.agree {vectorOffset objectSize : Int} {sources : List Memory} {k1 k2 : Nat}
    {quorum1 target1 quorum2 target2 : Memory} {r1 r2 : Iterated}
    (h1 : Ran vectorOffset objectSize sources 0 k1 quorum1 target1 r1)
    (h2 : Ran vectorOffset objectSize sources 0 k2 quorum2 target2 r2) :
    ∀ j : Nat, j < k1 → j < k2 →
      r1.quorum.quorum (QUORUM_SIZE * j) = r2.quorum.quorum (QUORUM_SIZE * j) ∧
      ∀ b : Int, 0 ≤ b → b < objectSize →
        r1.target (objectSize * j + b) = r2.target (objectSize * j + b) := by
  intro j hj1 hj2
  obtain ⟨d1, hd1, hq1, hpos1, hzero1⟩ := h1.decided j (Nat.zero_le _) hj1
  obtain ⟨d2, hd2, hq2, hpos2, hzero2⟩ := h2.decided j (Nat.zero_le _) hj2
  have hd : d1 = d2 := by
    have e1 := (hd1 sampleArena ⟨0, 0, 0, 0⟩).2
    have e2 := (hd2 sampleArena ⟨0, 0, 0, 0⟩).2
    rw [e1] at e2
    exact Option.some.inj e2
  subst hd
  refine ⟨by rw [hq1, hq2], fun b hb0 hb1 => ?_⟩
  by_cases hlen : 0 < d1.length
  · obtain ⟨s1, hs1, ht1⟩ := hpos1 hlen
    obtain ⟨s2, hs2, ht2⟩ := hpos2 hlen
    rw [hs1] at hs2
    have hs := Option.some.inj hs2
    rw [ht1 b hb0 hb1, ht2 b hb0 hb1, hs]
  · rw [hzero1 (by omega) b hb0 hb1, hzero2 (by omega) b hb0 hb1]

/-- C13. On a valid input, let `k` be the first record position at which
`quorum_fast` returns the cyclic-reference error. Then `quorum_iterate`
returns that error; no target byte from record `k` on and no quorum byte
after entry `k` is changed; and when `k` is positive, the quorum entries and
target records before `k` are those that a run over the first `k` record
positions alone writes, which returns 0, whatever arena and buffers that run
starts from. -/
theorem quorum_iterate_first_error (vectorOffset objectSize sourceSize : Int)
    (sources : List Memory) (nodes : Arena) (quorum target : Memory) (k : Nat)
    (nodes0 : Arena) (q0 : Quorum) (hvo : 0 ≤ vectorOffset)
    (hos : vectorOffset + QUORUM_VECTOR ≤ objectSize) (hsize : objectSize ≤ sourceSize)
    (hmul : sourceSize % objectSize = 0)
    (hmin : 1 ≤ sources.length) (hmax : sources.length ≤ 255)
    (hk : objectSize * (k : Int) < sourceSize)
    (hbefore : ∀ j : Nat, j < k → Outcome.code
      (quorum_fast (vectorsAt sources (objectSize * j + vectorOffset)) nodes0 q0) = some 0)
    (hat : Outcome.code
      (quorum_fast (vectorsAt sources (objectSize * k + vectorOffset)) nodes0 q0) = some 1) :
    ∃ r : Iterated,
      quorum_iterate vectorOffset objectSize sourceSize sources nodes quorum target = .ok r ∧
      r.error = 1 ∧
      (∀ x : Int, objectSize * k ≤ x → r.target x = target x) ∧
      (∀ x : Int, QUORUM_SIZE * (k + 1) ≤ x → r.quorum x = quorum x) ∧
      (0 < k → ∀ (nodes2 : Arena) (quorum2 target2 : Memory), ∃ r2 : Iterated,
        quorum_iterate vectorOffset objectSize (objectSize * k) sources nodes2 quorum2 target2
          = .ok r2 ∧
        r2.error = 0 ∧
        ∀ j : Nat, j < k →
          r.quorum.quorum (QUORUM_SIZE * j) = r2.quorum.quorum (QUORUM_SIZE * j) ∧
          ∀ b : Int, 0 ≤ b → b < objectSize →
            r.target (objectSize * j + b) = r2.target (objectSize * j + b)) := by
  have hv : (QUORUM_VECTOR : Int) = 32 := rfl
  have hospos : 0 < objectSize := by omega
  have hnn : 0 ≤ objectSize := le_of_lt hospos
  -- a position that the run decided is not the failing one, and conversely
  have hone : ∀ j : Nat, (∀ (nodes2 : Arena) (q2 : Quorum), Outcome.code
      (quorum_fast (vectorsAt sources (objectSize * j + vectorOffset)) nodes2 q2) = some 1) →
      ¬ j < k := by
    intro j h1 hjk
    have := hbefore j hjk
    rw [h1 nodes0 q0] at this
    exact absurd this (by decide)
  have hzero : ∀ j : Nat, (∀ (nodes2 : Arena) (q2 : Quorum), Outcome.code
      (quorum_fast (vectorsAt sources (objectSize * j + vectorOffset)) nodes2 q2) = some 0) →
      j ≠ k := by
    intro j h0 hjk
    subst hjk
    rw [h0 nodes0 q0] at hat
    exact absurd hat (by decide)
  obtain ⟨r, n, hr, hran, hcase⟩ := quorum_iterate_spec vectorOffset objectSize sourceSize
    sources nodes quorum target hvo hos hsize hmul hmin hmax
  have hdec : ∀ j : Nat, j < n → j ≠ k := by
    intro j hj
    obtain ⟨dec, hd, -⟩ := hran.decided j (Nat.zero_le _) hj
    exact hzero j (fun nodes2 q2 => (hd nodes2 q2).1)
  have hnk : n = k ∧ r.error = 1 := by
    rcases hcase with ⟨-, c2, -⟩ | ⟨c1, -, c3⟩
    · have : k < n := record_lt hnn (by rw [c2]; exact hk)
      exact absurd rfl (hdec k this)
    · have h1 := hone n c3.1
      have h2 : ¬ k < n := fun h => hdec k h rfl
      exact ⟨by omega, c1⟩
  obtain ⟨hn, herr⟩ := hnk
  subst hn
  refine ⟨r, hr, herr, fun x hx => hran.targetFrame x (Or.inr hx),
    fun x hx => hran.quorumFrame x (Or.inr hx), ?_⟩
  intro hpos nodes2 quorum2 target2
  obtain ⟨r2, n2, hr2, hran2, hcase2⟩ := quorum_iterate_spec vectorOffset objectSize
    (objectSize * (n : Int)) sources nodes2 quorum2 target2 hvo hos
    (by
      have := record_le hnn (show 1 ≤ n from hpos)
      simpa using this)
    (Int.mul_emod_right _ _) hmin hmax
  rcases hcase2 with ⟨c1, c2, -⟩ | ⟨-, c2, c3⟩
  · have hn2 : n2 = n := by
      have h1 : ¬ n2 < n := fun h => by
        have := record_le hnn (show n2 + 1 ≤ n from h)
        rw [record_succ] at this
        omega
      have h2 : ¬ n < n2 := fun h => by
        have := record_le hnn (show n + 1 ≤ n2 from h)
        rw [record_succ] at this
        omega
      omega
    subst hn2
    exact ⟨r2, hr2, c1, fun j hj => hran.agree hran2 j hj hj⟩
  · exact absurd (record_lt hnn c2) (hone n2 c3.1)

set_option maxRecDepth 100000 in
theorem quorum_iterate_first_error_witness :
    ∃ r : Iterated,
      quorum_iterate 0 32 64 sampleSources sampleArena sampleMemory sampleMemory = .ok r ∧
      r.error = 1 ∧
      (∀ x : Int, 32 * ((1 : Nat) : Int) ≤ x → r.target x = sampleMemory x) ∧
      (∀ x : Int, QUORUM_SIZE * (((1 : Nat) : Int) + 1) ≤ x → r.quorum x = sampleMemory x) ∧
      (0 < 1 → ∀ (nodes2 : Arena) (quorum2 target2 : Memory), ∃ r2 : Iterated,
        quorum_iterate 0 32 (32 * ((1 : Nat) : Int)) sampleSources nodes2 quorum2 target2
          = .ok r2 ∧
        r2.error = 0 ∧
        ∀ j : Nat, j < 1 →
          r.quorum.quorum (QUORUM_SIZE * j) = r2.quorum.quorum (QUORUM_SIZE * j) ∧
          ∀ b : Int, 0 ≤ b → b < 32 → r.target (32 * j + b) = r2.target (32 * j + b)) :=
  quorum_iterate_first_error 0 32 64 sampleSources sampleArena sampleMemory sampleMemory 1
    sampleArena sampleQuorum (by decide) (by decide) (by decide) (by decide) (by decide)
    (by decide) (by decide)
    (fun j hj => by
      have h0 : j = 0 := by omega
      subst h0
      decide)
    (by decide)


/-- C14. The arena and the previous content of the quorum bytes do not
matter. For any two arenas and any two previous contents of the quorum bytes,
`quorum_fast` on the same 1..255 vectors returns the same code, 0 or 1, and
when that is 0 leaves the same four quorum bytes. Hence two runs of
`quorum_iterate` on the same valid input, from any two arenas and any two
contents of the quorum and target buffers, return the same code after the
same number `k` of decided record positions; the quorum entries and target
records of those positions are the same in both runs; entry `k` is the same
in both runs or is in both what the buffer held; and every other byte of
both buffers is what the buffer held. -/
theorem quorum_fast_deterministic (vectors : List Vec) (nodes1 nodes2 : Arena) (q1 q2 : Quorum)
    (vectorOffset objectSize sourceSize : Int) (sources : List Memory)
    (quorum1 quorum2 target1 target2 : Memory)
    (hvmin : 1 ≤ vectors.length) (hvmax : vectors.length ≤ 255)
    (hvo : 0 ≤ vectorOffset) (hos : vectorOffset + QUORUM_VECTOR ≤ objectSize)
    (hsize : objectSize ≤ sourceSize) (hmul : sourceSize % objectSize = 0)
    (hmin : 1 ≤ sources.length) (hmax : sources.length ≤ 255) :
    (Outcome.code (quorum_fast vectors nodes1 q1)
        = Outcome.code (quorum_fast vectors nodes2 q2) ∧
      (Outcome.code (quorum_fast vectors nodes1 q1) = some 0 ∨
        Outcome.code (quorum_fast vectors nodes1 q1) = some 1) ∧
      (Outcome.code (quorum_fast vectors nodes1 q1) = some 0 →
        Outcome.bytes (quorum_fast vectors nodes1 q1)
          = Outcome.bytes (quorum_fast vectors nodes2 q2))) ∧
    ∃ (r1 r2 : Iterated) (k : Nat),
      quorum_iterate vectorOffset objectSize sourceSize sources nodes1 quorum1 target1
        = .ok r1 ∧
      quorum_iterate vectorOffset objectSize sourceSize sources nodes2 quorum2 target2
        = .ok r2 ∧
      r1.error = r2.error ∧ (r1.error = 0 ∨ r1.error = 1) ∧
      (r1.error = 0 → objectSize * (k : Int) = sourceSize) ∧
      (r1.error = 1 → objectSize * (k : Int) < sourceSize) ∧
      (∀ j : Nat, j < k →
        r1.quorum.quorum (QUORUM_SIZE * j) = r2.quorum.quorum (QUORUM_SIZE * j) ∧
        ∀ b : Int, 0 ≤ b → b < objectSize →
          r1.target (objectSize * j + b) = r2.target (objectSize * j + b)) ∧
      (r1.quorum.quorum (QUORUM_SIZE * k) = r2.quorum.quorum (QUORUM_SIZE * k) ∨
        (r1.quorum.quorum (QUORUM_SIZE * k) = quorum1.quorum (QUORUM_SIZE * k) ∧
         r2.quorum.quorum (QUORUM_SIZE * k) = quorum2.quorum (QUORUM_SIZE * k))) ∧
      (∀ x : Int, x < 0 ∨ QUORUM_SIZE * (k + 1) ≤ x →
        r1.quorum x = quorum1 x ∧ r2.quorum x = quorum2 x) ∧
      (∀ x : Int, x < 0 ∨ objectSize * k ≤ x →
        r1.target x = target1 x ∧ r2.target x = target2 x) := by
  have hv : (QUORUM_VECTOR : Int) = 32 := rfl
  have hnn : 0 ≤ objectSize := by omega
  refine ⟨?_, ?_⟩
  · obtain ⟨o1, o2, h1, h2, herr, h01, hq⟩ :=
      quorum_fast_independent vectors nodes1 nodes2 q1 q2 hvmin hvmax
    rw [h1, h2]
    refine ⟨by simp only [Outcome.code, herr], ?_, ?_⟩
    · rcases h01 with h | h
      · exact Or.inl (by simp only [Outcome.code, h])
      · exact Or.inr (by simp only [Outcome.code, h])
    · intro h
      have h0 : o1.error = 0 := by simpa [Outcome.code] using h
      simp only [Outcome.bytes, hq h0]
  obtain ⟨r1, k1, hr1, hran1, hcase1⟩ := quorum_iterate_spec vectorOffset objectSize sourceSize
    sources nodes1 quorum1 target1 hvo hos hsize hmul hmin hmax
  obtain ⟨r2, k2, hr2, hran2, hcase2⟩ := quorum_iterate_spec vectorOffset objectSize sourceSize
    sources nodes2 quorum2 target2 hvo hos hsize hmul hmin hmax
  -- a decided position is not a failing one
  have hclash : ∀ (j : Nat) (dec : Quorum),
      (∀ (nodes : Arena) (q : Quorum),
        Outcome.code (quorum_fast (vectorsAt sources (objectSize * j + vectorOffset)) nodes q)
          = some 0 ∧
        Outcome.bytes (quorum_fast (vectorsAt sources (objectSize * j + vectorOffset)) nodes q)
          = some dec) →
      (∀ (nodes : Arena) (q : Quorum),
        Outcome.code (quorum_fast (vectorsAt sources (objectSize * j + vectorOffset)) nodes q)
          = some 1) → False := by
    intro j dec h0 h1
    have := (h0 sampleArena sampleQuorum).1
    rw [h1 sampleArena sampleQuorum] at this
    exact absurd this (by decide)
  have hframe : ∀ (k : Nat) (quorum target : Memory) (r : Iterated),
      Ran vectorOffset objectSize sources 0 k quorum target r →
      (∀ x : Int, x < 0 ∨ QUORUM_SIZE * (k + 1) ≤ x → r.quorum x = quorum x) ∧
      (∀ x : Int, x < 0 ∨ objectSize * k ≤ x → r.target x = target x) := by
    intro k quorum target r hran
    refine ⟨fun x hx => hran.quorumFrame x ?_, fun x hx => hran.targetFrame x ?_⟩
    · rcases hx with h | h
      · left
        simpa using h
      · exact Or.inr h
    · rcases hx with h | h
      · left
        simpa using h
      · exact Or.inr h
  have hk : k1 = k2 := by
    rcases hcase1 with ⟨-, a2, -⟩ | ⟨-, a2, a3, -⟩
    · rcases hcase2 with ⟨-, b2, -⟩ | ⟨-, b2, b3, -⟩
      · have h1 : ¬ k1 < k2 := fun h => by
          have := record_le hnn (show k1 + 1 ≤ k2 from h)
          rw [record_succ] at this
          omega
        have h2 : ¬ k2 < k1 := fun h => by
          have := record_le hnn (show k2 + 1 ≤ k1 from h)
          rw [record_succ] at this
          omega
        omega
      · have hlt : k2 < k1 := record_lt hnn (by rw [a2]; exact b2)
        obtain ⟨dec, hd, -⟩ := hran1.decided k2 (Nat.zero_le _) hlt
        exact (hclash k2 dec hd b3).elim
    · rcases hcase2 with ⟨-, b2, -⟩ | ⟨-, b2, b3, -⟩
      · have hlt : k1 < k2 := record_lt hnn (by rw [b2]; exact a2)
        obtain ⟨dec, hd, -⟩ := hran2.decided k1 (Nat.zero_le _) hlt
        exact (hclash k1 dec hd a3).elim
      · have h1 : ¬ k1 < k2 := fun h => by
          obtain ⟨dec, hd, -⟩ := hran2.decided k1 (Nat.zero_le _) h
          exact hclash k1 dec hd a3
        have h2 : ¬ k2 < k1 := fun h => by
          obtain ⟨dec, hd, -⟩ := hran1.decided k2 (Nat.zero_le _) h
          exact hclash k2 dec hd b3
        omega
  subst hk
  obtain ⟨f1, f2⟩ := hframe k1 quorum1 target1 r1 hran1
  obtain ⟨g1, g2⟩ := hframe k1 quorum2 target2 r2 hran2
  refine ⟨r1, r2, k1, hr1, hr2, ?_, ?_, ?_, ?_, fun j hj => hran1.agree hran2 j hj hj, ?_,
    fun x hx => ⟨f1 x hx, g1 x hx⟩, fun x hx => ⟨f2 x hx, g2 x hx⟩⟩
  · rcases hcase1 with ⟨a1, a2, -⟩ | ⟨a1, a2, a3, -⟩
    · rcases hcase2 with ⟨b1, -, -⟩ | ⟨-, b2, -, -⟩
      · rw [a1, b1]
      · omega
    · rcases hcase2 with ⟨-, b2, -⟩ | ⟨b1, -, -, -⟩
      · omega
      · rw [a1, b1]
  · rcases hcase1 with ⟨a1, -, -⟩ | ⟨a1, -, -, -⟩
    · exact Or.inl a1
    · exact Or.inr a1
  · intro h0
    rcases hcase1 with ⟨-, a2, -⟩ | ⟨a1, -, -, -⟩
    · exact a2
    · omega
  · intro h1
    rcases hcase1 with ⟨a1, -, -⟩ | ⟨-, a2, -, -⟩
    · omega
    · exact a2
  · rcases hcase1 with ⟨-, a2, a3⟩ | ⟨-, a2, -, n1, o1, a4, a5⟩
    · rcases hcase2 with ⟨-, -, b3⟩ | ⟨-, b2, -, -⟩
      · right
        exact ⟨Memory.quorum_congr (fun x hx _ => a3 x hx),
          Memory.quorum_congr (fun x hx _ => b3 x hx)⟩
      · omega
    · rcases hcase2 with ⟨-, b2, -⟩ | ⟨-, -, -, n2, o2, b4, b5⟩
      · omega
      · rcases quorum_fast_lockstep (vectorsAt sources (objectSize * k1 + vectorOffset)) n1 n2
          (quorum1.quorum (QUORUM_SIZE * k1)) (quorum2.quorum (QUORUM_SIZE * k1)) with
          ⟨e, s1, -⟩ | ⟨p1, p2, s1, s2, -, hq⟩
        · rw [a4] at s1
          exact absurd s1 (by simp)
        · rw [a4] at s1
          rw [b4] at s2
          rw [← Except.ok.inj s1, ← Except.ok.inj s2] at hq
          rw [a5, b5]
          rcases hq with h | ⟨-, h1, h2⟩
          · exact Or.inl h
          · exact Or.inr ⟨h1, h2⟩

set_option maxRecDepth 100000 in
theorem quorum_fast_deterministic_witness :
    (Outcome.code (quorum_fast sampleChain sampleArena sampleQuorum)
        = Outcome.code (quorum_fast sampleChain sampleArena ⟨0, 0, 0, 0⟩) ∧
      (Outcome.code (quorum_fast sampleChain sampleArena sampleQuorum) = some 0 ∨
        Outcome.code (quorum_fast sampleChain sampleArena sampleQuorum) = some 1) ∧
      (Outcome.code (quorum_fast sampleChain sampleArena sampleQuorum) = some 0 →
        Outcome.bytes (quorum_fast sampleChain sampleArena sampleQuorum)
          = Outcome.bytes (quorum_fast sampleChain sampleArena ⟨0, 0, 0, 0⟩))) ∧
    ∃ (r1 r2 : Iterated) (k : Nat),
      quorum_iterate 0 32 64 sampleSources sampleArena sampleMemory sampleMemory = .ok r1 ∧
      quorum_iterate 0 32 64 sampleSources sampleArena (fun _ => 0) (fun _ => 0) = .ok r2 ∧
      r1.error = r2.error ∧ (r1.error = 0 ∨ r1.error = 1) ∧
      (r1.error = 0 → 32 * (k : Int) = 64) ∧
      (r1.error = 1 → 32 * (k : Int) < 64) ∧
      (∀ j : Nat, j < k →
        r1.quorum.quorum (QUORUM_SIZE * j) = r2.quorum.quorum (QUORUM_SIZE * j) ∧
        ∀ b : Int, 0 ≤ b → b < 32 → r1.target (32 * j + b) = r2.target (32 * j + b)) ∧
      (r1.quorum.quorum (QUORUM_SIZE * k) = r2.quorum.quorum (QUORUM_SIZE * k) ∨
        (r1.quorum.quorum (QUORUM_SIZE * k) = sampleMemory.quorum (QUORUM_SIZE * k) ∧
         r2.quorum.quorum (QUORUM_SIZE * k)
          = Memory.quorum (fun _ => 0) (QUORUM_SIZE * k))) ∧
      (∀ x : Int, x < 0 ∨ QUORUM_SIZE * (k + 1) ≤ x →
        r1.quorum x = sampleMemory x ∧ r2.quorum x = (fun _ => 0 : Memory) x) ∧
      (∀ x : Int, x < 0 ∨ 32 * k ≤ x →
        r1.target x = sampleMemory x ∧ r2.target x = (fun _ => 0 : Memory) x) :=
  quorum_fast_deterministic sampleChain sampleArena sampleArena sampleQuorum ⟨0, 0, 0, 0⟩
    0 32 64 sampleSources sampleMemory (fun _ => 0) sampleMemory (fun _ => 0)
    (by decide) (by decide) (by decide) (by decide) (by decide) (by decide) (by decide)
    (by decide)

/-! ## Claims about the leader byte and the fork -/

/-- C21. When `quorum_fast` returns 0 on 1..255 sources, on the fast or on the
slow path, the leader byte written is below the number of sources. Hence for
the vectors that 1..255 sources hold at any offset, the leader byte of a
decision indexes a source, and on a valid input `quorum_iterate` returns: it
makes no read of `sources[leader]` outside the sources. -/
theorem quorum_fast_leader_in_sources (vectors : List Vec) (nodes : Arena) (quorum q : Quorum)
    (vectorOffset objectSize sourceSize : Int) (sources : List Memory) (nodes0 : Arena)
    (quorum0 target0 : Memory)
    (hvmin : 1 ≤ vectors.length) (hvmax : vectors.length ≤ 255)
    (hcode : Outcome.code (quorum_fast vectors nodes quorum) = some 0)
    (hbytes : Outcome.bytes (quorum_fast vectors nodes quorum) = some q)
    (hvo : 0 ≤ vectorOffset) (hos : vectorOffset + QUORUM_VECTOR ≤ objectSize)
    (hsize : objectSize ≤ sourceSize) (hmul : sourceSize % objectSize = 0)
    (hmin : 1 ≤ sources.length) (hmax : sources.length ≤ 255) :
    q.leader < vectors.length ∧
    (∀ (offset : Int) (nodes2 : Arena) (q2 dec : Quorum),
      Outcome.code (quorum_fast (vectorsAt sources offset) nodes2 q2) = some 0 →
      Outcome.bytes (quorum_fast (vectorsAt sources offset) nodes2 q2) = some dec →
      ∃ source, sources[dec.leader]? = some source) ∧
    ∃ r : Iterated,
      quorum_iterate vectorOffset objectSize sourceSize sources nodes0 quorum0 target0
        = .ok r := by
  refine ⟨?_, ?_, ?_⟩
  · obtain ⟨out, hout, herr⟩ := outcome_of_code hcode
    have hq := bytes_of_ok hout hbytes
    have := quorum_fast_leader_lt hvmin hvmax hout herr
    rw [hq] at this
    exact this
  · intro offset nodes2 q2 dec hc hb
    have hlen := vectorsAt_length sources offset
    obtain ⟨out, hout, herr⟩ := outcome_of_code hc
    have hq := bytes_of_ok hout hb
    have hlt := quorum_fast_leader_lt (by omega) (by omega) hout herr
    rw [hq, hlen] at hlt
    exact ⟨sources[dec.leader], List.getElem?_eq_getElem hlt⟩
  · obtain ⟨r, k, hr, -⟩ := quorum_iterate_spec vectorOffset objectSize sourceSize sources
      nodes0 quorum0 target0 hvo hos hsize hmul hmin hmax
    exact ⟨r, hr⟩

set_option maxRecDepth 100000 in
theorem quorum_fast_leader_in_sources_witness :
    (⟨2, 3, 2, 0⟩ : Quorum).leader < sampleChain.length ∧
    (∀ (offset : Int) (nodes2 : Arena) (q2 dec : Quorum),
      Outcome.code (quorum_fast (vectorsAt sampleRecords offset) nodes2 q2) = some 0 →
      Outcome.bytes (quorum_fast (vectorsAt sampleRecords offset) nodes2 q2) = some dec →
      ∃ source, sampleRecords[dec.leader]? = some source) ∧
    ∃ r : Iterated,
      quorum_iterate 0 32 64 sampleRecords sampleArena sampleMemory sampleMemory = .ok r :=
  quorum_fast_leader_in_sources sampleChain sampleArena sampleQuorum ⟨2, 3, 2, 0⟩ 0 32 64
    sampleRecords sampleArena sampleMemory sampleMemory (by decide) (by decide) (by decide)
    (by decide) (by decide) (by decide) (by decide) (by decide) (by decide) (by decide)

/-- The length byte of a successful decision against its forked byte: the
forked byte is 0 or 1; with 0 the repair byte is below the length byte, with
1 the length byte is 0. -/
theorem quorum_fast_forked_length {vectors : List Vec} {nodes : Arena} {quorum q : Quorum}
    (hmin : 1 ≤ vectors.length) (hmax : vectors.length ≤ 255)
    (hcode : Outcome.code (quorum_fast vectors nodes quorum) = some 0)
    (hbytes : Outcome.bytes (quorum_fast vectors nodes quorum) = some q) :
    (q.forked = 0 ∨ q.forked = 1) ∧ (q.forked = 0 → q.repair < q.length) ∧
    (q.forked = 1 → q.length = 0) := by
  obtain ⟨q2, hdec, hl, hr, hf, -, -⟩ := quorum_fast_returns_zero hmin hmax hcode hbytes
  obtain ⟨M, m, hw, hzero, hfork⟩ := hdec.winner
  rw [hl, hr, hf]
  refine ⟨hdec.forked, ?_, fun h1 => (hfork h1).2.1⟩
  intro h0
  obtain ⟨hlen, -, ⟨y, hlink, hy⟩, -⟩ := hzero h0
  obtain ⟨k2, hk2, -, hlt⟩ := hw.1.link hlink
  have hrep := hy.functional hk2
  omega

/-- C22. When `quorum_fast` returns 0 on 1..255 sources, the forked byte is 0
or 1; with forked = 0 the repair byte is below the length byte, so the length
is at least 1; and the length byte is 0 exactly when forked = 1. Hence on a
valid input `quorum_iterate` returns, and at each of the `n` record positions
it decided (all of them when it returns 0) the target record is zero bytes
when the decision is forked and the leader's record when it is not. -/
theorem quorum_fast_zero_length_iff_forked (vectors : List Vec) (nodes : Arena)
    (quorum q : Quorum) (vectorOffset objectSize sourceSize : Int) (sources : List Memory)
    (nodes0 : Arena) (quorum0 target0 : Memory)
    (hvmin : 1 ≤ vectors.length) (hvmax : vectors.length ≤ 255)
    (hcode : Outcome.code (quorum_fast vectors nodes quorum) = some 0)
    (hbytes : Outcome.bytes (quorum_fast vectors nodes quorum) = some q)
    (hvo : 0 ≤ vectorOffset) (hos : vectorOffset + QUORUM_VECTOR ≤ objectSize)
    (hsize : objectSize ≤ sourceSize) (hmul : sourceSize % objectSize = 0)
    (hmin : 1 ≤ sources.length) (hmax : sources.length ≤ 255) :
    ((q.forked = 0 ∨ q.forked = 1) ∧ (q.forked = 0 → q.repair < q.length ∧ 1 ≤ q.length) ∧
      (q.length = 0 ↔ q.forked = 1)) ∧
    ∃ (r : Iterated) (n : Nat),
      quorum_iterate vectorOffset objectSize sourceSize sources nodes0 quorum0 target0
        = .ok r ∧
      (r.error = 0 → objectSize * (n : Int) = sourceSize) ∧
      ∀ j : Nat, j < n → ∃ dec : Quorum,
        (∀ (nodes2 : Arena) (q2 : Quorum),
          Outcome.code (quorum_fast (vectorsAt sources (objectSize * j + vectorOffset))
            nodes2 q2) = some 0 ∧
          Outcome.bytes (quorum_fast (vectorsAt sources (objectSize * j + vectorOffset))
            nodes2 q2) = some dec) ∧
        r.quorum.quorum (QUORUM_SIZE * j) = dec ∧
        (dec.forked = 0 ∨ dec.forked = 1) ∧
        (dec.forked = 1 → dec.length = 0 ∧
          ∀ b : Int, 0 ≤ b → b < objectSize → r.target (objectSize * j + b) = 0) ∧
        (dec.forked = 0 → 0 < dec.length ∧ ∃ source, sources[dec.leader]? = some source ∧
          ∀ b : Int, 0 ≤ b → b < objectSize →
            r.target (objectSize * j + b) = source (objectSize * j + b)) := by
  refine ⟨?_, ?_⟩
  · obtain ⟨h01, h0, h1⟩ := quorum_fast_forked_length hvmin hvmax hcode hbytes
    refine ⟨h01, fun h => ⟨h0 h, by have := h0 h; omega⟩, fun h => ?_, h1⟩
    rcases h01 with hf | hf
    · have := h0 hf
      omega
    · exact hf
  · obtain ⟨r, n, hr, hran, hcase⟩ := quorum_iterate_spec vectorOffset objectSize sourceSize
      sources nodes0 quorum0 target0 hvo hos hsize hmul hmin hmax
    refine ⟨r, n, hr, ?_, ?_⟩
    · intro herr
      rcases hcase with ⟨-, c2, -⟩ | ⟨c1, -⟩
      · exact c2
      · rw [herr] at c1
        omega
    · intro j hj
      obtain ⟨dec, hd, hq, hpos, hzero⟩ := hran.decided j (Nat.zero_le _) hj
      have hlen := vectorsAt_length sources (objectSize * j + vectorOffset)
      obtain ⟨h01, h0, h1⟩ := @quorum_fast_forked_length _ sampleArena sampleQuorum dec
        (by omega) (by omega) (hd sampleArena sampleQuorum).1 (hd sampleArena sampleQuorum).2
      refine ⟨dec, hd, hq, h01, fun hf => ⟨h1 hf, hzero (h1 hf)⟩, fun hf => ?_⟩
      have hlt := h0 hf
      exact ⟨by omega, hpos (by omega)⟩

set_option maxRecDepth 100000 in
theorem quorum_fast_zero_length_iff_forked_witness :
    (((⟨2, 3, 2, 0⟩ : Quorum).forked = 0 ∨ (⟨2, 3, 2, 0⟩ : Quorum).forked = 1) ∧
      ((⟨2, 3, 2, 0⟩ : Quorum).forked = 0 →
        (⟨2, 3, 2, 0⟩ : Quorum).repair < (⟨2, 3, 2, 0⟩ : Quorum).length ∧
        1 ≤ (⟨2, 3, 2, 0⟩ : Quorum).length) ∧
      ((⟨2, 3, 2, 0⟩ : Quorum).length = 0 ↔ (⟨2, 3, 2, 0⟩ : Quorum).forked = 1)) ∧
    ∃ (r : Iterated) (n : Nat),
      quorum_iterate 0 32 64 sampleRecords sampleArena sampleMemory sampleMemory = .ok r ∧
      (r.error = 0 → 32 * (n : Int) = 64) ∧
      ∀ j : Nat, j < n → ∃ dec : Quorum,
        (∀ (nodes2 : Arena) (q2 : Quorum),
          Outcome.code (quorum_fast (vectorsAt sampleRecords (32 * j + 0)) nodes2 q2)
            = some 0 ∧
          Outcome.bytes (quorum_fast (vectorsAt sampleRecords (32 * j + 0)) nodes2 q2)
            = some dec) ∧
        r.quorum.quorum (QUORUM_SIZE * j) = dec ∧
        (dec.forked = 0 ∨ dec.forked = 1) ∧
        (dec.forked = 1 → dec.length = 0 ∧
          ∀ b : Int, 0 ≤ b → b < 32 → r.target (32 * j + b) = 0) ∧
        (dec.forked = 0 → 0 < dec.length ∧ ∃ source, sampleRecords[dec.leader]? = some source ∧
          ∀ b : Int, 0 ≤ b → b < 32 → r.target (32 * j + b) = source (32 * j + b)) :=
  quorum_fast_zero_length_iff_forked sampleChain sampleArena sampleQuorum ⟨2, 3, 2, 0⟩ 0 32 64
    sampleRecords sampleArena sampleMemory sampleMemory (by decide) (by decide) (by decide)
    (by decide) (by decide) (by decide) (by decide) (by decide) (by decide) (by decide)

/-! ## Claim about the source index of a node -/

/-- The index `quorum_nodes` stores for an ID that no source before its lowest
holder names as predecessor is that of the lowest holder. -/
theorem firstSeen_of_lowest : ∀ (l : List Vec) (index : Nat) (x : Ident) (j : Nat),
    LowestIndex l x j → (∀ (k : Nat) (u : Vec), k < j → l[k]? = some u → u.predecessor_id ≠ x) →
    firstSeen l index x = index + j := by
  intro l
  induction l with
  | nil =>
    intro index x j h _
    obtain ⟨⟨v, hv, -⟩, -⟩ := h
    simp at hv
  | cons w rest ih =>
    intro index x j h hpred
    obtain ⟨⟨v, hv, hvx⟩, hlow⟩ := h
    rw [firstSeen]
    cases j with
    | zero =>
      simp only [List.getElem?_cons_zero, Option.some.injEq] at hv
      rw [hv, if_pos hvx]
      rfl
    | succ j =>
      have hw1 : w.own_id ≠ x := hlow 0 w (by omega) List.getElem?_cons_zero
      have hw2 : w.predecessor_id ≠ x := hpred 0 w (by omega) List.getElem?_cons_zero
      rw [if_neg hw1, if_neg hw2]
      rw [List.getElem?_cons_succ] at hv
      rw [ih (index + 1) x j ⟨⟨v, hv, hvx⟩, fun k u hk hu =>
        hlow (k + 1) u (by omega) (by rw [List.getElem?_cons_succ]; exact hu)⟩
        (fun k u hk hu => hpred (k + 1) u (by omega) (by rw [List.getElem?_cons_succ]; exact hu))]
      omega

/-- The index `quorum_nodes` stores for an ID that a source before its lowest
holder names as predecessor is 0: the node is reserved there and the index is
not stored when the holder comes. -/
theorem firstSeen_of_earlier : ∀ (l : List Vec) (index : Nat) (x : Ident) (j : Nat),
    LowestIndex l x j → (∃ (k : Nat) (u : Vec), k < j ∧ l[k]? = some u ∧ u.predecessor_id = x) →
    firstSeen l index x = 0 := by
  intro l
  induction l with
  | nil =>
    intro index x j h _
    obtain ⟨⟨v, hv, -⟩, -⟩ := h
    simp at hv
  | cons w rest ih =>
    intro index x j h hpred
    obtain ⟨⟨v, hv, hvx⟩, hlow⟩ := h
    obtain ⟨k, u, hk, hu, hux⟩ := hpred
    rw [firstSeen]
    cases j with
    | zero => omega
    | succ j =>
      have hw1 : w.own_id ≠ x := hlow 0 w (by omega) List.getElem?_cons_zero
      rw [if_neg hw1]
      by_cases hw2 : w.predecessor_id = x
      · rw [if_pos hw2]
      · rw [if_neg hw2]
        rw [List.getElem?_cons_succ] at hv
        cases k with
        | zero =>
          simp only [List.getElem?_cons_zero, Option.some.injEq] at hu
          rw [hu] at hw2
          exact absurd hux hw2
        | succ k =>
          rw [List.getElem?_cons_succ] at hu
          exact ih (index + 1) x j ⟨⟨v, hv, hvx⟩, fun k2 u2 hk2 hu2 =>
            hlow (k2 + 1) u2 (by omega) (by rw [List.getElem?_cons_succ]; exact hu2)⟩
            ⟨k, u, by omega, hu, hux⟩

/-- A held ID has a lowest holder. -/
theorem lowest_of_held : ∀ (l : List Vec) (x : Ident), holders l x ≠ 0 →
    ∃ j, LowestIndex l x j := by
  intro l
  induction l with
  | nil =>
    intro x h
    simp [holders] at h
  | cons w rest ih =>
    intro x h
    by_cases hw : w.own_id = x
    · exact ⟨0, ⟨w, List.getElem?_cons_zero, hw⟩, fun k u hk => absurd hk (Nat.not_lt_zero _)⟩
    · have hrest : holders rest x ≠ 0 := by
        obtain ⟨v, hv, hvx⟩ := holders_ne_zero.1 h
        rcases List.mem_cons.1 hv with h1 | h1
        · rw [h1] at hvx
          exact absurd hvx hw
        · exact holders_ne_zero.2 ⟨v, h1, hvx⟩
      obtain ⟨j, ⟨v, hv, hvx⟩, hlow⟩ := ih x hrest
      refine ⟨j + 1, ⟨v, by rw [List.getElem?_cons_succ]; exact hv, hvx⟩, ?_⟩
      intro k u hk hu
      cases k with
      | zero =>
        simp only [List.getElem?_cons_zero, Option.some.injEq] at hu
        rw [← hu]
        exact hw
      | succ k =>
        rw [List.getElem?_cons_succ] at hu
        exact hlow k u (by omega) hu

/-- The source index that `quorum_nodes` leaves in a node with a positive
count. The ID of the node has a lowest holder `j`. If no source before `j`
names the ID as its predecessor, the index is `j`. If one does, the index is
0, and source 0 does not hold the ID. -/
theorem quorum_nodes_index_spec (vectors : List Vec) (nodes : Arena)
    (hmin : 1 ≤ vectors.length) (hmax : vectors.length ≤ 255) :
    ∃ (nodes2 : Arena) (n : Nat),
      quorum_nodes vectors nodes = .ok (nodes2, QUORUM_NODE * (n : Int)) ∧
      ∀ i, i < n → 0 < (entry nodes2 i).count →
        ∃ j, LowestIndex vectors (entry nodes2 i).id j ∧
          ((∀ (k : Nat) (u : Vec), k < j → vectors[k]? = some u →
              u.predecessor_id ≠ (entry nodes2 i).id) →
            (entry nodes2 i).index = j) ∧
          ((∃ (k : Nat) (u : Vec), k < j ∧ vectors[k]? = some u ∧
              u.predecessor_id = (entry nodes2 i).id) →
            (entry nodes2 i).index = 0 ∧ 0 < j ∧
            ∀ v, vectors[(entry nodes2 i).index]? = some v →
              v.own_id ≠ (entry nodes2 i).id) := by
  obtain ⟨nodes2, n, hbuild, hbuilt⟩ := quorum_nodes_spec vectors nodes hmin hmax
  refine ⟨nodes2, n, hbuild, ?_⟩
  intro i hi hcount
  rw [hbuilt.fields.count i hi] at hcount
  obtain ⟨j, hj⟩ := lowest_of_held vectors _ (by omega : holders vectors (entry nodes2 i).id ≠ 0)
  refine ⟨j, hj, ?_, ?_⟩
  · intro hpred
    rw [hbuilt.fields.index i hi, firstSeen_of_lowest vectors 0 _ j hj hpred, Nat.zero_add]
  · intro hpred
    have h0 : (entry nodes2 i).index = 0 := by
      rw [hbuilt.fields.index i hi, firstSeen_of_earlier vectors 0 _ j hj hpred]
    obtain ⟨k, -, hk, -, -⟩ := hpred
    refine ⟨h0, by omega, ?_⟩
    intro v hv
    rw [h0] at hv
    exact hj.2 0 v (by omega) hv

/-- C23 fails on the code. On `BB|AA`, `AA|00` the table built by
`quorum_nodes` has three nodes. Node 1 holds `AA`, reserved as the
predecessor of source 0 and then counted for source 1: its count is 1 and its
index is 0, but source 0 holds `BB`; the holder of `AA` is source 1. Node 0,
inserted for `BB` by the other branch, does carry the index of its holder. -/
theorem quorum_nodes_index_stale :
    ∃ nodes2 : Arena,
      quorum_nodes sampleStale sampleArena = .ok (nodes2, QUORUM_NODE * 3) ∧
      (nodes2 (QUORUM_NODE * 1)).id = Ident.fill 0xAA ∧
      (nodes2 (QUORUM_NODE * 1)).count = 1 ∧
      (nodes2 (QUORUM_NODE * 1)).index = 0 ∧
      sampleStale[0]? = some ⟨Ident.fill 0xBB, Ident.fill 0xAA⟩ ∧
      sampleStale[1]? = some ⟨Ident.fill 0xAA, Ident.fill 0⟩ ∧
      (¬ ∃ v, sampleStale[(nodes2 (QUORUM_NODE * 1)).index]? = some v ∧
        v.own_id = (nodes2 (QUORUM_NODE * 1)).id) ∧
      (nodes2 (QUORUM_NODE * 0)).id = Ident.fill 0xBB ∧
      (nodes2 (QUORUM_NODE * 0)).count = 1 ∧
      (nodes2 (QUORUM_NODE * 0)).index = 0 := by
  refine ⟨_, rfl, by decide, by decide, by decide, by decide, by decide, ?_, by decide,
    by decide, by decide⟩
  rintro ⟨v, hv, hvx⟩
  have h0 : sampleStale[0]? = some v := hv
  have hv2 : v = ⟨Ident.fill 0xBB, Ident.fill 0xAA⟩ := by
    simpa [sampleStale] using h0.symm
  rw [hv2] at hvx
  exact absurd hvx (by decide)

end Ronomon
